import Mathlib

/-!
Verification of the taxonomy tree-layout core.

This file shallowly embeds the tree-model utilities (`src/lib/tree-utils.ts`),
the pure core of the cascade delete (`src/lib/storage.ts`), and the layout
engine (`src/components/TreeView/useTreeLayout.ts`) as executable Lean
functions, and proves the behavioural properties claimed of them.

Modelling conventions:
* JavaScript numbers are modelled as rationals (all arithmetic in the layout
  engine is exact on the inputs considered: additions, halvings, max).
* The unbounded recursions of the source (`setDepth`, `calcSubtreeWidth`,
  `positionSubtree`, `getDescendants`, the ancestor `while` walk) are embedded
  with an explicit fuel argument; `none` means the recursion did not complete
  within the given fuel, so "diverges" is modelled as "`none` for every fuel".
* JS `Map` objects used only through `get`/`set` are modelled as functions
  `κ → Option v` updated pointwise; `nodeDepth`, whose `.values()` is
  enumerated, is modelled as an insertion-ordered association list.
* JS truthiness is modelled where it matters: `x || d` on numbers treats `0`
  and `undefined` as falsy (`jsOr`), `x ?? d` only `undefined` (`Option.getD`),
  and `while (current.parentId)` treats the empty string as falsy.
-/

namespace TaxSpec

/-- Sequential fold over a list threading a state through an `Option`-valued
body: the model of a JS `forEach`/`for` loop whose body mutates state and may
diverge (divergence of one iteration aborts the whole loop). -/
def optFold (f : α → σ → Option σ) : List α → σ → Option σ
  | [], s => some s
  | x :: xs, s =>
    match f x s with
    | none => none
    | some s' => optFold f xs s'

/-- JS `o || d` for an optional number: both `undefined` and `0` are falsy. -/
def jsOr (o : Option ℚ) (d : ℚ) : ℚ :=
  match o with
  | none => d
  | some w => if w = 0 then d else w

/-! ### Data model (`src/types/taxonomy.ts`) -/

/-- The persistent flat-list entity (`TaxonomyNode`).  Timestamps are carried
as plain strings; they play no role in any claimed property. -/
structure TaxonomyNode where
  id : String
  name : String
  description : Option String := none
  objective : Option String := none
  notes : Option String := none
  audiences : Option (List String) := none
  geographies : Option (List String) := none
  parentId : Option String := none
  level : String := ""
  order : Int := 0
  createdAt : String := ""
  updatedAt : String := ""
deriving DecidableEq, Repr

/-- The `data` payload of a React Flow node as produced by
`toReactFlowElements` (only the height-affecting and display fields). -/
structure NodeData where
  label : String := ""
  level : String := ""
  description : Option String := none
  objective : Option String := none
  audiences : Option (List String) := none
  geographies : Option (List String) := none
deriving DecidableEq, Repr

/-- A React Flow node as consumed by the layout (`id` plus `data`). -/
structure FlowNode where
  id : String
  data : NodeData
deriving DecidableEq, Repr

/-- A React Flow edge (parent `source` → child `target`). -/
structure FlowEdge where
  source : String
  target : String
deriving DecidableEq, Repr

/-- `toReactFlowElements`, node part: one flow node per taxonomy node. -/
def toFlowNodes (nodes : List TaxonomyNode) : List FlowNode :=
  nodes.map (fun n =>
    { id := n.id
      data := { label := n.name, level := n.level, description := n.description,
                objective := n.objective, audiences := n.audiences,
                geographies := n.geographies } })

/-- `toReactFlowElements`, edge part: one edge `parentId → id` for every node
with a non-null `parentId` (present or not in the node list). -/
def toFlowEdges (nodes : List TaxonomyNode) : List FlowEdge :=
  (nodes.filter (fun n => n.parentId ≠ none)).map
    (fun n => { source := n.parentId.getD "", target := n.id })

/-! ### Size model (`estimateNodeHeight`) -/

/-- Height contribution of the objective text: `20 + 16 * min 3 ⌈len/30⌉`
when the objective is a truthy (non-empty) string. -/
def objectiveHeight (objective : Option String) : ℚ :=
  match objective with
  | none => 0
  | some s => if s.length = 0 then 0 else 20 + 16 * ((min 3 ((s.length + 29) / 30) : ℕ) : ℚ)

/-- Height contribution of a pill block (audiences or geographies):
`10 + 22 * ⌈len/3⌉` when the list is present and non-empty. -/
def pillBlockHeight (tags : Option (List String)) : ℚ :=
  match tags with
  | none => 0
  | some l => if l.length = 0 then 0 else 10 + 22 * (((l.length + 2) / 3 : ℕ) : ℚ)

/-- `estimateNodeHeight`: fixed base 70 plus the content contributions. -/
def estimateNodeHeight (d : NodeData) : ℚ :=
  70 + objectiveHeight d.objective + pillBlockHeight d.audiences
    + pillBlockHeight d.geographies

/-! ### Layout constants and options -/

def NODE_WIDTH : ℚ := 220
def MIN_GAP_BETWEEN_TIERS : ℚ := 150
def HORIZONTAL_NODE_GAP : ℚ := 80

/-- The two options `calculateTreeLayout` destructures (with their defaults). -/
structure LayoutOptions where
  nodeWidth : ℚ := NODE_WIDTH
  nodeSep : ℚ := HORIZONTAL_NODE_GAP
deriving DecidableEq, Repr

/-! ### Adjacency (`childrenMap` / `parentMap`) -/

/-- `childrenMap.get(s) || []`: targets of the edges with source `s`, in edge
order (the imperative construction pushes targets in exactly this order). -/
def childrenOf (es : List FlowEdge) (s : String) : List String :=
  (es.filter (fun e => e.source == s)).map (fun e => e.target)

/-- `parentMap.has(t)`: some edge targets `t`. -/
def hasParent (es : List FlowEdge) (t : String) : Bool :=
  es.any (fun e => e.target == t)

/-- `nodes.filter((n) => !parentMap.has(n.id))`. -/
def layoutRoots (ns : List FlowNode) (es : List FlowEdge) : List FlowNode :=
  ns.filter (fun n => !(hasParent es n.id))

/-! ### Depth pass (`setDepth`) -/

/-- The `nodeDepth` map: insertion-ordered association list (its `.values()`
is enumerated for `maxDepth`). -/
abbrev DepthMap := List (String × Nat)

/-- JS `Map.set`: overwrite in place if present, else append. -/
def mset (m : DepthMap) (k : String) (v : Nat) : DepthMap :=
  if m.any (fun p => p.1 == k) then
    m.map (fun p => if p.1 == k then (k, v) else p)
  else m ++ [(k, v)]

/-- JS `Map.get` (first match; keys are unique by construction of `mset`). -/
def mget (m : DepthMap) (k : String) : Option Nat :=
  (m.find? (fun p => p.1 == k)).map (fun p => p.2)

/-- `setDepth(nodeId, depth)`: record the depth, then recurse into the
children.  Fuel bounds the recursion depth; the source has no such bound. -/
def setDepthF (c : String → List String) : Nat → String → Nat → DepthMap → Option DepthMap
  | 0, _, _, _ => none
  | fuel + 1, v, d, m =>
    optFold (fun ch acc => setDepthF c fuel ch (d + 1) acc) (c v) (mset m v d)

/-- `roots.forEach((root) => setDepth(root.id, 0))`. -/
def layoutDepthMap (fuel : Nat) (ns : List FlowNode) (es : List FlowEdge) : Option DepthMap :=
  optFold (fun r m => setDepthF (childrenOf es) fuel r.id 0 m) (layoutRoots ns es) []

/-- `Math.max(...Array.from(nodeDepth.values()), 0)`. -/
def layoutMaxDepth (dm : DepthMap) : Nat :=
  (dm.map (fun p => p.2)).foldr max 0

/-! ### Tier heights and y positions -/

abbrev LevelMap := Nat → Option ℚ

/-- `calculateLevelHeights`: running maximum of estimated heights per depth. -/
def calculateLevelHeights (ns : List FlowNode) (dm : DepthMap) : LevelMap :=
  ns.foldl (fun lh n =>
    let depth := (mget dm n.id).getD 0
    let nodeHeight := estimateNodeHeight n.data
    let currentMax := (lh depth).getD 0
    if nodeHeight > currentMax then (fun k => if k = depth then some nodeHeight else lh k)
    else lh)
    (fun _ => none)

/-- The `for (level = 0; level <= maxDepth; ...)` loop of
`calculateLevelYPositions`, as recursion on the remaining iteration count. -/
def levelYLoop (lh : LevelMap) (minGap : ℚ) : Nat → Nat → ℚ → LevelMap
  | 0, _, _ => fun _ => none
  | count + 1, level, currentY =>
    let rest := levelYLoop lh minGap count (level + 1) (currentY + jsOr (lh level) 100 + minGap)
    fun d => if d = level then some currentY else rest d

/-- `calculateLevelYPositions(levelHeights, maxDepth, minGap)`. -/
def calculateLevelYPositions (lh : LevelMap) (maxDepth : Nat) (minGap : ℚ) : LevelMap :=
  levelYLoop lh minGap (maxDepth + 1) 0 0

/-! ### Width pass (`calcSubtreeWidth`) -/

abbrev WidthMap := String → Option ℚ

def wset (m : WidthMap) (k : String) (v : ℚ) : WidthMap :=
  fun u => if u = k then some v else m u

/-- `calcSubtreeWidth(nodeId)`: leaf width is `nodeWidth`; an internal node
sums its children's widths, inserting `nodeSep` after every child except the
last (`if (index < children.length - 1)`), and records the total. -/
def calcSubtreeWidthF (c : String → List String) (nodeWidth nodeSep : ℚ) :
    Nat → String → WidthMap → Option (WidthMap × ℚ)
  | 0, _, _ => none
  | fuel + 1, v, m =>
    let children := c v
    if children.isEmpty then
      some (wset m v nodeWidth, nodeWidth)
    else
      match optFold (fun ch (acc : WidthMap × ℚ × Nat) =>
          match calcSubtreeWidthF c nodeWidth nodeSep fuel ch acc.1 with
          | none => none
          | some (m1, w) =>
            some (m1, acc.2.1 + w + (if acc.2.2 + 1 < children.length then nodeSep else 0),
                  acc.2.2 + 1))
        children (m, 0, 0) with
      | none => none
      | some (m2, total, _) => some (wset m2 v total, total)

/-- The value computed by `calcSubtreeWidth`, without the memo map (the map is
write-only during the computation, so the value depends only on `c`). -/
def wcalcF (c : String → List String) (nodeWidth nodeSep : ℚ) : Nat → String → Option ℚ
  | 0, _ => none
  | fuel + 1, v =>
    let children := c v
    if children.isEmpty then some nodeWidth
    else
      match optFold (fun ch (acc : ℚ × Nat) =>
          match wcalcF c nodeWidth nodeSep fuel ch with
          | none => none
          | some w =>
            some (acc.1 + w + (if acc.2 + 1 < children.length then nodeSep else 0), acc.2 + 1))
        children (0, 0) with
      | none => none
      | some (total, _) => some total

/-- `roots.forEach((root) => calcSubtreeWidth(root.id))`. -/
def layoutWidthMap (fuel : Nat) (ns : List FlowNode) (es : List FlowEdge)
    (nodeWidth nodeSep : ℚ) : Option WidthMap :=
  optFold (fun r m =>
      match calcSubtreeWidthF (childrenOf es) nodeWidth nodeSep fuel r.id m with
      | none => none
      | some (m', _) => some m')
    (layoutRoots ns es) (fun _ => none)

/-! ### Position pass (`positionSubtree`) -/

abbrev PosMap := String → Option (ℚ × ℚ)

def pset (p : PosMap) (k : String) (v : ℚ × ℚ) : PosMap :=
  fun u => if u = k then some v else p u

/-- `positionSubtree(nodeId, centerX)`: place the node at `(centerX, y)` where
`y = levelY.get(depth ?? 0) ?? 0`, then place the children left-to-right: the
running `childX` starts at `centerX - myWidth/2`; each child of width
`childWidth = subtreeWidth.get(childId) || nodeWidth` is positioned at center
`childX + childWidth/2` and advances `childX` by `childWidth + nodeSep`. -/
def positionSubtreeF (c : String → List String) (W : WidthMap) (dm : DepthMap)
    (ly : LevelMap) (nodeWidth nodeSep : ℚ) :
    Nat → String → ℚ → PosMap → Option PosMap
  | 0, _, _, _ => none
  | fuel + 1, v, centerX, p =>
    let depth := (mget dm v).getD 0
    let y := (ly depth).getD 0
    let p1 := pset p v (centerX, y)
    let children := c v
    if children.isEmpty then some p1
    else
      match optFold (fun ch (acc : PosMap × ℚ) =>
          match positionSubtreeF c W dm ly nodeWidth nodeSep fuel ch
              (acc.2 + jsOr (W ch) nodeWidth / 2) acc.1 with
          | none => none
          | some p2 => some (p2, acc.2 + jsOr (W ch) nodeWidth + nodeSep))
        children (p1, centerX - jsOr (W v) nodeWidth / 2) with
      | none => none
      | some (p2, _) => some p2

/-- `roots.reduce((sum, root, index) => sum + width + (index > 0 ? nodeSep*2 : 0), 0)`. -/
def totalRootWidth (roots : List FlowNode) (W : WidthMap) (nodeWidth nodeSep : ℚ) : ℚ :=
  (roots.foldl (fun (acc : ℚ × Nat) r =>
    (acc.1 + jsOr (W r.id) nodeWidth + (if acc.2 > 0 then nodeSep * 2 else 0), acc.2 + 1))
    (0, 0)).1

/-- The full internal position map of `calculateTreeLayout`: depth pass, tier
heights, y positions, width pass, then `positionSubtree` on each root placed
left-to-right starting at `-totalRootWidth/2` with gap `nodeSep * 2`. -/
def layoutPositions (fuel : Nat) (ns : List FlowNode) (es : List FlowEdge)
    (nodeWidth nodeSep : ℚ) : Option PosMap :=
  match layoutDepthMap fuel ns es with
  | none => none
  | some dm =>
    match layoutWidthMap fuel ns es nodeWidth nodeSep with
    | none => none
    | some W =>
      let c := childrenOf es
      let roots := layoutRoots ns es
      let lh := calculateLevelHeights ns dm
      let ly := calculateLevelYPositions lh (layoutMaxDepth dm) MIN_GAP_BETWEEN_TIERS
      let T := totalRootWidth roots W nodeWidth nodeSep
      match optFold (fun r (acc : PosMap × ℚ × Nat) =>
          match positionSubtreeF c W dm ly nodeWidth nodeSep fuel r.id
              ((if acc.2.2 > 0 then acc.2.1 + nodeSep * 2 else acc.2.1)
                + jsOr (W r.id) nodeWidth / 2) acc.1 with
          | none => none
          | some p' => some (p',
              (if acc.2.2 > 0 then acc.2.1 + nodeSep * 2 else acc.2.1)
                + jsOr (W r.id) nodeWidth, acc.2.2 + 1))
        roots ((fun _ => none), -(T / 2), 0) with
      | none => none
      | some (p, _, _) => some p

/-- A node together with its final assigned position (top-left corner:
the center x shifted left by `nodeWidth / 2`). -/
structure PositionedNode where
  id : String
  data : NodeData
  position : ℚ × ℚ
deriving DecidableEq, Repr

/-- `calculateTreeLayout(nodes, edges, options)`: empty input is returned
unchanged; otherwise every node gets `positions.get(id) || {x:0,y:0}` with
`x` shifted by `-nodeWidth/2`. -/
def calculateTreeLayoutF (fuel : Nat) (ns : List FlowNode) (es : List FlowEdge)
    (opts : LayoutOptions) : Option (List PositionedNode) :=
  if ns.isEmpty then some []
  else
    match layoutPositions fuel ns es opts.nodeWidth opts.nodeSep with
    | none => none
    | some p =>
      some (ns.map (fun n =>
        let pos := (p n.id).getD (0, 0)
        { id := n.id, data := n.data,
          position := (pos.1 - opts.nodeWidth / 2, pos.2) }))

/-! ### Tree-model utilities (`src/lib/tree-utils.ts`) -/

/-- `getDescendants(nodeId, nodes)`: ids of the direct children followed by
their descendants (`children.flatMap((c) => [c.id, ...getDescendants(c.id)])`).
The source recursion has no visited-set; fuel bounds it here. -/
def getDescendantsF (nodes : List TaxonomyNode) : Nat → String → Option (List String)
  | 0, _ => none
  | fuel + 1, nodeId =>
    let children := nodes.filter (fun n => n.parentId == some nodeId)
    optFold (fun child (acc : List String) =>
        match getDescendantsF nodes fuel child.id with
        | none => none
        | some ds => some (acc ++ child.id :: ds))
      children []

/-- The ancestor `while (current.parentId)` walk inside `searchNodes`: push
each `parentId`, stop on a missing parent (after pushing the dangling id) or
on a falsy (`null` or empty-string) `parentId`. -/
def collectAncestorsF (nodes : List TaxonomyNode) : Nat → TaxonomyNode → Option (List String)
  | 0, _ => none
  | fuel + 1, current =>
    match current.parentId with
    | none => some []
    | some pid =>
      if pid = "" then some []
      else
        match nodes.find? (fun n => n.id == pid) with
        | none => some [pid]
        | some parent =>
          match collectAncestorsF nodes fuel parent with
          | none => none
          | some rest => some (pid :: rest)

/-- JS `hay.includes(needle)` on strings. -/
def strIncludes (hay needle : String) : Bool :=
  decide (needle.data <:+: hay.data)

/-- JS `s.toLowerCase()`, modelled characterwise. -/
def jsToLower (s : String) : String :=
  ⟨s.data.map Char.toLower⟩

/-- JS `s.trim()`: strip leading and trailing whitespace. -/
def jsTrim (s : String) : String :=
  ⟨((s.data.dropWhile Char.isWhitespace).reverse.dropWhile Char.isWhitespace).reverse⟩

/-- `searchNodes(nodes, searchTerm)`: blank term returns the input; otherwise
collect, for every name-matching node, its id, its ancestor ids and its
descendant ids, and keep exactly the nodes whose id was collected. -/
def searchNodesF (nodes : List TaxonomyNode) (fuel : Nat) (searchTerm : String) :
    Option (List TaxonomyNode) :=
  if jsTrim searchTerm = "" then some nodes
  else
    let term := jsToLower searchTerm
    match optFold (fun node (acc : List String) =>
        if strIncludes (jsToLower node.name) term then
          match collectAncestorsF nodes fuel node with
          | none => none
          | some anc =>
            match getDescendantsF nodes fuel node.id with
            | none => none
            | some desc => some (acc ++ node.id :: (anc ++ desc))
        else some acc)
      nodes [] with
    | none => none
    | some matchingIds => some (nodes.filter (fun n => matchingIds.contains n.id))

/-- Stable insertion of `x` after every already-placed element whose `order`
is `≤ x.order`. -/
def insertByOrder (x : TaxonomyNode) : List TaxonomyNode → List TaxonomyNode
  | [] => [x]
  | y :: ys => if y.order ≤ x.order then y :: insertByOrder x ys else x :: y :: ys

/-- JS stable `sort((a, b) => a.order - b.order)`: ascending by `order`,
ties kept in input order (modelled as a stable insertion sort). -/
def sortByOrder (l : List TaxonomyNode) : List TaxonomyNode :=
  l.foldl (fun acc x => insertByOrder x acc) []

/-- The nested view `TreeNode`: a taxonomy node with its sorted children. -/
inductive TreeNode where
  | mk (node : TaxonomyNode) (children : List TreeNode)

def TreeNode.node : TreeNode → TaxonomyNode
  | .mk n _ => n

def TreeNode.children : TreeNode → List TreeNode
  | .mk _ c => c

/-- `buildTree`, denotationally: the children of a node are the nodes whose
`parentId` matches its id (stable-sorted by `order`); a node whose `parentId`
names a missing id is attached nowhere and hence absent from the result.
Fuel bounds the recursion (the source assumes acyclic input here). -/
def buildSubtreeF (nodes : List TaxonomyNode) : Nat → TaxonomyNode → Option TreeNode
  | 0, _ => none
  | fuel + 1, n =>
    let kids := sortByOrder (nodes.filter (fun m => m.parentId == some n.id))
    match optFold (fun k (acc : List TreeNode) =>
        match buildSubtreeF nodes fuel k with
        | none => none
        | some t => some (acc ++ [t]))
      kids [] with
    | none => none
    | some ts => some (.mk n ts)

/-- `buildTree(nodes)`: the forest of subtrees of the `parentId === null`
nodes, roots stable-sorted by `order`. -/
def buildTreeF (nodes : List TaxonomyNode) (fuel : Nat) : Option (List TreeNode) :=
  optFold (fun r (acc : List TreeNode) =>
      match buildSubtreeF nodes fuel r with
      | none => none
      | some t => some (acc ++ [t]))
    (sortByOrder (nodes.filter (fun n => n.parentId == none))) []

mutual

/-- All taxonomy nodes occurring in a built tree. -/
def TreeNode.flatten : TreeNode → List TaxonomyNode
  | .mk n cs => n :: flattenForest cs

/-- All taxonomy nodes occurring in a list of built trees. -/
def flattenForest : List TreeNode → List TaxonomyNode
  | [] => []
  | t :: ts => TreeNode.flatten t ++ flattenForest ts

end

/-! ### Cascade delete (`deleteNode` in `src/lib/storage.ts`, file branch) -/

/-- The pure core of `deleteNode`: compute `[id, ...getDescendants(id)]` and
filter them out of the stored list; returns the deleted ids and the new list. -/
def deleteNodePure (nodes : List TaxonomyNode) (fuel : Nat) (id : String) :
    Option (List String × List TaxonomyNode) :=
  match getDescendantsF nodes fuel id with
  | none => none
  | some ds =>
    let idsToDelete := id :: ds
    some (idsToDelete, nodes.filter (fun n => !(idsToDelete.contains n.id)))

/-! ## Basic lemmas about the loop combinator -/

theorem optFold_cons_inv {f : α → σ → Option σ} {x : α} {xs : List α} {s s' : σ}
    (h : optFold f (x :: xs) s = some s') :
    ∃ s₁, f x s = some s₁ ∧ optFold f xs s₁ = some s' := by
  cases hfx : f x s with
  | none => simp [optFold, hfx] at h
  | some s₁ => exact ⟨s₁, rfl, by simpa [optFold, hfx] using h⟩

theorem optFold_cons_some {f : α → σ → Option σ} {x : α} {xs : List α} {s s₁ : σ}
    (h : f x s = some s₁) : optFold f (x :: xs) s = optFold f xs s₁ := by
  simp [optFold, h]

/-- Invariant preservation through an `optFold`. -/
theorem optFold_pres {f : α → σ → Option σ} {P : σ → Prop} :
    ∀ {l : List α} {s s' : σ}, optFold f l s = some s' → P s →
      (∀ x ∈ l, ∀ t t', P t → f x t = some t' → P t') → P s'
  | [], _, _, h, hP, _ => by cases h; exact hP
  | x :: xs, s, s', h, hP, hstep => by
    obtain ⟨s₁, hfx, hrest⟩ := optFold_cons_inv h
    exact optFold_pres hrest (hstep x (by simp) s s₁ hP hfx)
      (fun y hy => hstep y (by simp [hy]))

/-! ## The descendant relation and `getDescendants` -/

/-- `b` is a strict descendant of the id `a`: there is a non-empty downward
`parentId`-chain from `a` to `b`. -/
inductive DescOf (nodes : List TaxonomyNode) : String → String → Prop
  | here {a : String} {n : TaxonomyNode} : n ∈ nodes → n.parentId = some a →
      DescOf nodes a n.id
  | there {a b : String} {n : TaxonomyNode} : n ∈ nodes → n.parentId = some a →
      DescOf nodes n.id b → DescOf nodes a b

/-- Extending a descendant chain one step downwards. -/
theorem DescOf.down {nodes : List TaxonomyNode} {a q : String}
    (h : DescOf nodes a q) {n : TaxonomyNode} (hn : n ∈ nodes)
    (hp : n.parentId = some q) : DescOf nodes a n.id := by
  induction h with
  | here hx hpx => exact .there hx hpx (.here hn hp)
  | there hx hpx _ ih => exact .there hx hpx (ih hp)

/-- Inverting a descendant chain at its bottom end. -/
theorem DescOf.bottom {nodes : List TaxonomyNode} {a b : String}
    (h : DescOf nodes a b) :
    ∃ n ∈ nodes, n.id = b ∧ (n.parentId = some a ∨
      ∃ q, n.parentId = some q ∧ DescOf nodes a q) := by
  induction h with
  | here hx hpx => exact ⟨_, hx, rfl, .inl hpx⟩
  | there hx hpx _ ih =>
    obtain ⟨n, hn, hid, hcase⟩ := ih
    refine ⟨n, hn, hid, .inr ?_⟩
    rcases hcase with hq | ⟨q, hq, hdq⟩
    · exact ⟨_, hq, .here hx hpx⟩
    · exact ⟨q, hq, .there hx hpx hdq⟩

/-- Membership characterization for the inner fold of `getDescendantsF`. -/
theorem getDescendantsF_fold_mem {nodes : List TaxonomyNode} {fuel : Nat}
    (IH : ∀ a l, getDescendantsF nodes fuel a = some l →
      ∀ x, x ∈ l ↔ DescOf nodes a x) :
    ∀ {cs : List TaxonomyNode} {acc out : List String},
      optFold (fun child (acc : List String) =>
        match getDescendantsF nodes fuel child.id with
        | none => none
        | some ds => some (acc ++ child.id :: ds)) cs acc = some out →
      ∀ x, x ∈ out ↔ x ∈ acc ∨ ∃ ch ∈ cs, x = ch.id ∨ DescOf nodes ch.id x
  | [], acc, out, h, x => by cases h; simp
  | ch :: cs, acc, out, h, x => by
    obtain ⟨s₁, hfx, hrest⟩ := optFold_cons_inv h
    cases hds : getDescendantsF nodes fuel ch.id with
    | none => rw [hds] at hfx; cases hfx
    | some ds =>
      rw [hds] at hfx
      cases hfx
      have := getDescendantsF_fold_mem IH hrest x
      rw [this]
      constructor
      · rintro (hx | hx)
        · simp only [List.mem_append, List.mem_cons] at hx
          rcases hx with hx | hx | hx
          · exact .inl hx
          · exact .inr ⟨ch, by simp, .inl hx⟩
          · exact .inr ⟨ch, by simp, .inr ((IH _ _ hds x).mp hx)⟩
        · obtain ⟨c, hc, hcx⟩ := hx
          exact .inr ⟨c, by simp [hc], hcx⟩
      · rintro (hx | ⟨c, hc, hcx⟩)
        · exact .inl (by simp [hx])
        · rcases List.mem_cons.mp hc with rfl | hc


          · rcases hcx with rfl | hd
            · exact .inl (by simp)
            · exact .inl (by simp [(IH _ _ hds x).mpr hd])
          · exact .inr ⟨c, hc, hcx⟩

/-- What `getDescendants` returns, when it terminates: exactly the strict
descendants of the queried id. -/
theorem getDescendantsF_mem {nodes : List TaxonomyNode} :
    ∀ {fuel : Nat} {a : String} {l : List String},
      getDescendantsF nodes fuel a = some l → ∀ x, x ∈ l ↔ DescOf nodes a x
  | 0, a, l, h => by cases h
  | fuel + 1, a, l, h => by
    intro x
    have hmem := @getDescendantsF_fold_mem nodes fuel
      (fun a l h => getDescendantsF_mem h)
      (nodes.filter (fun n => n.parentId == some a)) [] l
      (by simpa [getDescendantsF] using h) x
    rw [hmem]
    simp only [List.mem_nil_iff, false_or, List.mem_filter, beq_iff_eq]
    constructor
    · rintro ⟨ch, ⟨hch, hp⟩, rfl | hd⟩
      · exact .here hch hp
      · exact .there hch hp hd
    · intro hd
      cases hd with
      | here hn hp => exact ⟨_, ⟨hn, hp⟩, .inl rfl⟩
      | there hn hp hd => exact ⟨_, ⟨hn, hp⟩, .inr hd⟩

/-! ## Divergence of `getDescendants` on cyclic input -/

/-- One half of a two-element `parentId` cycle. -/
def cycA : TaxonomyNode := { id := "a", name := "a", parentId := some "b" }

/-- The other half of the two-element `parentId` cycle. -/
def cycB : TaxonomyNode := { id := "b", name := "b", parentId := some "a" }

theorem getDescendantsF_cyc_none : ∀ fuel : Nat,
    getDescendantsF [cycA, cycB] fuel "a" = none ∧
    getDescendantsF [cycA, cycB] fuel "b" = none
  | 0 => ⟨rfl, rfl⟩
  | fuel + 1 => by
    have ih := getDescendantsF_cyc_none fuel
    obtain ⟨ih1, ih2⟩ := ih
    simp only [cycA, cycB] at ih1 ih2
    constructor
    · simp +decide [getDescendantsF, cycA, cycB, optFold, ih2]
    · simp +decide [getDescendantsF, cycA, cycB, optFold, ih1]

/-- `getDescendants nodes a` diverges: the fuel-indexed embedding fails to
terminate within any amount of fuel. -/
def descDiverges (nodes : List TaxonomyNode) (a : String) : Prop :=
  ∀ fuel : Nat, getDescendantsF nodes fuel a = none

/-- C6 counterexample: on the two-element `parentId` cycle a↔b,
`getDescendants` recurses forever — the fuel-indexed embedding returns `none`
at every fuel, so no bound (visited-set, depth cap or revisit detection)
exists in the code and the claimed termination fails. -/
theorem C6_counterexample : descDiverges [cycA, cycB] "a" :=
  fun fuel => (getDescendantsF_cyc_none fuel).1

/-! ## Cascade delete (claim C9) -/

/-- C9: for a stored node list, deleting node id `a` removes exactly `a`
together with every strict descendant of `a` (the ids `descendantsOf(a)`
returns), and leaves every other node unchanged and in order: whenever the
delete completes, the deleted-id list is exactly `{a} ∪ descendants(a)`, and
the remaining list is the sublist of the input whose members are exactly the
nodes with an id outside that set. -/
theorem C9_delete_cascade_exact {nodes : List TaxonomyNode} {fuel : Nat} {a : String}
    {dels : List String} {out : List TaxonomyNode}
    (h : deleteNodePure nodes fuel a = some (dels, out)) :
    (∀ x, x ∈ dels ↔ x = a ∨ DescOf nodes a x) ∧
    out.Sublist nodes ∧
    (∀ n, n ∈ out ↔ n ∈ nodes ∧ ¬(n.id = a ∨ DescOf nodes a n.id)) := by
  cases hds : getDescendantsF nodes fuel a with
  | none =>
    simp only [deleteNodePure, hds] at h
    exact Option.noConfusion h
  | some ds =>
    simp only [deleteNodePure, hds, Option.some.injEq, Prod.mk.injEq] at h
    obtain ⟨hdels, hout⟩ := h
    subst hdels hout
    have hmem := getDescendantsF_mem hds
    refine ⟨?_, List.filter_sublist _, ?_⟩
    · intro x
      rw [List.mem_cons, hmem x]
    · intro n
      rw [List.mem_filter]
      simp [List.elem_iff, hmem n.id]

/-- Concrete input for the C9 witness: a two-level chain plus an unrelated
root. -/
def wDel1 : TaxonomyNode := { id := "1", name := "Pillar One" }

def wDel2 : TaxonomyNode := { id := "2", name := "Theme", parentId := some "1" }

def wDel3 : TaxonomyNode := { id := "3", name := "DeepTopic", parentId := some "2" }

def wDel4 : TaxonomyNode := { id := "4", name := "Unrelated" }

/-- Witness for C9 at a concrete store: deleting `"2"` deletes exactly
`"2"` and its descendant `"3"`, keeping `"1"` and `"4"` unchanged. -/
theorem C9_witness :
    deleteNodePure [wDel1, wDel2, wDel3, wDel4] 10 "2" =
      some (["2", "3"], [wDel1, wDel4]) ∧
    (∀ x, x ∈ ["2", "3"] ↔ x = "2" ∨ DescOf [wDel1, wDel2, wDel3, wDel4] "2" x) :=
  ⟨by decide,
    (@C9_delete_cascade_exact [wDel1, wDel2, wDel3, wDel4] 10 "2" ["2", "3"]
      [wDel1, wDel4] (by decide)).1⟩

/-! ## Search with context (claim C8) -/

/-- Ids are pairwise distinct (data-model invariant: `id` is unique). -/
def NodupIds (nodes : List TaxonomyNode) : Prop :=
  (nodes.map TaxonomyNode.id).Nodup

/-- Every non-null `parentId` names a node of the list (forest invariant). -/
def ParentsPresent (nodes : List TaxonomyNode) : Prop :=
  ∀ n ∈ nodes, n.parentId = none ∨ ∃ q ∈ nodes, n.parentId = some q.id

/-- Ids are non-empty strings (ids are assigned at creation and opaque;
the empty string is JS-falsy and would stop the ancestor walk early). -/
def IdsNonempty (nodes : List TaxonomyNode) : Prop :=
  ∀ n ∈ nodes, n.id ≠ ""

theorem nodupIds_inj {nodes : List TaxonomyNode} (hN : NodupIds nodes)
    {m n : TaxonomyNode} (hm : m ∈ nodes) (hn : n ∈ nodes) (h : m.id = n.id) :
    m = n :=
  List.inj_on_of_nodup_map hN hm hn h

/-- The ancestor walk collects exactly the ids that `m.id` strictly descends
from, on a well-formed store. -/
theorem collectAncestorsF_mem {nodes : List TaxonomyNode}
    (hN : NodupIds nodes) (hP : ParentsPresent nodes) (hE : IdsNonempty nodes) :
    ∀ {fuel : Nat} {m : TaxonomyNode} {anc : List String}, m ∈ nodes →
      collectAncestorsF nodes fuel m = some anc →
      ∀ a, a ∈ anc ↔ DescOf nodes a m.id
  | 0, m, anc, _, h => by cases h
  | fuel + 1, m, anc, hm, h => by
    intro a
    cases hpid : m.parentId with
    | none =>
      simp only [collectAncestorsF, hpid] at h
      cases h
      simp only [List.mem_nil_iff, false_iff]
      intro hd
      obtain ⟨n, hn, hid, hcase⟩ := hd.bottom
      have : n = m := nodupIds_inj hN hn hm hid
      subst this
      rcases hcase with hq | ⟨q, hq, _⟩ <;> rw [hpid] at hq <;> cases hq
    | some pid =>
      obtain ⟨q, hq, hqid⟩ : ∃ q ∈ nodes, pid = q.id := by
        rcases hP m hm with h0 | ⟨q, hq, hqid⟩
        · rw [hpid] at h0; cases h0
        · rw [hpid] at hqid; exact ⟨q, hq, (Option.some.injEq _ _).mp hqid⟩
      have hpid' : pid ≠ "" := by rw [hqid]; exact hE q hq
      simp only [collectAncestorsF, hpid, if_neg hpid'] at h
      cases hfind : nodes.find? (fun n => n.id == pid) with
      | none =>
        exfalso
        have := List.find?_eq_none.mp hfind q hq
        simp [hqid] at this
      | some parent =>
        simp only [hfind] at h
        have hpmem : parent ∈ nodes := List.mem_of_find?_eq_some hfind
        have hpid2 : parent.id = pid := by
          have := List.find?_some hfind
          simpa using this
        cases hrec : collectAncestorsF nodes fuel parent with
        | none =>
          simp only [hrec] at h
          exact Option.noConfusion h
        | some rest =>
          simp only [hrec, Option.some.injEq] at h
          subst h
          have ih := collectAncestorsF_mem hN hP hE hpmem hrec
          rw [List.mem_cons, ih a]
          constructor
          · rintro (rfl | hd)
            · exact .here hm hpid
            · exact hd.down hm (by rw [hpid, hpid2])
          · intro hd
            obtain ⟨n, hn, hid, hcase⟩ := hd.bottom
            have : n = m := nodupIds_inj hN hn hm hid
            subst this
            rcases hcase with hq' | ⟨q', hq', hdq⟩
            · rw [hpid] at hq'
              exact .inl (Option.some.injEq _ _ |>.mp hq').symm
            · rw [hpid] at hq'
              have : q' = pid := (Option.some.injEq _ _ |>.mp hq').symm
              subst this
              exact .inr (by rw [hpid2]; exact hdq)

/-- Membership characterization (and inner-call success) for the
match-collecting fold of `searchNodes`. -/
theorem searchNodesF_fold_mem {nodes : List TaxonomyNode} {fuel : Nat} {term : String} :
    ∀ {cs : List TaxonomyNode} {acc out : List String},
      optFold (fun node (acc : List String) =>
        if strIncludes (jsToLower node.name) term then
          match collectAncestorsF nodes fuel node with
          | none => none
          | some anc =>
            match getDescendantsF nodes fuel node.id with
            | none => none
            | some desc => some (acc ++ node.id :: (anc ++ desc))
        else some acc) cs acc = some out →
      (∀ m ∈ cs, strIncludes (jsToLower m.name) term = true →
        (∃ anc, collectAncestorsF nodes fuel m = some anc) ∧
        (∃ ds, getDescendantsF nodes fuel m.id = some ds)) ∧
      (∀ x, x ∈ out ↔ x ∈ acc ∨ ∃ m ∈ cs, strIncludes (jsToLower m.name) term = true ∧
        (x = m.id ∨ (∃ anc, collectAncestorsF nodes fuel m = some anc ∧ x ∈ anc) ∨
          (∃ ds, getDescendantsF nodes fuel m.id = some ds ∧ x ∈ ds)))
  | [], acc, out, h => by cases h; simp
  | m :: cs, acc, out, h => by
    obtain ⟨s₁, hfx, hrest⟩ := optFold_cons_inv h
    by_cases hmatch : strIncludes (jsToLower m.name) term = true
    · rw [if_pos hmatch] at hfx
      cases hanc : collectAncestorsF nodes fuel m with
      | none => rw [hanc] at hfx; cases hfx
      | some anc =>
        rw [hanc] at hfx
        cases hdesc : getDescendantsF nodes fuel m.id with
        | none => rw [hdesc] at hfx; cases hfx
        | some desc =>
          rw [hdesc] at hfx
          cases hfx
          obtain ⟨ihs, ihm⟩ := searchNodesF_fold_mem hrest
          constructor
          · intro m' hm' hmatch'
            rcases List.mem_cons.mp hm' with rfl | hm'
            · exact ⟨⟨anc, hanc⟩, ⟨desc, hdesc⟩⟩
            · exact ihs m' hm' hmatch'
          · intro x
            rw [ihm x]
            simp only [List.mem_append, List.mem_cons]
            constructor
            · rintro ((hx | hx | hx | hx) | ⟨c, hc, hcx⟩)
              · exact .inl hx
              · exact .inr ⟨m, by simp, hmatch, .inl hx⟩
              · exact .inr ⟨m, by simp, hmatch, .inr (.inl ⟨anc, hanc, hx⟩)⟩
              · exact .inr ⟨m, by simp, hmatch, .inr (.inr ⟨desc, hdesc, hx⟩)⟩
              · exact .inr ⟨c, by simp [hc], hcx⟩
            · rintro (hx | ⟨c, hc, hmc, hcx⟩)
              · exact .inl (.inl hx)
              · rcases hc with rfl | hc
                · rcases hcx with rfl | ⟨anc', hanc', hx⟩ | ⟨ds', hds', hx⟩
                  · exact .inl (.inr (.inl rfl))
                  · rw [hanc] at hanc'; cases hanc'
                    exact .inl (.inr (.inr (.inl hx)))
                  · rw [hdesc] at hds'; cases hds'
                    exact .inl (.inr (.inr (.inr hx)))
                · exact .inr ⟨c, hc, hmc, hcx⟩
    · rw [if_neg hmatch] at hfx
      cases hfx
      obtain ⟨ihs, ihm⟩ := searchNodesF_fold_mem hrest
      constructor
      · intro m' hm' hmatch'
        rcases List.mem_cons.mp hm' with rfl | hm'
        · exact absurd hmatch' hmatch
        · exact ihs m' hm' hmatch'
      · intro x
        rw [ihm x]
        constructor
        · rintro (hx | ⟨c, hc, hcx⟩)
          · exact .inl hx
          · exact .inr ⟨c, by simp [hc], hcx⟩
        · rintro (hx | ⟨c, hc, hmc, hcx⟩)
          · exact .inl hx
          · rcases List.mem_cons.mp hc with rfl | hc
            · exact absurd hmc hmatch
            · exact .inr ⟨c, hc, hmc, hcx⟩

/-- C8: on a well-formed store (unique non-empty ids, parents present),
whenever `searchNodes` completes it performs a case-insensitive substring
match on `name` and returns exactly the nodes that match, are a strict
ancestor of a match, or are a strict descendant of a match — and a blank
(empty or whitespace-only) term returns the unfiltered input list. -/
theorem C8_search_context {nodes : List TaxonomyNode}
    (hN : NodupIds nodes) (hP : ParentsPresent nodes) (hE : IdsNonempty nodes)
    {fuel : Nat} {term : String} {res : List TaxonomyNode}
    (h : searchNodesF nodes fuel term = some res) :
    (jsTrim term = "" → res = nodes) ∧
    (jsTrim term ≠ "" → ∀ n, n ∈ res ↔ n ∈ nodes ∧
      (strIncludes (jsToLower n.name) (jsToLower term) = true ∨
        ∃ m ∈ nodes, strIncludes (jsToLower m.name) (jsToLower term) = true ∧
          (DescOf nodes n.id m.id ∨ DescOf nodes m.id n.id))) := by
  by_cases htrim : jsTrim term = ""
  · rw [searchNodesF, if_pos htrim] at h
    cases h
    exact ⟨fun _ => rfl, fun hne => absurd htrim hne⟩
  · simp only [searchNodesF, if_neg htrim] at h
    refine ⟨fun heq => absurd heq htrim, fun _ n => ?_⟩
    cases hfold : optFold (fun node (acc : List String) =>
        if strIncludes (jsToLower node.name) (jsToLower term) then
          match collectAncestorsF nodes fuel node with
          | none => none
          | some anc =>
            match getDescendantsF nodes fuel node.id with
            | none => none
            | some desc => some (acc ++ node.id :: (anc ++ desc))
        else some acc) nodes [] with
    | none => rw [hfold] at h; cases h
    | some matchingIds =>
      rw [hfold] at h
      cases h
      obtain ⟨_, hmem⟩ := searchNodesF_fold_mem hfold
      rw [List.mem_filter]
      have hcont : (matchingIds.contains n.id = true) ↔ n.id ∈ matchingIds := by
        simp [List.elem_iff]
      rw [hcont, hmem n.id]
      simp only [List.mem_nil_iff, false_or]
      constructor
      · rintro ⟨hn, m, hm, hmatch, hcase⟩
        refine ⟨hn, ?_⟩
        rcases hcase with hid | ⟨anc, hanc, hx⟩ | ⟨ds, hds, hx⟩
        · have : n = m := nodupIds_inj hN hn hm hid
          subst this
          exact .inl hmatch
        · exact .inr ⟨m, hm, hmatch,
            .inl ((collectAncestorsF_mem hN hP hE hm hanc n.id).mp hx)⟩
        · exact .inr ⟨m, hm, hmatch, .inr ((getDescendantsF_mem hds n.id).mp hx)⟩
      · rintro ⟨hn, hmatch | ⟨m, hm, hmatch, hrel⟩⟩
        · exact ⟨hn, n, hn, hmatch, .inl rfl⟩
        · refine ⟨hn, m, hm, hmatch, ?_⟩
          rcases hrel with hup | hdown
          · obtain ⟨⟨anc, hanc⟩, _⟩ := (searchNodesF_fold_mem hfold).1 m hm hmatch
            exact .inr (.inl ⟨anc, hanc,
              (collectAncestorsF_mem hN hP hE hm hanc n.id).mpr hup⟩)
          · obtain ⟨_, ⟨ds, hds⟩⟩ := (searchNodesF_fold_mem hfold).1 m hm hmatch
            exact .inr (.inr ⟨ds, hds, (getDescendantsF_mem hds n.id).mpr hdown⟩)

/-- Witness for C8 at a concrete store: searching `"DeepTop"` keeps the
matching node `"3"`, its ancestors `"2"` and `"1"`, and drops `"4"`. -/
theorem C8_witness :
    searchNodesF [wDel1, wDel2, wDel3, wDel4] 10 "DeepTop" =
      some [wDel1, wDel2, wDel3] ∧
    (wDel4 ∈ [wDel1, wDel2, wDel3] ↔ wDel4 ∈ [wDel1, wDel2, wDel3, wDel4] ∧
      (strIncludes (jsToLower wDel4.name) (jsToLower "DeepTop") = true ∨
        ∃ m ∈ [wDel1, wDel2, wDel3, wDel4],
          strIncludes (jsToLower m.name) (jsToLower "DeepTop") = true ∧
          (DescOf [wDel1, wDel2, wDel3, wDel4] wDel4.id m.id ∨
            DescOf [wDel1, wDel2, wDel3, wDel4] m.id wDel4.id))) :=
  ⟨by decide,
    (@C8_search_context [wDel1, wDel2, wDel3, wDel4]
        (by unfold NodupIds; decide) (by unfold ParentsPresent; decide)
        (by unfold IdsNonempty; decide) 10 "DeepTop" [wDel1, wDel2, wDel3]
        (by decide)).2 (by decide) wDel4⟩

/-! ## Reachability along the children map -/

/-- `u` is reachable from `v` by following `childrenMap` downwards. -/
inductive ReachC (c : String → List String) : String → String → Prop
  | refl (v : String) : ReachC c v v
  | step {v ch u : String} : ch ∈ c v → ReachC c ch u → ReachC c v u

/-- A strict reach has a last step. -/
theorem ReachC.last_step {c : String → List String} {v u : String}
    (h : ReachC c v u) : u = v ∨ ∃ w, ReachC c v w ∧ u ∈ c w := by
  induction h with
  | refl => exact .inl rfl
  | step hch _ ih =>
    rcases ih with rfl | ⟨w, hw, hu⟩
    · exact .inr ⟨_, .refl _, hch⟩
    · exact .inr ⟨w, .step hch hw, hu⟩

theorem ReachC.trans {c : String → List String} {a b d : String}
    (h₁ : ReachC c a b) (h₂ : ReachC c b d) : ReachC c a d := by
  induction h₁ with
  | refl => exact h₂
  | step hch _ ih => exact .step hch (ih h₂)

/-- On an input whose edges all target node ids, everything strictly
reachable is an edge target. -/
theorem ReachC.target_of_ne {es : List FlowEdge} {v u : String}
    (h : ReachC (childrenOf es) v u) (hne : u ≠ v) :
    ∃ e ∈ es, e.target = u := by
  rcases h.last_step with rfl | ⟨w, _, hu⟩
  · exact absurd rfl hne
  · simp only [childrenOf, List.mem_map, List.mem_filter] at hu
    obtain ⟨e, ⟨he, _⟩, rfl⟩ := hu
    exact ⟨e, he, rfl⟩

/-! ## The position pass touches exactly the reachable entries -/

theorem posFold_domain {c : String → List String} {W : WidthMap} {dm : DepthMap}
    {ly : LevelMap} {nw sep : ℚ} {fuel : Nat}
    (IH : ∀ ch (cX : ℚ) (q q' : PosMap),
      positionSubtreeF c W dm ly nw sep fuel ch cX q = some q' →
      ∀ u, q' u = q u ∨ ReachC c ch u) :
    ∀ {cs : List String} {st st' : PosMap × ℚ},
      optFold (fun ch (acc : PosMap × ℚ) =>
        match positionSubtreeF c W dm ly nw sep fuel ch
            (acc.2 + jsOr (W ch) nw / 2) acc.1 with
        | none => none
        | some p2 => some (p2, acc.2 + jsOr (W ch) nw + sep)) cs st = some st' →
      ∀ u, st'.1 u = st.1 u ∨ ∃ ch ∈ cs, ReachC c ch u
  | [], st, st', h, u => by cases h; exact .inl rfl
  | ch :: cs, st, st', h, u => by
    obtain ⟨s₁, hfx, hrest⟩ := optFold_cons_inv h
    cases hps : positionSubtreeF c W dm ly nw sep fuel ch
        (st.2 + jsOr (W ch) nw / 2) st.1 with
    | none => rw [hps] at hfx; cases hfx
    | some p2 =>
      rw [hps] at hfx
      cases hfx
      rcases posFold_domain IH hrest u with h1 | ⟨ch', hch', hr⟩
      · rcases IH ch _ _ _ hps u with h2 | hr
        · exact .inl (h1.trans h2)
        · exact .inr ⟨ch, by simp, hr⟩
      · exact .inr ⟨ch', by simp [hch'], hr⟩

/-- Entries not reachable from `v` are untouched by `positionSubtree(v, ·)`. -/
theorem positionSubtreeF_domain {c : String → List String} {W : WidthMap}
    {dm : DepthMap} {ly : LevelMap} {nw sep : ℚ} :
    ∀ {fuel : Nat} {v : String} {cX : ℚ} {p p' : PosMap},
      positionSubtreeF c W dm ly nw sep fuel v cX p = some p' →
      ∀ u, p' u = p u ∨ ReachC c v u
  | 0, v, cX, p, p', h => by cases h
  | fuel + 1, v, cX, p, p', h => by
    intro u
    by_cases huv : u = v
    · subst huv
      exact .inr (.refl u)
    simp only [positionSubtreeF] at h
    by_cases hemp : (c v).isEmpty
    · rw [if_pos hemp] at h
      cases h
      exact .inl (by simp [pset, huv])
    · rw [if_neg hemp] at h
      cases hfold : optFold (fun ch (acc : PosMap × ℚ) =>
          match positionSubtreeF c W dm ly nw sep fuel ch
              (acc.2 + jsOr (W ch) nw / 2) acc.1 with
          | none => none
          | some p2 => some (p2, acc.2 + jsOr (W ch) nw + sep)) (c v)
          (pset p v (cX, (ly ((mget dm v).getD 0)).getD 0), cX - jsOr (W v) nw / 2) with
      | none => rw [hfold] at h; cases h
      | some st' =>
        rw [hfold] at h
        cases h
        rcases posFold_domain (fun ch cX q q' h => positionSubtreeF_domain h)
            hfold u with h1 | ⟨ch, hch, hr⟩
        · exact .inl (h1.trans (by simp [pset, huv]))
        · exact .inr (.step hch hr)

/-- After the whole position pass, the map holds entries only for ids
reachable from some root. -/
theorem layoutPositions_domain {fuel : Nat} {ns : List FlowNode}
    {es : List FlowEdge} {nw sep : ℚ} {p : PosMap}
    (h : layoutPositions fuel ns es nw sep = some p) :
    ∀ u, p u = none ∨ ∃ r ∈ layoutRoots ns es, ReachC (childrenOf es) r.id u := by
  cases hdm : layoutDepthMap fuel ns es with
  | none =>
    simp only [layoutPositions, hdm] at h
    exact Option.noConfusion h
  | some dm =>
    cases hW : layoutWidthMap fuel ns es nw sep with
    | none =>
      simp only [layoutPositions, hdm, hW] at h
      exact Option.noConfusion h
    | some W =>
      simp only [layoutPositions, hdm, hW] at h
      cases hfold : optFold (fun r (acc : PosMap × ℚ × Nat) =>
          match positionSubtreeF (childrenOf es) W dm
              (calculateLevelYPositions (calculateLevelHeights ns dm)
                (layoutMaxDepth dm) MIN_GAP_BETWEEN_TIERS) nw sep fuel r.id
              ((if acc.2.2 > 0 then acc.2.1 + sep * 2 else acc.2.1)
                + jsOr (W r.id) nw / 2) acc.1 with
          | none => none
          | some p' => some (p',
              (if acc.2.2 > 0 then acc.2.1 + sep * 2 else acc.2.1)
                + jsOr (W r.id) nw, acc.2.2 + 1))
        (layoutRoots ns es)
        ((fun _ => none), -(totalRootWidth (layoutRoots ns es) W nw sep / 2), 0) with
      | none =>
        rw [hfold] at h
        exact Option.noConfusion h
      | some st =>
        obtain ⟨p₀, x₀, k₀⟩ := st
        rw [hfold] at h
        cases h
        intro u
        refine optFold_pres (P := fun (acc : PosMap × ℚ × Nat) =>
          acc.1 u = none ∨ ∃ r ∈ layoutRoots ns es, ReachC (childrenOf es) r.id u)
          hfold (.inl rfl) ?_
        intro r hr t t' hP hbody
        cases hps : positionSubtreeF (childrenOf es) W dm
            (calculateLevelYPositions (calculateLevelHeights ns dm)
              (layoutMaxDepth dm) MIN_GAP_BETWEEN_TIERS) nw sep fuel r.id
            ((if t.2.2 > 0 then t.2.1 + sep * 2 else t.2.1)
              + jsOr (W r.id) nw / 2) t.1 with
        | none => rw [hps] at hbody; cases hbody
        | some p' =>
          rw [hps] at hbody
          cases hbody
          rcases positionSubtreeF_domain hps u with h1 | hr2
          · rcases hP with h2 | h2
            · exact .inl (h1.trans h2)
            · exact .inr h2
          · exact .inr ⟨r, hr, hr2⟩

/-! ## Claim C10: totality of the layout output -/

/-- C10: whenever `calculateTreeLayout` returns, its output lists exactly the
input nodes (same ids, same order) — no node is omitted — and any node that
the top-down positioning pass never reached (it is not reachable from any
root, e.g. its `parentId` dangles) is returned at the fallback position
`(0 - nodeWidth/2, 0)`. -/
theorem C10_layout_total {fuel : Nat} {ns : List FlowNode} {es : List FlowEdge}
    {opts : LayoutOptions} {out : List PositionedNode}
    (h : calculateTreeLayoutF fuel ns es opts = some out) :
    out.map PositionedNode.id = ns.map FlowNode.id ∧
    (∀ n ∈ ns, (¬ ∃ r ∈ layoutRoots ns es, ReachC (childrenOf es) r.id n.id) →
      ∃ pn ∈ out, pn.id = n.id ∧ pn.position = (0 - opts.nodeWidth / 2, 0)) := by
  by_cases hemp : ns.isEmpty
  · rw [calculateTreeLayoutF, if_pos hemp] at h
    cases h
    rcases List.isEmpty_iff.mp hemp
    exact ⟨rfl, by simp⟩
  · rw [calculateTreeLayoutF, if_neg hemp] at h
    cases hp : layoutPositions fuel ns es opts.nodeWidth opts.nodeSep with
    | none => rw [hp] at h; cases h
    | some p =>
      rw [hp] at h
      cases h
      constructor
      · simp [List.map_map, Function.comp]
      · intro n hn hnr
        refine ⟨_, List.mem_map_of_mem _ hn, rfl, ?_⟩
        rcases layoutPositions_domain hp n.id with hnone | hreach
        · simp [hnone]
        · exact absurd hreach hnr

/-- Nodes for the C10/C7 witness: a root plus a node with a dangling parent. -/
def dglA : TaxonomyNode := { id := "A", name := "A" }

/-- A node whose `parentId` names a missing node. -/
def dglB : TaxonomyNode := { id := "B", name := "B", parentId := some "missing" }

/-- Witness for C10: on the concrete store with a dangling parent, the layout
returns both nodes (none omitted), with matching id lists. -/
theorem C10_witness :
    (∃ out, calculateTreeLayoutF 3 (toFlowNodes [dglA, dglB])
        (toFlowEdges [dglA, dglB]) {} = some out ∧
      out.map PositionedNode.id =
        (toFlowNodes [dglA, dglB]).map FlowNode.id) := by
  refine ⟨_, rfl, ?_⟩
  exact (@C10_layout_total 3 (toFlowNodes [dglA, dglB]) (toFlowEdges [dglA, dglB])
    {} _ (by rfl)).1

/-! ## `buildTree` and dangling parents (claim C7) -/

theorem mem_insertByOrder {x a : TaxonomyNode} :
    ∀ {l : List TaxonomyNode}, a ∈ insertByOrder x l ↔ a = x ∨ a ∈ l
  | [] => by simp [insertByOrder]
  | y :: ys => by
    by_cases hle : y.order ≤ x.order
    · simp only [insertByOrder, if_pos hle, List.mem_cons, mem_insertByOrder]
      tauto
    · simp only [insertByOrder, if_neg hle, List.mem_cons]

theorem mem_sortByOrder {a : TaxonomyNode} {l : List TaxonomyNode} :
    a ∈ sortByOrder l ↔ a ∈ l := by
  suffices h : ∀ (l acc : List TaxonomyNode),
      a ∈ l.foldl (fun acc x => insertByOrder x acc) acc ↔ a ∈ acc ∨ a ∈ l by
    simpa [sortByOrder] using h l []
  intro l
  induction l with
  | nil => simp
  | cons x xs ih =>
    intro acc
    rw [List.foldl_cons, ih, mem_insertByOrder]
    simp
    tauto

theorem flatten_mk (n : TaxonomyNode) (cs : List TreeNode) :
    (TreeNode.mk n cs).flatten = n :: flattenForest cs := rfl

theorem mem_flattenForest {t : TaxonomyNode} :
    ∀ {ts : List TreeNode}, t ∈ flattenForest ts ↔ ∃ tr ∈ ts, t ∈ tr.flatten
  | [] => by simp [flattenForest]
  | tr :: ts => by
    simp only [flattenForest, List.mem_append, mem_flattenForest, List.mem_cons]
    constructor
    · rintro (h | ⟨tr', htr', ht⟩)
      · exact ⟨tr, .inl rfl, h⟩
      · exact ⟨tr', .inr htr', ht⟩
    · rintro ⟨tr', rfl | htr', ht⟩
      · exact .inl ht
      · exact .inr ⟨tr', htr', ht⟩

/-- The tree-collecting folds of `buildTree` build one tree per processed
node, in order. -/
theorem optFold_collect {α β : Type} {f : α → List β → Option (List β)}
    (g : α → Option β)
    (hfg : ∀ k acc, f k acc = (g k).map (fun t => acc ++ [t])) :
    ∀ {l : List α} {acc out : List β},
      optFold f l acc = some out →
      ∃ ts, out = acc ++ ts ∧ List.Forall₂ (fun k t => g k = some t) l ts
  | [], acc, out, h => by
    cases h
    exact ⟨[], by simp, .nil⟩
  | k :: l, acc, out, h => by
    obtain ⟨s₁, hfx, hrest⟩ := optFold_cons_inv h
    rw [hfg] at hfx
    cases hg : g k with
    | none => rw [hg] at hfx; cases hfx
    | some t =>
      rw [hg] at hfx
      cases hfx
      obtain ⟨ts, rfl, hf⟩ := optFold_collect g hfg hrest
      exact ⟨t :: ts, by simp, .cons hg hf⟩

theorem forall₂_exists_right {α β : Type} {R : α → β → Prop} :
    ∀ {l : List α} {ts : List β}, List.Forall₂ R l ts →
      ∀ x ∈ l, ∃ t ∈ ts, R x t := by
  intro l ts h
  induction h with
  | nil => simp
  | cons hR _ ih =>
    intro x hx
    rcases List.mem_cons.mp hx with rfl | hx
    · exact ⟨_, by simp, hR⟩
    · obtain ⟨t, ht, hr⟩ := ih x hx
      exact ⟨t, by simp [ht], hr⟩

/-- A successfully built subtree is rooted at the queried node. -/
theorem buildSubtreeF_node {nodes : List TaxonomyNode} :
    ∀ {fuel : Nat} {n : TaxonomyNode} {tr : TreeNode},
      buildSubtreeF nodes fuel n = some tr →
      ∃ ts, tr = .mk n ts ∧
        List.Forall₂ (fun k t => buildSubtreeF nodes (fuel - 1) k = some t)
          (sortByOrder (nodes.filter (fun m => m.parentId == some n.id))) ts
  | 0, n, tr, h => by cases h
  | fuel + 1, n, tr, h => by
    simp only [buildSubtreeF] at h
    cases hfold : optFold (fun k (acc : List TreeNode) =>
        match buildSubtreeF nodes fuel k with
        | none => none
        | some t => some (acc ++ [t]))
      (sortByOrder (nodes.filter (fun m => m.parentId == some n.id))) [] with
    | none => rw [hfold] at h; exact Option.noConfusion h
    | some ts =>
      rw [hfold] at h
      cases h
      obtain ⟨ts', hts', hf⟩ :=
        optFold_collect (buildSubtreeF nodes fuel) (fun k acc => by
          cases buildSubtreeF nodes fuel k <;> rfl) hfold
      simp only [List.nil_append] at hts'
      subst hts'
      exact ⟨ts, rfl, hf⟩

theorem forall₂_exists_left {α β : Type} {R : α → β → Prop} :
    ∀ {l : List α} {ts : List β}, List.Forall₂ R l ts →
      ∀ t ∈ ts, ∃ x ∈ l, R x t := by
  intro l ts h
  induction h with
  | nil => simp
  | cons hR _ ih =>
    intro t ht
    rcases List.mem_cons.mp ht with rfl | ht
    · exact ⟨_, by simp, hR⟩
    · obtain ⟨x, hx, hr⟩ := ih t ht
      exact ⟨x, by simp [hx], hr⟩

/-- Every node of a built subtree is either the subtree's root itself, or its
`parentId` names the subtree's root or some node of the list. -/
theorem buildSubtreeF_flatten_sound {nodes : List TaxonomyNode} :
    ∀ {fuel : Nat} {n : TaxonomyNode} {tr : TreeNode},
      buildSubtreeF nodes fuel n = some tr →
      ∀ t ∈ tr.flatten,
        t = n ∨ ∃ m, t.parentId = some m.id ∧ (m = n ∨ m ∈ nodes)
  | 0, n, tr, h => by cases h
  | fuel + 1, n, tr, h => by
    obtain ⟨ts, rfl, hf⟩ := buildSubtreeF_node h
    intro t ht
    rw [flatten_mk, List.mem_cons] at ht
    rcases ht with rfl | ht
    · exact .inl rfl
    · obtain ⟨tk, htk, httk⟩ := mem_flattenForest.mp ht
      obtain ⟨k, hk, hbuild⟩ := forall₂_exists_left hf tk htk
      rw [mem_sortByOrder, List.mem_filter, beq_iff_eq] at hk
      rcases buildSubtreeF_flatten_sound hbuild t httk with rfl | ⟨m, hm, hcase⟩
      · exact .inr ⟨n, hk.2, .inl rfl⟩
      · rcases hcase with rfl | hmem
        · exact .inr ⟨m, hm, .inr hk.1⟩
        · exact .inr ⟨m, hm, .inr hmem⟩

/-- Every node appearing anywhere in the built forest either has a null
`parentId` or a `parentId` naming a node of the list: a node with a dangling
parent reference appears nowhere in the derived tree. -/
theorem buildTreeF_flatten_sound {nodes : List TaxonomyNode} {fuel : Nat}
    {F : List TreeNode} (h : buildTreeF nodes fuel = some F) :
    ∀ t ∈ flattenForest F, t.parentId = none ∨ ∃ m ∈ nodes, t.parentId = some m.id := by
  obtain ⟨ts, hts, hf⟩ :=
    optFold_collect (buildSubtreeF nodes fuel) (fun k acc => by
      cases buildSubtreeF nodes fuel k <;> rfl) h
  simp only [List.nil_append] at hts
  subst hts
  intro t ht
  obtain ⟨tr, htr, httr⟩ := mem_flattenForest.mp ht
  obtain ⟨r, hr, hbuild⟩ := forall₂_exists_left hf tr htr
  rw [mem_sortByOrder, List.mem_filter, beq_iff_eq] at hr
  rcases buildSubtreeF_flatten_sound hbuild t httr with rfl | ⟨m, hm, hcase⟩
  · exact .inl hr.2
  · rcases hcase with rfl | hmem
    · exact .inr ⟨m, hr.1, hm⟩
    · exact .inr ⟨m, hmem, hm⟩

/-- Every `parentId = null` node still appears in the built forest. -/
theorem buildTreeF_roots_mem {nodes : List TaxonomyNode} {fuel : Nat}
    {F : List TreeNode} (h : buildTreeF nodes fuel = some F) :
    ∀ n ∈ nodes, n.parentId = none → n ∈ flattenForest F := by
  obtain ⟨ts, hts, hf⟩ :=
    optFold_collect (buildSubtreeF nodes fuel) (fun k acc => by
      cases buildSubtreeF nodes fuel k <;> rfl) h
  simp only [List.nil_append] at hts
  subst hts
  intro n hn hroot
  have hmem : n ∈ sortByOrder (nodes.filter (fun n => n.parentId == none)) := by
    rw [mem_sortByOrder, List.mem_filter]
    simp [hn, hroot]
  obtain ⟨tr, htr, hbuild⟩ := forall₂_exists_right hf n hmem
  obtain ⟨ts', rfl, _⟩ := buildSubtreeF_node hbuild
  exact mem_flattenForest.mpr ⟨_, htr, by rw [flatten_mk]; simp⟩

/-- C7 (amended): a dangling `parentId` never throws and does not block the
rest — every `parentId = null` node is still built and laid out — but the
offending node is *not* treated as an effective root: `buildTree` omits it
from the derived tree entirely, the layout does not treat it as a root, and
the positioning pass never reaches it, so it gets the fallback position
`(0 - nodeWidth/2, 0)` instead of a root placement. -/
theorem C7_dangling_parent {nodes : List TaxonomyNode} {b : TaxonomyNode} {pid : String}
    (hN : NodupIds nodes) (hb : b ∈ nodes) (hp : b.parentId = some pid)
    (hmiss : pid ∉ nodes.map TaxonomyNode.id) :
    (∀ fuel F, buildTreeF nodes fuel = some F →
      b ∉ flattenForest F ∧ ∀ n ∈ nodes, n.parentId = none → n ∈ flattenForest F) ∧
    (∀ fn ∈ layoutRoots (toFlowNodes nodes) (toFlowEdges nodes), fn.id ≠ b.id) ∧
    (∀ fuel (opts : LayoutOptions) out,
      calculateTreeLayoutF fuel (toFlowNodes nodes) (toFlowEdges nodes) opts = some out →
      ∃ pn ∈ out, pn.id = b.id ∧ pn.position = (0 - opts.nodeWidth / 2, 0)) := by
  have hedge : { source := pid, target := b.id : FlowEdge } ∈ toFlowEdges nodes := by
    simp only [toFlowEdges, List.mem_map, List.mem_filter]
    exact ⟨b, ⟨hb, by simp [hp]⟩, by simp [hp]⟩
  have htargets : ∀ e ∈ toFlowEdges nodes, e.target ∈ nodes.map TaxonomyNode.id := by
    intro e he
    simp only [toFlowEdges, List.mem_map, List.mem_filter] at he
    obtain ⟨n, ⟨hn, _⟩, rfl⟩ := he
    exact List.mem_map_of_mem _ hn
  have htargetb : ∀ e ∈ toFlowEdges nodes, e.target = b.id → e.source = pid := by
    intro e he heq
    simp only [toFlowEdges, List.mem_map, List.mem_filter] at he
    obtain ⟨n, ⟨hn, _⟩, rfl⟩ := he
    have : n = b := nodupIds_inj hN hn hb heq
    subst this
    simp [hp]
  have hnoreach : ∀ r ∈ layoutRoots (toFlowNodes nodes) (toFlowEdges nodes),
      ¬ ReachC (childrenOf (toFlowEdges nodes)) r.id b.id := by
    intro r hr hreach
    have hrid : r.id ≠ b.id := by
      intro heq
      simp only [layoutRoots, List.mem_filter, hasParent] at hr
      have := hr.2
      rw [heq] at this
      simp only [Bool.not_eq_true', List.any_eq_false] at this
      exact absurd (by simp : ({ source := pid, target := b.id : FlowEdge }.target == b.id) = true)
        (by simpa using this _ hedge)
    obtain ⟨e, he, het⟩ := hreach.target_of_ne (by exact fun h => hrid h.symm)
    have hsrc : e.source = pid := htargetb e he het
    rcases hreach.last_step with heq | ⟨w, hw, hbw⟩
    · exact hrid heq.symm
    · simp only [childrenOf, List.mem_map, List.mem_filter] at hbw
      obtain ⟨e', ⟨he', hsrc'⟩, het'⟩ := hbw
      have : e' = e := by
        have h1 := htargetb e' he' het'
        rcases e' with ⟨s', t'⟩
        rcases e with ⟨s, t⟩
        simp_all
      subst this
      rw [beq_iff_eq] at hsrc'
      rw [hsrc] at hsrc'
      subst hsrc'
      rcases hw.last_step with heqw | ⟨w2, _, hww⟩
      · apply hmiss
        rw [heqw]
        simp only [layoutRoots, List.mem_filter] at hr
        have := hr.1
        simp only [toFlowNodes, List.mem_map] at this
        obtain ⟨n, hn, rfl⟩ := this
        exact List.mem_map_of_mem _ hn
      · simp only [childrenOf, List.mem_map, List.mem_filter] at hww
        obtain ⟨e2, ⟨he2, _⟩, het2⟩ := hww
        exact hmiss (het2 ▸ htargets e2 he2)
  refine ⟨?_, ?_, ?_⟩
  · intro fuel F hF
    constructor
    · intro hbf
      rcases buildTreeF_flatten_sound hF b hbf with h0 | ⟨m, hm, hpm⟩
      · rw [hp] at h0; cases h0
      · rw [hp] at hpm
        exact hmiss ((Option.some.injEq _ _ |>.mp hpm) ▸ List.mem_map_of_mem _ hm)
    · exact buildTreeF_roots_mem hF
  · intro fn hfn heq
    simp only [layoutRoots, List.mem_filter, hasParent] at hfn
    have := hfn.2
    rw [heq] at this
    simp only [Bool.not_eq_true', List.any_eq_false] at this
    exact absurd (by simp : ({ source := pid, target := b.id : FlowEdge }.target == b.id) = true)
      (by simpa using this _ hedge)
  · intro fuel opts out h
    have hne : (toFlowNodes nodes).isEmpty = false := by
      cases nodes with
      | nil => cases hb
      | cons x xs => simp [toFlowNodes]
    rw [calculateTreeLayoutF, if_neg (by simp [hne])] at h
    cases hpmap : layoutPositions fuel (toFlowNodes nodes) (toFlowEdges nodes)
        opts.nodeWidth opts.nodeSep with
    | none => rw [hpmap] at h; exact Option.noConfusion h
    | some p =>
      rw [hpmap] at h
      cases h
      have hbnone : p b.id = none := by
        rcases layoutPositions_domain hpmap b.id with h0 | ⟨r, hr, hreach⟩
        · exact h0
        · exact absurd hreach (hnoreach r hr)
      obtain ⟨fn, hfn, hfnid⟩ : ∃ fn ∈ toFlowNodes nodes, fn.id = b.id := by
        simp only [toFlowNodes, List.mem_map]
        exact ⟨_, ⟨b, hb, rfl⟩, rfl⟩
      refine ⟨_, List.mem_map_of_mem _ hfn, by simp [hfnid], ?_⟩
      simp [hfnid, hbnone]

/-- C7 counterexample: with input `[A (root), B (parentId = "missing")]`,
the derived tree contains only `A` — the node with the dangling parent
reference does not appear in the derived tree, contrary to the claim. -/
theorem C7_counterexample :
    buildTreeF [dglA, dglB] 2 = some [TreeNode.mk dglA []] ∧
    (flattenForest [TreeNode.mk dglA []]).map TaxonomyNode.id = ["A"] ∧
    dglB.parentId = some "missing" ∧
    "missing" ∉ [dglA, dglB].map TaxonomyNode.id :=
  ⟨rfl, rfl, rfl, by decide⟩

/-- Witness for the amended C7 at the concrete two-node input: `B` is not a
layout root and is returned at the fallback position. -/
theorem C7_witness :
    (∀ fn ∈ layoutRoots (toFlowNodes [dglA, dglB]) (toFlowEdges [dglA, dglB]),
      fn.id ≠ dglB.id) ∧
    (∃ pn ∈ (calculateTreeLayoutF 3 (toFlowNodes [dglA, dglB])
        (toFlowEdges [dglA, dglB]) {}).getD [],
      pn.id = dglB.id ∧ pn.position = (0 - (220 : ℚ) / 2, 0)) := by
  have h := @C7_dangling_parent [dglA, dglB] dglB "missing"
    (by unfold NodupIds; decide) (by decide) rfl (by decide)
  refine ⟨h.2.1, ?_⟩
  obtain ⟨pn, hpn, hid, hpos⟩ := h.2.2 3 {} _ rfl
  exact ⟨pn, hpn, hid, hpos⟩

/-! ## Termination of the depth pass (claim C6, amended) -/

/-- All recursion paths from `v` down the children map are shorter than
`fuel`. -/
def TravTerm (c : String → List String) : Nat → String → Prop
  | 0, _ => False
  | fuel + 1, v => ∀ ch ∈ c v, TravTerm c fuel ch

theorem optFold_isSome {f : α → σ → Option σ} :
    ∀ {l : List α}, (∀ x ∈ l, ∀ s, ∃ s', f x s = some s') →
      ∀ s, ∃ s', optFold f l s = some s'
  | [], _, s => ⟨s, rfl⟩
  | x :: xs, h, s => by
    obtain ⟨s₁, hs₁⟩ := h x (List.mem_cons_self x xs) s
    obtain ⟨s', hs'⟩ := optFold_isSome (fun y hy => h y (List.mem_cons_of_mem x hy)) s₁
    exact ⟨s', by rw [optFold_cons_some hs₁, hs']⟩

/-- `setDepth` completes whenever all recursion paths fit in the fuel. -/
theorem setDepthF_isSome {c : String → List String} :
    ∀ {fuel : Nat} {v : String}, TravTerm c fuel v →
      ∀ d m, ∃ m', setDepthF c fuel v d m = some m'
  | 0, v, h => absurd h (by simp [TravTerm])
  | fuel + 1, v, h => by
    intro d m
    exact optFold_isSome (fun ch hch s => setDepthF_isSome (h ch hch) (d + 1) s)
      (mset m v d)

/-- A Nodup list whose members all lie in `ids` is no longer than `ids`. -/
theorem nodup_length_le {l ids : List String} (hn : l.Nodup)
    (hsub : ∀ x ∈ l, x ∈ ids) : l.length ≤ ids.length := by
  calc l.length = l.toFinset.card := (List.toFinset_card_of_nodup hn).symm
    _ ≤ ids.toFinset.card := Finset.card_le_card
        (fun x hx => List.mem_toFinset.mpr (hsub x (List.mem_toFinset.mp hx)))
    _ ≤ ids.length := ids.toFinset_card_le

/-- The key termination argument: when every child edge points away from a
functional parent map (`pf`) into `ids`, any recursion path starting at the
end of a simple root-anchored parent chain stays simple, so its length is
bounded by the number of distinct ids. -/
theorem travTerm_of_parent_chain {c : String → List String}
    (pf : String → Option String) (ids : List String)
    (Hpf : ∀ v ch, ch ∈ c v → pf ch = some v)
    (Hmem : ∀ v ch, ch ∈ c v → ch ∈ ids) :
    ∀ (fuel : Nat) (r : String) (rest : List String) (v : String),
      (r :: rest).getLast? = some v →
      pf r = none →
      (r :: rest).Chain' (fun a b => pf b = some a) →
      (r :: rest).Nodup →
      (∀ x ∈ rest, x ∈ ids) →
      ids.length + 2 ≤ fuel + (r :: rest).length →
      TravTerm c fuel v := by
  intro fuel
  induction fuel with
  | zero =>
    intro r rest v _ _ _ hnodup hsub hlen
    exfalso
    have h1 : rest.length ≤ ids.length :=
      nodup_length_le (List.Nodup.of_cons hnodup) hsub
    simp only [List.length_cons, Nat.zero_add] at hlen
    omega
  | succ fuel ih =>
    intro r rest v hlast hroot hchain hnodup hsub hlen
    intro ch hch
    have hpfch : pf ch = some v := Hpf v ch hch
    have hchids : ch ∈ ids := Hmem v ch hch
    have hchnot : ch ∉ r :: rest := by
      intro hchmem
      obtain ⟨l₁, l₂, hdecomp⟩ := List.append_of_mem hchmem
      cases l₁ with
      | nil =>
        simp only [List.nil_append] at hdecomp
        injection hdecomp with h1 h2
        rw [← h1] at hpfch
        rw [hroot] at hpfch
        cases hpfch
      | cons x l₁' =>
        obtain ⟨l₁'', w, heqlw⟩ : ∃ l₁'' w, x :: l₁' = l₁'' ++ [w] :=
          ⟨(x :: l₁').dropLast, (x :: l₁').getLast (by simp), by
            rw [List.dropLast_append_getLast]⟩
        rw [show (x :: l₁' : List String) ++ ch :: l₂ = (l₁'' ++ [w]) ++ ch :: l₂ by
          rw [heqlw]] at hdecomp
        have hRwch : pf ch = some w := by
          have hch2 := hchain
          rw [hdecomp] at hch2
          have := (List.chain'_append.mp hch2).2.2
          exact this w (by simp [List.getLast?_concat]) ch (by simp)
        have hwv : w = v := by
          rw [hpfch] at hRwch
          exact (Option.some.injEq _ _ |>.mp hRwch).symm
        subst hwv
        have hlast2 : (ch :: l₂).getLast? = some w := by
          have h3 : (r :: rest).getLast? = (ch :: l₂).getLast? := by
            rw [hdecomp, List.getLast?_append_cons]
          rw [hlast] at h3
          exact h3.symm
        have hvmem : w ∈ ch :: l₂ := by
          obtain ⟨hne, heq⟩ := List.mem_getLast?_eq_getLast (Option.mem_def.mpr hlast2)
          rw [heq]
          exact List.getLast_mem hne
        have hnd : (w :: ch :: l₂).Nodup := by
          have : (w :: ch :: l₂) <:+ (r :: rest) := by
            rw [hdecomp, List.append_assoc]
            simp only [List.cons_append, List.singleton_append]
            exact ⟨l₁'', by simp⟩
          exact this.sublist.nodup hnodup
        exact (List.nodup_cons.mp hnd).1 hvmem
    refine ih r (rest ++ [ch]) ch ?_ hroot ?_ ?_ ?_ ?_
    · rw [show r :: (rest ++ [ch]) = (r :: rest) ++ [ch] by simp]
      exact List.getLast?_concat _
    · rw [show r :: (rest ++ [ch]) = (r :: rest) ++ [ch] by simp]
      rw [List.chain'_append]
      refine ⟨hchain, List.chain'_singleton _, ?_⟩
      intro x hx y hy
      rw [hlast] at hx
      simp only [Option.mem_def, Option.some.injEq] at hx
      simp only [List.head?_cons, Option.mem_def, Option.some.injEq] at hy
      subst hx
      subst hy
      exact hpfch
    · rw [show r :: (rest ++ [ch]) = (r :: rest) ++ [ch] by simp]
      rw [List.nodup_append]
      exact ⟨hnodup, List.nodup_singleton _, by
        intro x hx
        simp only [List.mem_singleton]
        intro hxc
        subst hxc
        exact hchnot hx⟩
    · intro x hx
      rcases List.mem_append.mp hx with hx | hx
      · exact hsub x hx
      · rw [List.mem_singleton] at hx
        subst hx
        exact hchids
    · simp only [List.length_cons, List.length_append, List.length_singleton]
      simp only [List.length_cons] at hlen
      omega

/-- C6 (amended): the depth computation terminates on every node list with
unique ids, including lists whose `parentId` edges contain a cycle: a cycle
member is never a root and never reachable from a root, so `setDepth` simply
never visits it (it is not treated as a root; it is left out of the depth
map).  Fuel `nodes.length + 1` always suffices — descendant collection, by
contrast, diverges on cycles (see its counterexample). -/
theorem C6_depth_terminates {nodes : List TaxonomyNode} (hN : NodupIds nodes) :
    ∃ dm, layoutDepthMap (nodes.length + 1) (toFlowNodes nodes)
      (toFlowEdges nodes) = some dm := by
  have htne : (toFlowEdges nodes).map FlowEdge.target =
      (nodes.filter (fun n => n.parentId ≠ none)).map TaxonomyNode.id := by
    simp [toFlowEdges, List.map_map, Function.comp]
  have htnodup : ((toFlowEdges nodes).map FlowEdge.target).Nodup := by
    rw [htne]
    exact ((List.filter_sublist _).map _).nodup hN
  have hpf : ∀ v ch, ch ∈ childrenOf (toFlowEdges nodes) v →
      ((toFlowEdges nodes).find? (fun e => e.target == ch)).map
        (fun e => e.source) = some v := by
    intro v ch hch
    simp only [childrenOf, List.mem_map, List.mem_filter] at hch
    obtain ⟨e, ⟨he, hsrc⟩, rfl⟩ := hch
    cases hfind : (toFlowEdges nodes).find? (fun e' => e'.target == e.target) with
    | none =>
      exfalso
      have := List.find?_eq_none.mp hfind e he
      simp at this
    | some e' =>
      have he'mem : e' ∈ toFlowEdges nodes := List.mem_of_find?_eq_some hfind
      have he't : e'.target = e.target := by
        have := List.find?_some hfind
        simpa using this
      have : e' = e := List.inj_on_of_nodup_map htnodup he'mem he he't
      subst this
      rw [beq_iff_eq] at hsrc
      simp [hsrc]
  have hmem : ∀ v ch, ch ∈ childrenOf (toFlowEdges nodes) v →
      ch ∈ (toFlowEdges nodes).map FlowEdge.target := by
    intro v ch hch
    simp only [childrenOf, List.mem_map, List.mem_filter] at hch
    obtain ⟨e, ⟨he, _⟩, rfl⟩ := hch
    exact List.mem_map_of_mem _ he
  apply optFold_isSome
  intro r hr m
  apply setDepthF_isSome
  have hroot : ((toFlowEdges nodes).find? (fun e => e.target == r.id)).map
      (fun e => e.source) = none := by
    simp only [layoutRoots, List.mem_filter, hasParent, Bool.not_eq_true',
      List.any_eq_false] at hr
    cases hfind : (toFlowEdges nodes).find? (fun e => e.target == r.id) with
    | none => rfl
    | some e =>
      exfalso
      have hemem := List.mem_of_find?_eq_some hfind
      have het := List.find?_some hfind
      rw [beq_iff_eq] at het
      exact absurd het (by simpa using hr.2 e hemem)
  have harith : ((toFlowEdges nodes).map FlowEdge.target).length + 2 ≤
      (nodes.length + 1) + ([r.id] : List String).length := by
    have hlen : ((toFlowEdges nodes).map FlowEdge.target).length ≤ nodes.length := by
      rw [htne, List.length_map]
      exact List.length_filter_le _ _
    simp only [List.length_singleton]
    omega
  exact travTerm_of_parent_chain
    (fun t => ((toFlowEdges nodes).find? (fun e => e.target == t)).map
      (fun e => e.source))
    ((toFlowEdges nodes).map FlowEdge.target) hpf hmem (nodes.length + 1)
    r.id [] r.id rfl hroot (List.chain'_singleton _) (List.nodup_singleton _)
    (by simp) harith

/-- Witness for the amended C6: on the two-node `parentId` cycle itself, the
depth pass terminates (with the empty depth map: no roots exist). -/
theorem C6_witness :
    ∃ dm, layoutDepthMap 3 (toFlowNodes [cycA, cycB])
      (toFlowEdges [cycA, cycB]) = some dm :=
  @C6_depth_terminates [cycA, cycB] (by unfold NodupIds; decide)

/-! ## Determinism / non-interference of the layout (claim C4) -/

theorem map_filter_congr {α β : Type} (f : α → β) (p : β → Bool)
    {q : α → Bool} (hq : ∀ x, q x = p (f x)) :
    ∀ {l₁ l₂ : List α}, l₁.map f = l₂.map f →
      (l₁.filter q).map f = (l₂.filter q).map f
  | [], [], _ => rfl
  | [], y :: l₂, h => by cases h
  | x :: l₁, [], h => by cases h
  | x :: l₁, y :: l₂, h => by
    simp only [List.map_cons, List.cons.injEq] at h
    obtain ⟨hxy, hrest⟩ := h
    rw [List.filter_cons, List.filter_cons, hq x, hq y, hxy]
    cases hp : p (f y) with
    | false => simpa using map_filter_congr f p hq hrest
    | true => simpa [hxy] using map_filter_congr f p hq hrest

theorem optFold_congr_map {α β σ : Type} (f : α → β) (F : β → σ → Option σ)
    {g : α → σ → Option σ} (hg : ∀ x s, g x s = F (f x) s) :
    ∀ {l₁ l₂ : List α}, l₁.map f = l₂.map f → ∀ s,
      optFold g l₁ s = optFold g l₂ s
  | [], [], _, s => rfl
  | [], y :: l₂, h, s => by cases h
  | x :: l₁, [], h, s => by cases h
  | x :: l₁, y :: l₂, h, s => by
    simp only [List.map_cons, List.cons.injEq] at h
    obtain ⟨hxy, hrest⟩ := h
    show (match g x s with
      | none => none
      | some s' => optFold g l₁ s') = (match g y s with
      | none => none
      | some s' => optFold g l₂ s')
    rw [hg x s, hg y s, hxy]
    cases F (f y) s with
    | none => rfl
    | some s' => exact optFold_congr_map f F hg hrest s'

theorem foldl_congr_map {α β σ : Type} (f : α → β) (G : σ → β → σ)
    {g : σ → α → σ} (hg : ∀ s x, g s x = G s (f x)) :
    ∀ {l₁ l₂ : List α}, l₁.map f = l₂.map f → ∀ s,
      l₁.foldl g s = l₂.foldl g s
  | [], [], _, s => rfl
  | [], y :: l₂, h, s => by cases h
  | x :: l₁, [], h, s => by cases h
  | x :: l₁, y :: l₂, h, s => by
    simp only [List.map_cons, List.cons.injEq] at h
    obtain ⟨hxy, hrest⟩ := h
    rw [List.foldl_cons, List.foldl_cons, hg s x, hg s y, hxy]
    exact foldl_congr_map f G hg hrest _

/-- The height-relevant key of a flow node: its id and estimated height. -/
def heightKey (n : FlowNode) : String × ℚ :=
  (n.id, estimateNodeHeight n.data)

/-- C4: the layout is deterministic, and its position map depends only on the
node ids (in order), the edge list, and the height-affecting content: two
node lists with equal ids and equal estimated heights (labels, descriptions
and any other field may differ) yield identical `(id, position)` maps under
the same edges and options.  In particular running the layout twice on the
same input yields the same positions. -/
theorem C4_layout_deterministic {fuel : Nat} {ns₁ ns₂ : List FlowNode}
    {es : List FlowEdge} {opts : LayoutOptions}
    (h : ns₁.map heightKey = ns₂.map heightKey) :
    (calculateTreeLayoutF fuel ns₁ es opts).map
      (List.map (fun pn => (pn.id, pn.position))) =
    (calculateTreeLayoutF fuel ns₂ es opts).map
      (List.map (fun pn => (pn.id, pn.position))) := by
  have hid : ns₁.map FlowNode.id = ns₂.map FlowNode.id := by
    have h2 := congrArg (List.map Prod.fst) h
    simpa only [List.map_map] using h2
  have hroots : (layoutRoots ns₁ es).map FlowNode.id =
      (layoutRoots ns₂ es).map FlowNode.id := by
    unfold layoutRoots
    exact map_filter_congr FlowNode.id (fun i => !(hasParent es i))
      (fun x => rfl) hid
  have hdm : layoutDepthMap fuel ns₁ es = layoutDepthMap fuel ns₂ es := by
    unfold layoutDepthMap
    exact optFold_congr_map FlowNode.id
      (fun i m => setDepthF (childrenOf es) fuel i 0 m) (fun x s => rfl) hroots []
  have hW : ∀ nw sep, layoutWidthMap fuel ns₁ es nw sep =
      layoutWidthMap fuel ns₂ es nw sep := by
    intro nw sep
    unfold layoutWidthMap
    exact optFold_congr_map FlowNode.id
      (fun i m => match calcSubtreeWidthF (childrenOf es) nw sep fuel i m with
        | none => none
        | some (m', _) => some m') (fun x s => rfl) hroots (fun _ => none)
  have hlh : ∀ dm, calculateLevelHeights ns₁ dm = calculateLevelHeights ns₂ dm := by
    intro dm
    unfold calculateLevelHeights
    exact foldl_congr_map heightKey
      (fun lh kv =>
        if kv.2 > (lh ((mget dm kv.1).getD 0)).getD 0 then
          (fun k => if k = (mget dm kv.1).getD 0 then some kv.2 else lh k)
        else lh) (fun s x => rfl) h (fun _ => none)
  have htrw : ∀ (W : WidthMap) nw sep,
      totalRootWidth (layoutRoots ns₁ es) W nw sep =
      totalRootWidth (layoutRoots ns₂ es) W nw sep := by
    intro W nw sep
    unfold totalRootWidth
    rw [foldl_congr_map FlowNode.id
      (fun (acc : ℚ × Nat) i =>
        (acc.1 + jsOr (W i) nw + (if acc.2 > 0 then sep * 2 else 0), acc.2 + 1))
      (fun s x => rfl) hroots (0, 0)]
  have hpos : ∀ nw sep, layoutPositions fuel ns₁ es nw sep =
      layoutPositions fuel ns₂ es nw sep := by
    intro nw sep
    unfold layoutPositions
    rw [hdm, hW nw sep]
    cases hdm2 : layoutDepthMap fuel ns₂ es with
    | none => rfl
    | some dm =>
      cases hW2 : layoutWidthMap fuel ns₂ es nw sep with
      | none => rfl
      | some W =>
        simp only
        rw [hlh dm, htrw W nw sep]
        rw [optFold_congr_map FlowNode.id
          (fun i (acc : PosMap × ℚ × Nat) =>
            match positionSubtreeF (childrenOf es) W dm
                (calculateLevelYPositions (calculateLevelHeights ns₂ dm)
                  (layoutMaxDepth dm) MIN_GAP_BETWEEN_TIERS) nw sep fuel i
                ((if acc.2.2 > 0 then acc.2.1 + sep * 2 else acc.2.1)
                  + jsOr (W i) nw / 2) acc.1 with
            | none => none
            | some p' => some (p',
                (if acc.2.2 > 0 then acc.2.1 + sep * 2 else acc.2.1)
                  + jsOr (W i) nw, acc.2.2 + 1)) (fun x s => rfl) hroots
          ((fun _ => none), -(totalRootWidth (layoutRoots ns₂ es) W nw sep / 2), 0)]
  by_cases hemp : ns₁.isEmpty
  · have hemp2 : ns₂.isEmpty := by
      have : ns₂.map heightKey = [] := by
        rw [← h]
        rcases List.isEmpty_iff.mp hemp
        rfl
      rcases List.map_eq_nil_iff.mp this
      rfl
    rw [calculateTreeLayoutF, calculateTreeLayoutF, if_pos hemp, if_pos hemp2]
  · have hemp2 : ¬ ns₂.isEmpty := by
      intro h2
      apply hemp
      rcases List.isEmpty_iff.mp h2
      have : ns₁.map heightKey = [] := by rw [h]; rfl
      rcases List.map_eq_nil_iff.mp this
      rfl
    rw [calculateTreeLayoutF, calculateTreeLayoutF, if_neg hemp, if_neg hemp2,
      hpos opts.nodeWidth opts.nodeSep]
    cases hp : layoutPositions fuel ns₂ es opts.nodeWidth opts.nodeSep with
    | none => rfl
    | some p =>
      simp only [Option.map_some', Option.some.injEq, List.map_map]
      show ns₁.map (fun n => ((n.id : String),
          ((((p n.id).getD (0, 0)).1 - opts.nodeWidth / 2 : ℚ),
            (((p n.id).getD (0, 0)).2 : ℚ)))) =
        ns₂.map (fun n => ((n.id : String),
          ((((p n.id).getD (0, 0)).1 - opts.nodeWidth / 2 : ℚ),
            (((p n.id).getD (0, 0)).2 : ℚ))))
      have hfac : ∀ (ns : List FlowNode),
          ns.map (fun n => ((n.id : String),
            ((((p n.id).getD (0, 0)).1 - opts.nodeWidth / 2 : ℚ),
              (((p n.id).getD (0, 0)).2 : ℚ)))) =
          (ns.map FlowNode.id).map (fun i => (i,
            (((p i).getD (0, 0)).1 - opts.nodeWidth / 2, ((p i).getD (0, 0)).2))) := by
        intro ns
        rw [List.map_map]
        rfl
      rw [hfac ns₁, hfac ns₂, hid]

/-- Concrete inputs for the C4 witness: same ids and height content,
different labels and descriptions. -/
def c4n1 : List FlowNode :=
  [{ id := "r", data := { label := "Root", description := some "x" } },
   { id := "c", data := { label := "Child" } }]

/-- Same ids and heights as `c4n1`, different display fields. -/
def c4n2 : List FlowNode :=
  [{ id := "r", data := { label := "Renamed", description := none } },
   { id := "c", data := { label := "Other" } }]

/-- Witness for C4: the two stores agree on ids and estimated heights, and
the layout produces identical `(id, position)` maps for them. -/
theorem C4_witness :
    c4n1.map heightKey = c4n2.map heightKey ∧
    (calculateTreeLayoutF 3 c4n1 [{ source := "r", target := "c" }] {}).map
      (List.map (fun pn => (pn.id, pn.position))) =
    (calculateTreeLayoutF 3 c4n2 [{ source := "r", target := "c" }] {}).map
      (List.map (fun pn => (pn.id, pn.position))) :=
  ⟨by with_unfolding_all rfl, C4_layout_deterministic (by with_unfolding_all rfl)⟩

/-! ## Forest inputs -/

/-- Well-formed layout input: unique node ids, at most one parent per node
(unique edge targets), edges between listed nodes only, and acyclicity
witnessed by a rank function increasing along every edge. -/
def ForestEdges (ns : List FlowNode) (es : List FlowEdge) : Prop :=
  (ns.map FlowNode.id).Nodup ∧
  (es.map FlowEdge.target).Nodup ∧
  (∀ e ∈ es, e.source ∈ ns.map FlowNode.id ∧ e.target ∈ ns.map FlowNode.id) ∧
  ∃ rank : String → Nat, ∀ e ∈ es, rank e.source < rank e.target

theorem childrenOf_mem {es : List FlowEdge} {v ch : String} :
    ch ∈ childrenOf es v ↔ ∃ e ∈ es, e.source = v ∧ e.target = ch := by
  simp only [childrenOf, List.mem_map, List.mem_filter, beq_iff_eq]
  constructor
  · rintro ⟨e, ⟨he, hs⟩, rfl⟩
    exact ⟨e, he, hs, rfl⟩
  · rintro ⟨e, he, hs, rfl⟩
    exact ⟨e, ⟨he, hs⟩, rfl⟩

/-- Unique targets make the child relation co-functional: a node is a child
of at most one parent. -/
theorem cofunctional_of_forest {ns : List FlowNode} {es : List FlowEdge}
    (hF : ForestEdges ns es) {u v₁ v₂ : String}
    (h₁ : u ∈ childrenOf es v₁) (h₂ : u ∈ childrenOf es v₂) : v₁ = v₂ := by
  obtain ⟨e₁, he₁, hs₁, ht₁⟩ := childrenOf_mem.mp h₁
  obtain ⟨e₂, he₂, hs₂, ht₂⟩ := childrenOf_mem.mp h₂
  have : e₁ = e₂ :=
    List.inj_on_of_nodup_map hF.2.1 he₁ he₂ (by rw [ht₁, ht₂])
  rw [← hs₁, ← hs₂, this]

theorem childrenOf_nodup {ns : List FlowNode} {es : List FlowEdge}
    (hF : ForestEdges ns es) (v : String) : (childrenOf es v).Nodup := by
  unfold childrenOf
  have hsub : (es.filter (fun e => e.source == v)).map FlowEdge.target |>.Sublist
      (es.map FlowEdge.target) := (List.filter_sublist _).map _
  exact hsub.nodup hF.2.1

/-- Rank increases along each child step. -/
theorem rank_step {es : List FlowEdge} {rank : String → Nat}
    (hrank : ∀ e ∈ es, rank e.source < rank e.target) {v ch : String}
    (h : ch ∈ childrenOf es v) : rank v < rank ch := by
  obtain ⟨e, he, hs, ht⟩ := childrenOf_mem.mp h
  rw [← hs, ← ht]
  exact hrank e he

theorem rank_le_of_reach {es : List FlowEdge} {rank : String → Nat}
    (hrank : ∀ e ∈ es, rank e.source < rank e.target) {v u : String}
    (h : ReachC (childrenOf es) v u) : rank v ≤ rank u := by
  induction h with
  | refl => exact le_rfl
  | step hch _ ih =>
    exact le_trans (le_of_lt (rank_step hrank hch)) ih

/-- No strict reach back into a child's ancestor: reach from a child of `v`
never returns to `v`. -/
theorem no_reach_back {es : List FlowEdge} {rank : String → Nat}
    (hrank : ∀ e ∈ es, rank e.source < rank e.target) {v ch : String}
    (hch : ch ∈ childrenOf es v)
    (h : ReachC (childrenOf es) ch v) : False := by
  have h1 := rank_le_of_reach hrank h
  have h2 := rank_step hrank hch
  omega

/-- Reach targets are comparable: two ancestors of the same node are
reach-related (tree-shapedness from unique incoming edges). -/
theorem reach_comparable {ns : List FlowNode} {es : List FlowEdge}
    (hF : ForestEdges ns es) {u a b : String}
    (ha : ReachC (childrenOf es) a u) (hb : ReachC (childrenOf es) b u) :
    ReachC (childrenOf es) a b ∨ ReachC (childrenOf es) b a := by
  induction hb with
  | refl => exact .inl ha
  | step hch _ ih =>
    rcases ih ha with hab | hba
    · rcases hab.last_step with heq | ⟨w, hw, hinw⟩
      · subst heq
        exact .inr (.step hch (.refl _))
      · have hwb := cofunctional_of_forest hF hinw hch
        subst hwb
        exact .inl hw
    · exact .inr (.step hch hba)

/-- Subtrees of distinct children of the same node are disjoint. -/
theorem sibling_disjoint {ns : List FlowNode} {es : List FlowEdge}
    (hF : ForestEdges ns es) {rank : String → Nat}
    (hrank : ∀ e ∈ es, rank e.source < rank e.target) {v ch₁ ch₂ u : String}
    (h₁ : ch₁ ∈ childrenOf es v) (h₂ : ch₂ ∈ childrenOf es v) (hne : ch₁ ≠ ch₂)
    (hr₁ : ReachC (childrenOf es) ch₁ u) (hr₂ : ReachC (childrenOf es) ch₂ u) :
    False := by
  rcases reach_comparable hF hr₁ hr₂ with h12 | h21
  · rcases h12.last_step with rfl | ⟨w, hw, hin⟩
    · exact hne rfl
    · have : w = v := cofunctional_of_forest hF hin h₂
      subst this
      exact no_reach_back hrank h₁ hw
  · rcases h21.last_step with rfl | ⟨w, hw, hin⟩
    · exact hne rfl
    · have : w = v := cofunctional_of_forest hF hin h₁
      subst this
      exact no_reach_back hrank h₂ hw

/-- A root has no incoming edge, so nothing reaches it but itself. -/
theorem reach_root_eq {es : List FlowEdge} {r u : String}
    (hroot : hasParent es r = false)
    (h : ReachC (childrenOf es) u r) : u = r := by
  rcases h.last_step with heq | ⟨w, _, hin⟩
  · exact heq.symm ▸ rfl
  · obtain ⟨e, he, _, ht⟩ := childrenOf_mem.mp hin
    rw [hasParent, List.any_eq_false] at hroot
    have := hroot e he
    rw [ht] at this
    simp at this

/-- Subtrees of distinct roots are disjoint. -/
theorem root_disjoint {ns : List FlowNode} {es : List FlowEdge}
    (hF : ForestEdges ns es) {r₁ r₂ u : String} (hne : r₁ ≠ r₂)
    (hroot₁ : hasParent es r₁ = false) (hroot₂ : hasParent es r₂ = false)
    (hr₁ : ReachC (childrenOf es) r₁ u) (hr₂ : ReachC (childrenOf es) r₂ u) :
    False := by
  rcases reach_comparable hF hr₁ hr₂ with h12 | h21
  · exact hne (reach_root_eq hroot₂ h12)
  · exact hne (reach_root_eq hroot₁ h21).symm

/-! ## JS map lemmas -/

theorem mget_cons (p : String × Nat) (m : DepthMap) (q : String) :
    mget (p :: m) q = if p.1 = q then some p.2 else mget m q := by
  simp only [mget, List.find?_cons]
  by_cases h : p.1 = q
  · simp [h]
  · rw [show (p.1 == q) = false by simpa using h, if_neg h]

theorem mget_map_ne (k : String) (v : Nat) {q : String} (hq : q ≠ k) :
    ∀ (m : DepthMap),
      mget (m.map (fun p => if p.1 == k then (k, v) else p)) q = mget m q
  | [] => rfl
  | p :: m' => by
    rw [List.map_cons]
    by_cases hp : p.1 = k
    · rw [if_pos (by simp [hp]), mget_cons, mget_cons, if_neg (by simpa using Ne.symm hq),
        if_neg (by rw [hp]; exact Ne.symm hq)]
      exact mget_map_ne k v hq m'
    · rw [if_neg (by simp [hp]), mget_cons, mget_cons]
      by_cases hpq : p.1 = q
      · rw [if_pos hpq, if_pos hpq]
      · rw [if_neg hpq, if_neg hpq]
        exact mget_map_ne k v hq m'

theorem mget_map_self (k : String) (v : Nat) :
    ∀ (m : DepthMap), m.any (fun p => p.1 == k) = true →
      mget (m.map (fun p => if p.1 == k then (k, v) else p)) k = some v
  | [], h => by cases h
  | p :: m', h => by
    rw [List.map_cons]
    by_cases hp : p.1 = k
    · rw [if_pos (by simp [hp]), mget_cons, if_pos rfl]
    · rw [if_neg (by simp [hp]), mget_cons, if_neg hp]
      have h' : m'.any (fun p => p.1 == k) = true := by
        simp only [List.any_cons, Bool.or_eq_true] at h
        rcases h with h0 | h0
        · exact absurd (by simpa using h0) hp
        · exact h0
      exact mget_map_self k v m' h'

theorem mget_append_one (k : String) (v : Nat) (q : String) :
    ∀ (m : DepthMap), m.any (fun p => p.1 == k) = false →
      mget (m ++ [(k, v)]) q = if q = k then some v else mget m q
  | [], _ => by
    rw [List.nil_append, mget_cons]
    by_cases hq : q = k
    · rw [if_pos (by simpa using hq.symm), if_pos hq]
    · rw [if_neg (by simpa using fun h => hq h.symm), if_neg hq]
  | p :: m', h => by
    simp only [List.any_cons, Bool.or_eq_false_iff] at h
    obtain ⟨hpk, hrest⟩ := h
    rw [List.cons_append, mget_cons, mget_cons]
    by_cases hpq : p.1 = q
    · have hqk : ¬ q = k := by
        intro hqk
        rw [hqk] at hpq
        simp [hpq] at hpk
      rw [if_pos hpq, if_neg hqk, if_pos hpq]
    · rw [if_neg hpq, if_neg hpq, mget_append_one k v q m' hrest]

theorem mget_mset (m : DepthMap) (k : String) (v : Nat) (q : String) :
    mget (mset m k v) q = if q = k then some v else mget m q := by
  unfold mset
  cases hany : m.any (fun p => p.1 == k) with
  | true =>
    simp only [if_pos rfl]
    by_cases hq : q = k
    · subst hq
      rw [if_pos rfl]
      exact mget_map_self q v m hany
    · rw [if_neg hq]
      exact mget_map_ne k v hq m
  | false =>
    simp only [Bool.false_eq_true, if_false]
    exact mget_append_one k v q m hany

/-! ## Canonical depths -/

/-- The depth a node receives from the depth pass: roots get 0, edge targets
get one more than their (unique) source. -/
inductive DVal (es : List FlowEdge) : String → Nat → Prop
  | root {r : String} : hasParent es r = false → DVal es r 0
  | child {e : FlowEdge} {k : Nat} : e ∈ es → DVal es e.source k →
      DVal es e.target (k + 1)

/-- Inverting a depth derivation at an edge target. -/
theorem DVal.inv_target {es : List FlowEdge} (hN : (es.map FlowEdge.target).Nodup)
    {e : FlowEdge} (he : e ∈ es) {k : Nat}
    (h : DVal es e.target k) : ∃ k', k = k' + 1 ∧ DVal es e.source k' := by
  generalize ht : e.target = t at h
  cases h with
  | root hr =>
    rw [hasParent, List.any_eq_false] at hr
    have := hr e he
    rw [ht] at this
    simp at this
  | child he₂ hsub₂ =>
    rename_i e₂ k'
    have heq : e₂ = e := List.inj_on_of_nodup_map hN he₂ he (by rw [ht])
    subst heq
    exact ⟨k', rfl, hsub₂⟩

/-- With unique edge targets, depths are unique. -/
theorem DVal.unique_depth {es : List FlowEdge} (hN : (es.map FlowEdge.target).Nodup)
    {u : String} {k₁ k₂ : Nat} (h₁ : DVal es u k₁) (h₂ : DVal es u k₂) :
    k₁ = k₂ := by
  induction h₁ generalizing k₂ with
  | root hr =>
    cases h₂ with
    | root _ => rfl
    | child he _ =>
      rw [hasParent, List.any_eq_false] at hr
      have := hr _ he
      simp at this
  | child he hsub ih =>
    obtain ⟨k', hk', hsub₂⟩ := DVal.inv_target hN he h₂
    rw [hk', ih hsub₂]

/-- `setDepth` never removes an entry. -/
theorem setDepthF_pres {c : String → List String} :
    ∀ {fuel : Nat} {v : String} {d : Nat} {m m' : DepthMap},
      setDepthF c fuel v d m = some m' →
      ∀ u k, mget m u = some k → ∃ k', mget m' u = some k'
  | 0, v, d, m, m', h => by cases h
  | fuel + 1, v, d, m, m', h => by
    rw [setDepthF] at h
    intro u k hk
    have hstart : ∃ k', mget (mset m v d) u = some k' := by
      rw [mget_mset]
      by_cases huv : u = v
      · exact ⟨d, if_pos huv⟩
      · exact ⟨k, by rw [if_neg huv]; exact hk⟩
    exact optFold_pres (P := fun mm => ∃ k', mget mm u = some k') h hstart
      (fun ch hch t t' hP hstep => by
        obtain ⟨k', hk'⟩ := hP
        exact setDepthF_pres hstep u k' hk')

/-- One step of `setDepth` records canonical depths only and covers the
whole reachable subtree. -/
theorem setDepthF_spec {es : List FlowEdge} :
    ∀ {fuel : Nat} {v : String} {d : Nat} {m m' : DepthMap},
      setDepthF (childrenOf es) fuel v d m = some m' →
      DVal es v d →
      (∀ u k, mget m u = some k → DVal es u k) →
      ((∀ u k, mget m' u = some k → DVal es u k) ∧
       (∀ u, ReachC (childrenOf es) v u → ∃ k, mget m' u = some k))
  | 0, v, d, m, m', h, _, _ => by cases h
  | fuel + 1, v, d, m, m', h, hdv, hm => by
    rw [setDepthF] at h
    have hm1 : ∀ u k, mget (mset m v d) u = some k → DVal es u k := by
      intro u k hk
      rw [mget_mset] at hk
      by_cases huv : u = v
      · rw [if_pos huv] at hk
        cases hk
        exact huv ▸ hdv
      · rw [if_neg huv] at hk
        exact hm u k hk
    -- fold invariant: entries stay canonical, processed children's subtrees
    -- are covered; coverage persists because later writes stay `some`.
    have main : ∀ (cs : List String) (m₀ m₁ : DepthMap),
        (∀ ch ∈ cs, ch ∈ childrenOf es v) →
        optFold (fun ch acc => setDepthF (childrenOf es) fuel ch (d + 1) acc) cs m₀ = some m₁ →
        (∀ u k, mget m₀ u = some k → DVal es u k) →
        ((∀ u k, mget m₁ u = some k → DVal es u k) ∧
         (∀ u, (∃ ch ∈ cs, ReachC (childrenOf es) ch u) → ∃ k, mget m₁ u = some k) ∧
         (∀ u, mget m₀ u ≠ none → mget m₁ u ≠ none)) := by
      intro cs
      induction cs with
      | nil =>
        intro m₀ m₁ _ hfold hcan
        cases hfold
        refine ⟨hcan, ?_, fun u h => h⟩
        rintro u ⟨ch, h0, _⟩
        cases h0
      | cons ch cs ih =>
        intro m₀ m₁ hmemcs hfold hcan
        obtain ⟨mmid, hstep, hrest⟩ := optFold_cons_inv hfold
        have hdch : DVal es ch (d + 1) := by
          obtain ⟨e, he, hs, ht⟩ := childrenOf_mem.mp (hmemcs ch (by simp))
          have : DVal es e.target (d + 1) := .child he (hs ▸ hdv)
          rwa [ht] at this
        obtain ⟨hcan1, hcov1⟩ := setDepthF_spec hstep hdch hcan
        obtain ⟨hcan2, hcov2, hpres2⟩ := ih mmid m₁
          (fun x hx => hmemcs x (by simp [hx])) hrest hcan1
        refine ⟨hcan2, ?_, ?_⟩
        · intro u hu
          rcases hu with ⟨ch', hch', hr⟩
          rcases List.mem_cons.mp hch' with rfl | hch'
          · obtain ⟨k, hk⟩ := hcov1 u hr
            have := hpres2 u (by rw [hk]; exact Option.noConfusion)
            cases hk2 : mget m₁ u with
            | none => exact absurd hk2 this
            | some k' => exact ⟨k', rfl⟩
          · exact hcov2 u ⟨ch', hch', hr⟩
        · intro u hu
          -- one recursive call also only adds entries
          have hpres1 : mget mmid u ≠ none := by
            cases hk : mget m₀ u with
            | none => exact absurd hk hu
            | some k =>
              obtain ⟨k', hk'⟩ := setDepthF_pres hstep u k hk
              rw [hk']
              exact Option.noConfusion
          exact hpres2 u hpres1
    obtain ⟨h1, h2, h3⟩ := main (childrenOf es v) (mset m v d) m'
      (fun ch h => h) h hm1
    refine ⟨h1, ?_⟩
    intro u hr
    cases hr with
    | refl =>
      have hne : mget m' v ≠ none :=
        h3 v (by rw [mget_mset, if_pos rfl]; exact Option.noConfusion)
      cases hk : mget m' v with
      | none => exact absurd hk hne
      | some k => exact ⟨k, rfl⟩
    | step hin hrest => exact h2 u ⟨_, hin, hrest⟩

theorem mget_nil (u : String) : mget [] u = none := rfl

/-- The whole depth pass (`roots.forEach(setDepth(root.id, 0))`) records only
canonical depths and covers every node reachable from a root. -/
theorem layoutDepthMap_spec {fuel : Nat} {ns : List FlowNode} {es : List FlowEdge}
    {dm : DepthMap} (h : layoutDepthMap fuel ns es = some dm) :
    (∀ u k, mget dm u = some k → DVal es u k) ∧
    (∀ r ∈ layoutRoots ns es, ∀ u, ReachC (childrenOf es) r.id u →
      ∃ k, mget dm u = some k) := by
  rw [layoutDepthMap] at h
  have main : ∀ (rs : List FlowNode) (m₀ m₁ : DepthMap),
      (∀ r ∈ rs, r ∈ layoutRoots ns es) →
      optFold (fun r m => setDepthF (childrenOf es) fuel r.id 0 m) rs m₀ = some m₁ →
      (∀ u k, mget m₀ u = some k → DVal es u k) →
      ((∀ u k, mget m₁ u = some k → DVal es u k) ∧
       (∀ r ∈ rs, ∀ u, ReachC (childrenOf es) r.id u → ∃ k, mget m₁ u = some k) ∧
       (∀ u, mget m₀ u ≠ none → mget m₁ u ≠ none)) := by
    intro rs
    induction rs with
    | nil =>
      intro m₀ m₁ _ hfold hcan
      cases hfold
      refine ⟨hcan, ?_, fun u h => h⟩
      rintro r hr u hru
      cases hr
    | cons r rs ih =>
      intro m₀ m₁ hmem hfold hcan
      obtain ⟨mmid, hstep, hrest⟩ := optFold_cons_inv hfold
      have hroot : hasParent es r.id = false := by
        have := hmem r (by simp)
        rw [layoutRoots, List.mem_filter] at this
        simpa using this.2
      obtain ⟨hcan1, hcov1⟩ := setDepthF_spec hstep (.root hroot) hcan
      obtain ⟨hcan2, hcov2, hpres2⟩ := ih mmid m₁
        (fun x hx => hmem x (by simp [hx])) hrest hcan1
      refine ⟨hcan2, ?_, ?_⟩
      · intro r' hr' u hru
        rcases List.mem_cons.mp hr' with rfl | hr'
        · obtain ⟨k, hk⟩ := hcov1 u hru
          have := hpres2 u (by rw [hk]; exact Option.noConfusion)
          cases hk2 : mget m₁ u with
          | none => exact absurd hk2 this
          | some k' => exact ⟨k', rfl⟩
        · exact hcov2 r' hr' u hru
      · intro u hu
        have hmid : mget mmid u ≠ none := by
          cases hk : mget m₀ u with
          | none => exact absurd hk hu
          | some k =>
            obtain ⟨k', hk'⟩ := setDepthF_pres hstep u k hk
            rw [hk']
            exact Option.noConfusion
        exact hpres2 u hmid
  obtain ⟨h1, h2, _⟩ := main (layoutRoots ns es) [] dm (fun r hr => hr) h
    (fun u k hk => by rw [mget_nil] at hk; cases hk)
  exact ⟨h1, h2⟩

/-- In a forest, every node is reachable from some root. -/
theorem all_reachable {ns : List FlowNode} {es : List FlowEdge}
    (hF : ForestEdges ns es) {u : String} (hu : u ∈ ns.map FlowNode.id) :
    ∃ r ∈ layoutRoots ns es, ReachC (childrenOf es) r.id u := by
  obtain ⟨hN, hT, hIn, rank, hrank⟩ := hF
  have main : ∀ n u, u ∈ ns.map FlowNode.id → rank u = n →
      ∃ r ∈ layoutRoots ns es, ReachC (childrenOf es) r.id u := by
    intro n
    induction n using Nat.strong_induction_on with
    | _ n ihn =>
      intro u hu hrn
      by_cases hp : hasParent es u = true
      · rw [hasParent, List.any_eq_true] at hp
        obtain ⟨e, he, ht⟩ := hp
        rw [beq_iff_eq] at ht
        have hsrc : e.source ∈ ns.map FlowNode.id := (hIn e he).1
        have hlt : rank e.source < n := by
          have := hrank e he
          rw [ht, hrn] at this
          exact this
        obtain ⟨r, hr, hreach⟩ := ihn _ hlt e.source hsrc rfl
        refine ⟨r, hr, hreach.trans (.step ?_ (.refl _))⟩
        exact childrenOf_mem.mpr ⟨e, he, rfl, ht⟩
      · simp only [List.mem_map] at hu
        obtain ⟨nn, hnn, hid⟩ := hu
        refine ⟨nn, ?_, hid ▸ .refl _⟩
        rw [layoutRoots, List.mem_filter]
        have hp' : hasParent es u = false := by
          cases hb : hasParent es u with
          | false => rfl
          | true => exact absurd hb hp
        refine ⟨hnn, ?_⟩
        rw [hid, hp']
        rfl
  exact main (rank u) u hu rfl

/-- In a forest, after a successful depth pass every node id is mapped to its
canonical depth. -/
theorem depth_entry {fuel : Nat} {ns : List FlowNode} {es : List FlowEdge}
    {dm : DepthMap} (hF : ForestEdges ns es)
    (h : layoutDepthMap fuel ns es = some dm) {u : String}
    (hu : u ∈ ns.map FlowNode.id) {d : Nat} (hd : DVal es u d) :
    mget dm u = some d := by
  obtain ⟨hcan, hcov⟩ := layoutDepthMap_spec h
  obtain ⟨r, hr, hreach⟩ := all_reachable hF hu
  obtain ⟨k, hk⟩ := hcov r hr u hreach
  have := DVal.unique_depth hF.2.1 (hcan u k hk) hd
  rw [← this]
  exact hk

/-! ## Tier heights and level y positions -/

theorem objectiveHeight_nonneg (o : Option String) : 0 ≤ objectiveHeight o := by
  cases o with
  | none => norm_num [objectiveHeight]
  | some s =>
    simp only [objectiveHeight]
    split_ifs
    · exact le_rfl
    · positivity

theorem pillBlockHeight_nonneg (t : Option (List String)) : 0 ≤ pillBlockHeight t := by
  cases t with
  | none => norm_num [pillBlockHeight]
  | some l =>
    simp only [pillBlockHeight]
    split_ifs
    · exact le_rfl
    · positivity

theorem estimateNodeHeight_ge70 (d : NodeData) : 70 ≤ estimateNodeHeight d := by
  unfold estimateNodeHeight
  have h1 := objectiveHeight_nonneg d.objective
  have h2 := pillBlockHeight_nonneg d.audiences
  have h3 := pillBlockHeight_nonneg d.geographies
  linarith

/-- The loop body of `calculateLevelHeights`, as a named step function. -/
def lhStep (dm : DepthMap) (lh : LevelMap) (n : FlowNode) : LevelMap :=
  if estimateNodeHeight n.data > (lh ((mget dm n.id).getD 0)).getD 0 then
    (fun k => if k = (mget dm n.id).getD 0 then some (estimateNodeHeight n.data) else lh k)
  else lh

theorem calculateLevelHeights_eq (ns : List FlowNode) (dm : DepthMap) :
    calculateLevelHeights ns dm = ns.foldl (lhStep dm) (fun _ => none) := rfl

theorem lhStep_apply (dm : DepthMap) (m : LevelMap) (n : FlowNode) (d : Nat) :
    lhStep dm m n d =
      if d = (mget dm n.id).getD 0 ∧
          (m ((mget dm n.id).getD 0)).getD 0 < estimateNodeHeight n.data
      then some (estimateNodeHeight n.data) else m d := by
  unfold lhStep
  by_cases hgt : (m ((mget dm n.id).getD 0)).getD 0 < estimateNodeHeight n.data
  · by_cases hd : d = (mget dm n.id).getD 0
    · simp [hgt, hd]
    · simp [hgt, hd]
  · simp [hgt]

/-- The running tier maximum never decreases. -/
theorem lhFold_mono (dm : DepthMap) :
    ∀ (l : List FlowNode) (m : LevelMap) (d : Nat),
      (m d).getD 0 ≤ ((l.foldl (lhStep dm) m) d).getD 0
  | [], _, _ => le_rfl
  | n :: l, m, d => by
    rw [List.foldl_cons]
    refine le_trans ?_ (lhFold_mono dm l (lhStep dm m n) d)
    rw [lhStep_apply]
    split_ifs with hc
    · rw [Option.getD_some]
      exact le_of_lt (by rw [hc.1]; exact hc.2)
    · exact le_rfl

/-- The step never removes a tier entry. -/
theorem lhFold_ne_none (dm : DepthMap) :
    ∀ (l : List FlowNode) (m : LevelMap) (d : Nat),
      m d ≠ none → (l.foldl (lhStep dm) m) d ≠ none
  | [], _, _, h => h
  | n :: l, m, d, h => by
    rw [List.foldl_cons]
    refine lhFold_ne_none dm l _ d ?_
    rw [lhStep_apply]
    split_ifs
    · exact Option.noConfusion
    · exact h

/-- Every node bounds its tier's final maximum from below. -/
theorem lhFold_ub (dm : DepthMap) :
    ∀ (l : List FlowNode) (m : LevelMap) (n : FlowNode), n ∈ l →
      estimateNodeHeight n.data ≤
        ((l.foldl (lhStep dm) m) ((mget dm n.id).getD 0)).getD 0
  | [], _, n, h => absurd h (List.not_mem_nil n)
  | n' :: l, m, n, h => by
    rw [List.foldl_cons]
    rcases List.mem_cons.mp h with rfl | h'
    · refine le_trans ?_ (lhFold_mono dm l _ _)
      rw [lhStep_apply]
      by_cases hgt : (m ((mget dm n.id).getD 0)).getD 0 < estimateNodeHeight n.data
      · rw [if_pos ⟨rfl, hgt⟩, Option.getD_some]
      · rw [if_neg (fun hc => hgt hc.2)]
        exact le_of_not_lt hgt
    · exact lhFold_ub dm l _ n h'

/-- A tier's final maximum is one of its nodes' heights. -/
theorem lhFold_attained (dm : DepthMap) :
    ∀ (l : List FlowNode) (m : LevelMap) (d : Nat) (h : ℚ),
      (l.foldl (lhStep dm) m) d = some h →
      m d = some h ∨ ∃ n ∈ l, (mget dm n.id).getD 0 = d ∧ estimateNodeHeight n.data = h
  | [], _, _, _, hh => .inl hh
  | n' :: l, m, d, h, hh => by
    rw [List.foldl_cons] at hh
    rcases lhFold_attained dm l _ d h hh with h1 | ⟨n, hn, hd, he⟩
    · rw [lhStep_apply] at h1
      split_ifs at h1 with hc
      · cases h1
        exact .inr ⟨n', by simp, hc.1.symm, rfl⟩
      · exact .inl h1
    · exact .inr ⟨n, by simp [hn], hd, he⟩

/-- A tier that contains a node gets an entry. -/
theorem lhFold_isSome (dm : DepthMap) :
    ∀ (l : List FlowNode) (m : LevelMap) (n : FlowNode), n ∈ l →
      (l.foldl (lhStep dm) m) ((mget dm n.id).getD 0) ≠ none
  | [], _, n, h => absurd h (List.not_mem_nil n)
  | n' :: l, m, n, h => by
    rw [List.foldl_cons]
    rcases List.mem_cons.mp h with rfl | h'
    · refine lhFold_ne_none dm l _ _ ?_
      rw [lhStep_apply]
      by_cases hgt : (m ((mget dm n.id).getD 0)).getD 0 < estimateNodeHeight n.data
      · rw [if_pos ⟨rfl, hgt⟩]
        exact Option.noConfusion
      · rw [if_neg (fun hc => hgt hc.2)]
        intro hnone
        rw [hnone] at hgt
        simp only [Option.getD_none] at hgt
        exact hgt (lt_of_lt_of_le (by norm_num) (estimateNodeHeight_ge70 n.data))
    · exact lhFold_isSome dm l _ n h'

theorem levelYLoop_self (lh : LevelMap) (g : ℚ) :
    ∀ (count level : Nat) (y : ℚ), 0 < count →
      levelYLoop lh g count level y level = some y
  | 0, _, _, h => absurd h (lt_irrefl 0)
  | count + 1, level, y, _ => by
    show (if level = level then some y
      else levelYLoop lh g count (level + 1) (y + jsOr (lh level) 100 + g) level) = some y
    rw [if_pos rfl]

/-- Consecutive level y positions differ by exactly the tier height (with the
100 default) plus the gap. -/
theorem levelYLoop_succ (lh : LevelMap) (g : ℚ) :
    ∀ (count level : Nat) (y : ℚ) (d : Nat), level ≤ d → d + 1 < level + count →
      ∃ yd, levelYLoop lh g count level y d = some yd ∧
        levelYLoop lh g count level y (d + 1) = some (yd + jsOr (lh d) 100 + g)
  | 0, _, _, _, _, hlt => absurd hlt (by omega)
  | count + 1, level, y, d, hld, hlt => by
    by_cases hdl : d = level
    · subst hdl
      refine ⟨y, ?_, ?_⟩
      · show (if d = d then some y
          else levelYLoop lh g count (d + 1) (y + jsOr (lh d) 100 + g) d) = some y
        rw [if_pos rfl]
      · show (if d + 1 = d then some y
          else levelYLoop lh g count (d + 1) (y + jsOr (lh d) 100 + g) (d + 1)) =
          some (y + jsOr (lh d) 100 + g)
        rw [if_neg (by omega : ¬ d + 1 = d)]
        exact levelYLoop_self lh g count (d + 1) _ (by omega)
    · obtain ⟨yd, h1, h2⟩ := levelYLoop_succ lh g count (level + 1)
        (y + jsOr (lh level) 100 + g) d (by omega) (by omega)
      refine ⟨yd, ?_, ?_⟩
      · show (if d = level then some y
          else levelYLoop lh g count (level + 1) (y + jsOr (lh level) 100 + g) d) = some yd
        rw [if_neg hdl]
        exact h1
      · show (if d + 1 = level then some y
          else levelYLoop lh g count (level + 1) (y + jsOr (lh level) 100 + g) (d + 1)) =
          some (yd + jsOr (lh d) 100 + g)
        rw [if_neg (by omega : ¬ d + 1 = level)]
        exact h2

theorem le_foldr_max : ∀ (l : List Nat) (x : Nat), x ∈ l → x ≤ l.foldr max 0
  | [], x, h => absurd h (List.not_mem_nil x)
  | a :: l, x, h => by
    rw [List.foldr_cons]
    rcases List.mem_cons.mp h with rfl | h'
    · exact le_max_left _ _
    · exact le_trans (le_foldr_max l x h') (le_max_right _ _)

/-- Every recorded depth is at most the computed maximum depth. -/
theorem le_layoutMaxDepth {dm : DepthMap} {u : String} {k : Nat}
    (h : mget dm u = some k) : k ≤ layoutMaxDepth dm := by
  simp only [mget] at h
  cases hf : List.find? (fun p => p.1 == u) dm with
  | none => rw [hf] at h; cases h
  | some q =>
    rw [hf, Option.map_some'] at h
    cases h
    exact le_foldr_max _ _ (List.mem_map.mpr ⟨q, List.mem_of_find?_eq_some hf, rfl⟩)

theorem foldl_max_le_aux :
    ∀ (l : List ℚ) (a b : ℚ), a ≤ b → (∀ x ∈ l, x ≤ b) → l.foldl max a ≤ b
  | [], _, _, ha, _ => ha
  | x :: l, a, b, ha, h => by
    rw [List.foldl_cons]
    exact foldl_max_le_aux l _ b (max_le ha (h x (by simp)))
      (fun y hy => h y (by simp [hy]))

/-- The tier height named by the specification: the maximum estimated node
height among the nodes at a given depth. -/
def specTierHeight (ns : List FlowNode) (dm : DepthMap) (d : Nat) : ℚ :=
  ((ns.filter (fun n => (mget dm n.id).getD 0 == d)).map
    (fun n => estimateNodeHeight n.data)).foldl max 0

/-- Every position written by `positionSubtree` carries the y of the node's
tier. -/
theorem positionSubtreeF_y {c : String → List String} {W : WidthMap} {dm : DepthMap}
    {ly : LevelMap} {nw sep : ℚ} :
    ∀ {fuel : Nat} {v : String} {cX : ℚ} {p p' : PosMap},
      positionSubtreeF c W dm ly nw sep fuel v cX p = some p' →
      ∀ u xy, p' u = some xy →
        p u = some xy ∨ xy.2 = (ly ((mget dm u).getD 0)).getD 0
  | 0, v, cX, p, p', h => by cases h
  | fuel + 1, v, cX, p, p', h => by
    simp only [positionSubtreeF] at h
    by_cases hemp : (c v).isEmpty
    · rw [if_pos hemp] at h
      cases h
      intro u xy hxy
      by_cases huv : u = v
      · subst huv
        right
        simp only [pset, if_pos rfl] at hxy
        cases hxy
        rfl
      · left
        simpa only [pset, if_neg huv] using hxy
    · rw [if_neg hemp] at h
      cases hfold : optFold (fun ch (acc : PosMap × ℚ) =>
          match positionSubtreeF c W dm ly nw sep fuel ch
              (acc.2 + jsOr (W ch) nw / 2) acc.1 with
          | none => none
          | some p2 => some (p2, acc.2 + jsOr (W ch) nw + sep)) (c v)
          (pset p v (cX, (ly ((mget dm v).getD 0)).getD 0), cX - jsOr (W v) nw / 2) with
      | none => rw [hfold] at h; cases h
      | some st =>
        obtain ⟨p₂, X₂⟩ := st
        rw [hfold] at h
        cases h
        have hinit : ∀ u xy,
            pset p v (cX, (ly ((mget dm v).getD 0)).getD 0) u = some xy →
            p u = some xy ∨ xy.2 = (ly ((mget dm u).getD 0)).getD 0 := by
          intro u xy hxy
          by_cases huv : u = v
          · subst huv
            right
            simp only [pset, if_pos rfl] at hxy
            cases hxy
            rfl
          · left
            simpa only [pset, if_neg huv] using hxy
        refine optFold_pres (P := fun (acc : PosMap × ℚ) => ∀ u xy,
            acc.1 u = some xy →
            p u = some xy ∨ xy.2 = (ly ((mget dm u).getD 0)).getD 0)
          hfold hinit ?_
        intro ch hch t t' hP hstep
        cases hrec : positionSubtreeF c W dm ly nw sep fuel ch
            (t.2 + jsOr (W ch) nw / 2) t.1 with
        | none => rw [hrec] at hstep; cases hstep
        | some p2 =>
          rw [hrec] at hstep
          cases hstep
          intro u xy hxy
          rcases positionSubtreeF_y hrec u xy hxy with h1 | h2
          · exact hP u xy h1
          · exact .inr h2

/-- Every entry of the final position map carries its tier's y coordinate. -/
theorem layoutPositions_y {fuel : Nat} {ns : List FlowNode} {es : List FlowEdge}
    {nw sep : ℚ} {p : PosMap} (h : layoutPositions fuel ns es nw sep = some p) :
    ∃ dm, layoutDepthMap fuel ns es = some dm ∧
      ∀ u xy, p u = some xy →
        xy.2 = (calculateLevelYPositions (calculateLevelHeights ns dm)
          (layoutMaxDepth dm) MIN_GAP_BETWEEN_TIERS ((mget dm u).getD 0)).getD 0 := by
  cases hdm : layoutDepthMap fuel ns es with
  | none =>
    simp only [layoutPositions, hdm] at h
    exact Option.noConfusion h
  | some dm =>
    cases hW : layoutWidthMap fuel ns es nw sep with
    | none =>
      simp only [layoutPositions, hdm, hW] at h
      exact Option.noConfusion h
    | some W =>
      simp only [layoutPositions, hdm, hW] at h
      refine ⟨dm, rfl, ?_⟩
      cases hfold : optFold (fun r (acc : PosMap × ℚ × Nat) =>
          match positionSubtreeF (childrenOf es) W dm
              (calculateLevelYPositions (calculateLevelHeights ns dm)
                (layoutMaxDepth dm) MIN_GAP_BETWEEN_TIERS) nw sep fuel r.id
              ((if acc.2.2 > 0 then acc.2.1 + sep * 2 else acc.2.1)
                + jsOr (W r.id) nw / 2) acc.1 with
          | none => none
          | some p' => some (p',
              (if acc.2.2 > 0 then acc.2.1 + sep * 2 else acc.2.1)
                + jsOr (W r.id) nw, acc.2.2 + 1))
        (layoutRoots ns es)
        ((fun _ => none), -(totalRootWidth (layoutRoots ns es) W nw sep / 2), 0) with
      | none =>
        rw [hfold] at h
        exact Option.noConfusion h
      | some st =>
        obtain ⟨p₀, x₀, k₀⟩ := st
        rw [hfold] at h
        cases h
        refine optFold_pres (P := fun (acc : PosMap × ℚ × Nat) => ∀ u xy,
            acc.1 u = some xy →
            xy.2 = (calculateLevelYPositions (calculateLevelHeights ns dm)
              (layoutMaxDepth dm) MIN_GAP_BETWEEN_TIERS ((mget dm u).getD 0)).getD 0)
          hfold (fun u xy hxy => Option.noConfusion hxy) ?_
        intro r hr t t' hP hbody
        cases hps : positionSubtreeF (childrenOf es) W dm
            (calculateLevelYPositions (calculateLevelHeights ns dm)
              (layoutMaxDepth dm) MIN_GAP_BETWEEN_TIERS) nw sep fuel r.id
            ((if t.2.2 > 0 then t.2.1 + sep * 2 else t.2.1)
              + jsOr (W r.id) nw / 2) t.1 with
        | none => rw [hps] at hbody; cases hbody
        | some p' =>
          rw [hps] at hbody
          cases hbody
          intro u xy hxy
          rcases positionSubtreeF_y hps u xy hxy with h1 | h2
          · exact hP u xy h1
          · exact h2

/-! ## Coverage of the position pass -/

/-- `positionSubtree` never removes a position entry. -/
theorem positionSubtreeF_pres {c : String → List String} {W : WidthMap}
    {dm : DepthMap} {ly : LevelMap} {nw sep : ℚ} :
    ∀ {fuel : Nat} {v : String} {cX : ℚ} {p p' : PosMap},
      positionSubtreeF c W dm ly nw sep fuel v cX p = some p' →
      ∀ u, p u ≠ none → p' u ≠ none
  | 0, v, cX, p, p', h => by cases h
  | fuel + 1, v, cX, p, p', h => by
    simp only [positionSubtreeF] at h
    have hinit : ∀ u, p u ≠ none →
        pset p v (cX, (ly ((mget dm v).getD 0)).getD 0) u ≠ none := by
      intro u hu
      by_cases huv : u = v
      · subst huv
        simp only [pset, if_pos rfl]
        exact Option.noConfusion
      · simpa only [pset, if_neg huv] using hu
    by_cases hemp : (c v).isEmpty
    · rw [if_pos hemp] at h
      cases h
      exact hinit
    · rw [if_neg hemp] at h
      cases hfold : optFold (fun ch (acc : PosMap × ℚ) =>
          match positionSubtreeF c W dm ly nw sep fuel ch
              (acc.2 + jsOr (W ch) nw / 2) acc.1 with
          | none => none
          | some p2 => some (p2, acc.2 + jsOr (W ch) nw + sep)) (c v)
          (pset p v (cX, (ly ((mget dm v).getD 0)).getD 0), cX - jsOr (W v) nw / 2) with
      | none => rw [hfold] at h; cases h
      | some st =>
        obtain ⟨p₂, X₂⟩ := st
        rw [hfold] at h
        cases h
        intro u hu
        refine optFold_pres (P := fun (acc : PosMap × ℚ) => acc.1 u ≠ none)
          hfold (hinit u hu) ?_
        intro ch hch t t' hP hstep
        cases hrec : positionSubtreeF c W dm ly nw sep fuel ch
            (t.2 + jsOr (W ch) nw / 2) t.1 with
        | none => rw [hrec] at hstep; cases hstep
        | some p2 =>
          rw [hrec] at hstep
          cases hstep
          exact positionSubtreeF_pres hrec u hP

/-- Fold helper for `positionSubtreeF_cover`. -/
theorem posFold_cover {c : String → List String} {W : WidthMap} {dm : DepthMap}
    {ly : LevelMap} {nw sep : ℚ} {fuel : Nat}
    (IH : ∀ {ch : String} {cX : ℚ} {q q' : PosMap},
      positionSubtreeF c W dm ly nw sep fuel ch cX q = some q' →
      ∀ u, ReachC c ch u → q' u ≠ none) :
    ∀ {cs : List String} {st st' : PosMap × ℚ},
      optFold (fun ch (acc : PosMap × ℚ) =>
        match positionSubtreeF c W dm ly nw sep fuel ch
            (acc.2 + jsOr (W ch) nw / 2) acc.1 with
        | none => none
        | some p2 => some (p2, acc.2 + jsOr (W ch) nw + sep)) cs st = some st' →
      ∀ u, (∃ ch ∈ cs, ReachC c ch u) → st'.1 u ≠ none
  | [], st, st', h, u, hex => by
    obtain ⟨ch, hch, _⟩ := hex
    cases hch
  | ch :: cs, st, st', h, u, hex => by
    obtain ⟨s₁, hfx, hrest⟩ := optFold_cons_inv h
    cases hps : positionSubtreeF c W dm ly nw sep fuel ch
        (st.2 + jsOr (W ch) nw / 2) st.1 with
    | none => rw [hps] at hfx; cases hfx
    | some p2 =>
      rw [hps] at hfx
      cases hfx
      obtain ⟨ch', hch', hr⟩ := hex
      rcases List.mem_cons.mp hch' with rfl | hch'
      · -- covered by the head call, preserved by the rest
        have hmid : p2 u ≠ none := IH hps u hr
        have : ∀ u, (p2, st.2 + jsOr (W ch') nw + sep).1 u ≠ none → st'.1 u ≠ none := by
          intro u hu
          refine optFold_pres (P := fun (acc : PosMap × ℚ) => acc.1 u ≠ none)
            hrest hu ?_
          intro x hx t t' hP hstep
          cases hrec : positionSubtreeF c W dm ly nw sep fuel x
              (t.2 + jsOr (W x) nw / 2) t.1 with
          | none => rw [hrec] at hstep; cases hstep
          | some q2 =>
            rw [hrec] at hstep
            cases hstep
            exact positionSubtreeF_pres hrec u hP
        exact this u hmid
      · exact posFold_cover IH hrest u ⟨ch', hch', hr⟩

/-- `positionSubtree` assigns a position to every node of the subtree. -/
theorem positionSubtreeF_cover {c : String → List String} {W : WidthMap}
    {dm : DepthMap} {ly : LevelMap} {nw sep : ℚ} :
    ∀ {fuel : Nat} {v : String} {cX : ℚ} {p p' : PosMap},
      positionSubtreeF c W dm ly nw sep fuel v cX p = some p' →
      ∀ u, ReachC c v u → p' u ≠ none
  | 0, v, cX, p, p', h => by cases h
  | fuel + 1, v, cX, p, p', h => by
    simp only [positionSubtreeF] at h
    by_cases hemp : (c v).isEmpty
    · rw [if_pos hemp] at h
      cases h
      intro u hr
      cases hr with
      | refl =>
        simp only [pset, if_pos rfl]
        exact Option.noConfusion
      | step hch hrest =>
        rw [List.isEmpty_iff.mp hemp] at hch
        cases hch
    · rw [if_neg hemp] at h
      cases hfold : optFold (fun ch (acc : PosMap × ℚ) =>
          match positionSubtreeF c W dm ly nw sep fuel ch
              (acc.2 + jsOr (W ch) nw / 2) acc.1 with
          | none => none
          | some p2 => some (p2, acc.2 + jsOr (W ch) nw + sep)) (c v)
          (pset p v (cX, (ly ((mget dm v).getD 0)).getD 0), cX - jsOr (W v) nw / 2) with
      | none => rw [hfold] at h; cases h
      | some st =>
        obtain ⟨p₂, X₂⟩ := st
        rw [hfold] at h
        cases h
        intro u hr
        cases hr with
        | refl =>
          have hv : pset p v (cX, (ly ((mget dm v).getD 0)).getD 0) v ≠ none := by
            simp only [pset, if_pos rfl]
            exact Option.noConfusion
          refine optFold_pres (P := fun (acc : PosMap × ℚ) => acc.1 v ≠ none)
            hfold hv ?_
          intro x hx t t' hP hstep
          cases hrec : positionSubtreeF c W dm ly nw sep fuel x
              (t.2 + jsOr (W x) nw / 2) t.1 with
          | none => rw [hrec] at hstep; cases hstep
          | some q2 =>
            rw [hrec] at hstep
            cases hstep
            exact positionSubtreeF_pres hrec v hP
        | step hch hrest =>
          exact posFold_cover (fun hq => positionSubtreeF_cover hq) hfold u
            ⟨_, hch, hrest⟩

/-- The final position map covers every node reachable from some root. -/
theorem layoutPositions_cover {fuel : Nat} {ns : List FlowNode} {es : List FlowEdge}
    {nw sep : ℚ} {p : PosMap} (h : layoutPositions fuel ns es nw sep = some p) :
    ∀ u, (∃ r ∈ layoutRoots ns es, ReachC (childrenOf es) r.id u) → p u ≠ none := by
  cases hdm : layoutDepthMap fuel ns es with
  | none =>
    simp only [layoutPositions, hdm] at h
    exact Option.noConfusion h
  | some dm =>
    cases hW : layoutWidthMap fuel ns es nw sep with
    | none =>
      simp only [layoutPositions, hdm, hW] at h
      exact Option.noConfusion h
    | some W =>
      simp only [layoutPositions, hdm, hW] at h
      cases hfold : optFold (fun r (acc : PosMap × ℚ × Nat) =>
          match positionSubtreeF (childrenOf es) W dm
              (calculateLevelYPositions (calculateLevelHeights ns dm)
                (layoutMaxDepth dm) MIN_GAP_BETWEEN_TIERS) nw sep fuel r.id
              ((if acc.2.2 > 0 then acc.2.1 + sep * 2 else acc.2.1)
                + jsOr (W r.id) nw / 2) acc.1 with
          | none => none
          | some p' => some (p',
              (if acc.2.2 > 0 then acc.2.1 + sep * 2 else acc.2.1)
                + jsOr (W r.id) nw, acc.2.2 + 1))
        (layoutRoots ns es)
        ((fun _ => none), -(totalRootWidth (layoutRoots ns es) W nw sep / 2), 0) with
      | none =>
        rw [hfold] at h
        exact Option.noConfusion h
      | some st =>
        obtain ⟨p₀, x₀, k₀⟩ := st
        rw [hfold] at h
        cases h
        intro u hex
        obtain ⟨r, hr, hru⟩ := hex
        -- fold over the roots list: once covered, always covered
        have main : ∀ (rs : List FlowNode) (st st' : PosMap × ℚ × Nat),
            optFold (fun r (acc : PosMap × ℚ × Nat) =>
              match positionSubtreeF (childrenOf es) W dm
                  (calculateLevelYPositions (calculateLevelHeights ns dm)
                    (layoutMaxDepth dm) MIN_GAP_BETWEEN_TIERS) nw sep fuel r.id
                  ((if acc.2.2 > 0 then acc.2.1 + sep * 2 else acc.2.1)
                    + jsOr (W r.id) nw / 2) acc.1 with
              | none => none
              | some p' => some (p',
                  (if acc.2.2 > 0 then acc.2.1 + sep * 2 else acc.2.1)
                    + jsOr (W r.id) nw, acc.2.2 + 1)) rs st = some st' →
            (∃ r ∈ rs, ReachC (childrenOf es) r.id u) ∨ st.1 u ≠ none →
            st'.1 u ≠ none := by
          intro rs
          induction rs with
          | nil =>
            intro st st' hf hca
            cases hf
            rcases hca with ⟨r', hr', _⟩ | hne
            · cases hr'
            · exact hne
          | cons r' rs ih =>
            intro st st' hf hca
            obtain ⟨s₁, hfx, hrest⟩ := optFold_cons_inv hf
            cases hps : positionSubtreeF (childrenOf es) W dm
                (calculateLevelYPositions (calculateLevelHeights ns dm)
                  (layoutMaxDepth dm) MIN_GAP_BETWEEN_TIERS) nw sep fuel r'.id
                ((if st.2.2 > 0 then st.2.1 + sep * 2 else st.2.1)
                  + jsOr (W r'.id) nw / 2) st.1 with
            | none => rw [hps] at hfx; cases hfx
            | some q =>
              rw [hps] at hfx
              cases hfx
              rcases hca with ⟨r'', hr'', hru''⟩ | hne
              · rcases List.mem_cons.mp hr'' with rfl | hr''
                · exact ih _ _ hrest (.inr (positionSubtreeF_cover hps u hru''))
                · exact ih _ _ hrest (.inl ⟨r'', hr'', hru''⟩)
              · exact ih _ _ hrest (.inr (positionSubtreeF_pres hps u hne))
        exact main (layoutRoots ns es) _ _ hfold (.inl ⟨r, hr, hru⟩)

/-! ## Claim C3: vertical tier separation -/

/-- C3: for a forest input, whenever the layout returns and depths `d` and
`d + 1` both contain nodes, the assigned y coordinates of any node at depth
`d + 1` and any node at depth `d` differ by at least the maximum estimated
node height at depth `d` plus the minimum tier gap. -/
theorem C3_tier_separation {fuel : Nat} {ns : List FlowNode} {es : List FlowEdge}
    {opts : LayoutOptions} {out : List PositionedNode}
    (hF : ForestEdges ns es)
    (h : calculateTreeLayoutF fuel ns es opts = some out)
    {n₁ n₂ : FlowNode} (h₁ : n₁ ∈ ns) (h₂ : n₂ ∈ ns) {d : Nat}
    (hd₁ : DVal es n₁.id d) (hd₂ : DVal es n₂.id (d + 1)) :
    ∃ dm, layoutDepthMap fuel ns es = some dm ∧
      ∀ q₁ ∈ out, ∀ q₂ ∈ out, q₁.id = n₁.id → q₂.id = n₂.id →
        specTierHeight ns dm d + MIN_GAP_BETWEEN_TIERS ≤
          q₂.position.2 - q₁.position.2 := by
  have hemp : ¬ ns.isEmpty := by
    intro he
    rw [List.isEmpty_iff.mp he] at h₁
    cases h₁
  rw [calculateTreeLayoutF, if_neg hemp] at h
  cases hp : layoutPositions fuel ns es opts.nodeWidth opts.nodeSep with
  | none => rw [hp] at h; cases h
  | some p =>
    rw [hp] at h
    cases h
    obtain ⟨dm, hdm, hy⟩ := layoutPositions_y hp
    refine ⟨dm, hdm, ?_⟩
    have hk₁ : mget dm n₁.id = some d :=
      depth_entry hF hdm (List.mem_map_of_mem _ h₁) hd₁
    have hk₂ : mget dm n₂.id = some (d + 1) :=
      depth_entry hF hdm (List.mem_map_of_mem _ h₂) hd₂
    have hc₁ : p n₁.id ≠ none :=
      layoutPositions_cover hp n₁.id (all_reachable hF (List.mem_map_of_mem _ h₁))
    have hc₂ : p n₂.id ≠ none :=
      layoutPositions_cover hp n₂.id (all_reachable hF (List.mem_map_of_mem _ h₂))
    intro q₁ hq₁ q₂ hq₂ hid₁ hid₂
    obtain ⟨m₁, hm₁, rfl⟩ := List.mem_map.mp hq₁
    obtain ⟨m₂, hm₂, rfl⟩ := List.mem_map.mp hq₂
    simp only at hid₁ hid₂
    cases hxy₁ : p n₁.id with
    | none => exact absurd hxy₁ hc₁
    | some xy₁ =>
      cases hxy₂ : p n₂.id with
      | none => exact absurd hxy₂ hc₂
      | some xy₂ =>
        have hy₁ : xy₁.2 = (calculateLevelYPositions (calculateLevelHeights ns dm)
            (layoutMaxDepth dm) MIN_GAP_BETWEEN_TIERS ((mget dm n₁.id).getD 0)).getD 0 :=
          hy n₁.id xy₁ hxy₁
        have hy₂ : xy₂.2 = (calculateLevelYPositions (calculateLevelHeights ns dm)
            (layoutMaxDepth dm) MIN_GAP_BETWEEN_TIERS ((mget dm n₂.id).getD 0)).getD 0 :=
          hy n₂.id xy₂ hxy₂
        rw [hk₁] at hy₁
        rw [hk₂] at hy₂
        -- the consecutive level y values
        have hmax : d + 1 ≤ layoutMaxDepth dm := le_layoutMaxDepth hk₂
        obtain ⟨yd, hyd, hyd1⟩ := levelYLoop_succ (calculateLevelHeights ns dm)
          MIN_GAP_BETWEEN_TIERS (layoutMaxDepth dm + 1) 0 0 d (Nat.zero_le d)
          (by omega)
        -- the tier height at depth d
        have hdep₁ : (mget dm n₁.id).getD 0 = d := by rw [hk₁]; rfl
        have hlh : calculateLevelHeights ns dm d ≠ none := by
          rw [calculateLevelHeights_eq]
          have := lhFold_isSome dm ns (fun _ => none) n₁ h₁
          rwa [hdep₁] at this
        cases hlhv : calculateLevelHeights ns dm d with
        | none => exact absurd hlhv hlh
        | some hm =>
          have hub : ∀ n ∈ ns, (mget dm n.id).getD 0 = d →
              estimateNodeHeight n.data ≤ hm := by
            intro n hn hdn
            have := lhFold_ub dm ns (fun _ => none) n hn
            rw [hdn, ← calculateLevelHeights_eq, hlhv, Option.getD_some] at this
            exact this
          have h70 : 70 ≤ hm :=
            le_trans (estimateNodeHeight_ge70 n₁.data) (hub n₁ h₁ hdep₁)
          have hjs : jsOr (calculateLevelHeights ns dm d) 100 = hm := by
            rw [hlhv, jsOr, if_neg (by linarith : hm ≠ 0)]
          have hspec : specTierHeight ns dm d ≤ hm := by
            refine foldl_max_le_aux _ 0 hm (by linarith) ?_
            intro x hx
            obtain ⟨n, hn, rfl⟩ := List.mem_map.mp hx
            have hnf := List.mem_filter.mp hn
            exact hub n hnf.1 (by simpa using hnf.2)
          -- assemble
          simp only
          rw [hid₁, hid₂, hxy₁, hxy₂]
          simp only [Option.getD_some]
          rw [hy₁, hy₂]
          show specTierHeight ns dm d + MIN_GAP_BETWEEN_TIERS ≤
            (levelYLoop (calculateLevelHeights ns dm) MIN_GAP_BETWEEN_TIERS
              (layoutMaxDepth dm + 1) 0 0 (d + 1)).getD 0 -
            (levelYLoop (calculateLevelHeights ns dm) MIN_GAP_BETWEEN_TIERS
              (layoutMaxDepth dm + 1) 0 0 d).getD 0
          rw [hyd, hyd1, Option.getD_some, Option.getD_some, hjs]
          linarith

/-! ## A concrete two-tree forest -/

def wfR : FlowNode := { id := "r", data := {} }

def wfA : FlowNode := { id := "aa", data := {} }

def wfB : FlowNode := { id := "ab", data := {} }

def wfS : FlowNode := { id := "s", data := {} }

def wfNs : List FlowNode := [wfR, wfA, wfB, wfS]

def wfEs : List FlowEdge :=
  [{ source := "r", target := "aa" }, { source := "r", target := "ab" }]

theorem wfForest : ForestEdges wfNs wfEs :=
  ⟨by decide, by decide, by decide, String.length, by decide⟩

theorem wfD_r : DVal wfEs "r" 0 := .root (by decide)

theorem wfD_aa : DVal wfEs "aa" 1 :=
  @DVal.child wfEs { source := "r", target := "aa" } 0 (by decide) wfD_r

theorem wfD_ab : DVal wfEs "ab" 1 :=
  @DVal.child wfEs { source := "r", target := "ab" } 0 (by decide) wfD_r

/-- C3 witness: in the concrete forest, the root tier (depth 0) and the child
tier (depth 1) are separated by at least tier height plus minimum gap. -/
theorem C3_witness :
    ∃ out, calculateTreeLayoutF 4 wfNs wfEs {} = some out ∧
      ∃ dm, layoutDepthMap 4 wfNs wfEs = some dm ∧
        ∀ q₁ ∈ out, ∀ q₂ ∈ out, q₁.id = wfR.id → q₂.id = wfA.id →
          specTierHeight wfNs dm 0 + MIN_GAP_BETWEEN_TIERS ≤
            q₂.position.2 - q₁.position.2 :=
  ⟨_, by with_unfolding_all rfl,
    C3_tier_separation wfForest (by with_unfolding_all rfl)
      (show wfR ∈ wfNs by decide) (show wfA ∈ wfNs by decide) wfD_r wfD_aa⟩

/-! ## Canonical subtree widths -/

/-- The value computed by `calcSubtreeWidth`: a leaf is `nodeWidth` wide; an
internal node sums its children's widths plus one `nodeSep` gap between each
pair of adjacent children. -/
inductive WVal (c : String → List String) (nw sep : ℚ) : String → ℚ → Prop
  | leaf {v : String} : c v = [] → WVal c nw sep v nw
  | node {v : String} {ws : List ℚ} : c v ≠ [] →
      List.Forall₂ (WVal c nw sep) (c v) ws →
      WVal c nw sep v (ws.sum + sep * (((c v).length : ℚ) - 1))

theorem WVal.leaf_inv {c : String → List String} {nw sep : ℚ} {v : String} {w : ℚ}
    (he : c v = []) (h : WVal c nw sep v w) : w = nw := by
  cases h with
  | leaf _ => rfl
  | node hne _ => exact absurd he hne

theorem WVal.node_inv {c : String → List String} {nw sep : ℚ} {v : String} {w : ℚ}
    (hne : c v ≠ []) (h : WVal c nw sep v w) :
    ∃ ws, List.Forall₂ (WVal c nw sep) (c v) ws ∧
      w = ws.sum + sep * (((c v).length : ℚ) - 1) := by
  cases h with
  | leaf he => exact absurd he hne
  | node _ hf => exact ⟨_, hf, rfl⟩

theorem forall₂_unique {α β : Type} {R : α → β → Prop} :
    ∀ {l : List α} {w₁ w₂ : List β}, List.Forall₂ R l w₁ → List.Forall₂ R l w₂ →
      (∀ a ∈ l, ∀ b₁ b₂, R a b₁ → R a b₂ → b₁ = b₂) → w₁ = w₂
  | [], _, _, h₁, h₂, _ => by cases h₁; cases h₂; rfl
  | a :: l, _, _, h₁, h₂, hu => by
    cases h₁ with
    | cons hr₁ ht₁ =>
      cases h₂ with
      | cons hr₂ ht₂ =>
        rw [hu a (by simp) _ _ hr₁ hr₂,
          forall₂_unique ht₁ ht₂ (fun x hx => hu x (by simp [hx]))]

theorem child_mem_ids {ns : List FlowNode} {es : List FlowEdge}
    (hF : ForestEdges ns es) {v ch : String} (hch : ch ∈ childrenOf es v) :
    ch ∈ ns.map FlowNode.id := by
  obtain ⟨e, he, _, ht⟩ := childrenOf_mem.mp hch
  rw [← ht]
  exact (hF.2.2.1 e he).2

/-- Going to a child strictly shrinks the set of ids of larger rank. -/
theorem width_measure_lt {ns : List FlowNode} {es : List FlowEdge}
    (hF : ForestEdges ns es) {rank : String → Nat}
    (hrank : ∀ e ∈ es, rank e.source < rank e.target) {v ch : String}
    (hch : ch ∈ childrenOf es v) :
    ((ns.map FlowNode.id).toFinset.filter (fun u => rank ch < rank u)).card <
      ((ns.map FlowNode.id).toFinset.filter (fun u => rank v < rank u)).card := by
  have hchid : ch ∈ ns.map FlowNode.id := child_mem_ids hF hch
  have hlt : rank v < rank ch := rank_step hrank hch
  refine Finset.card_lt_card ?_
  rw [Finset.ssubset_def]
  constructor
  · intro u hu
    simp only [Finset.mem_filter] at hu ⊢
    exact ⟨hu.1, lt_trans hlt hu.2⟩
  · intro hsub
    have := hsub (Finset.mem_filter.mpr ⟨List.mem_toFinset.mpr hchid, hlt⟩)
    simp only [Finset.mem_filter] at this
    exact lt_irrefl _ this.2

/-- In a forest, canonical widths are unique. -/
theorem WVal.unique_width {ns : List FlowNode} {es : List FlowEdge}
    (hF : ForestEdges ns es) {nw sep : ℚ} {v : String} {w₁ w₂ : ℚ}
    (h₁ : WVal (childrenOf es) nw sep v w₁)
    (h₂ : WVal (childrenOf es) nw sep v w₂) : w₁ = w₂ := by
  obtain ⟨rank, hrank⟩ := hF.2.2.2
  have main : ∀ k v,
      ((ns.map FlowNode.id).toFinset.filter (fun u => rank v < rank u)).card = k →
      ∀ w₁ w₂, WVal (childrenOf es) nw sep v w₁ →
        WVal (childrenOf es) nw sep v w₂ → w₁ = w₂ := by
    intro k
    induction k using Nat.strong_induction_on with
    | _ k ihk =>
      intro v hk w₁ w₂ h₁ h₂
      cases h₁ with
      | leaf he₁ =>
        cases h₂ with
        | leaf _ => rfl
        | node hne₂ _ => exact absurd he₁ hne₂
      | node hne₁ hf₁ =>
        cases h₂ with
        | leaf he₂ => exact absurd he₂ hne₁
        | node _ hf₂ =>
          rw [forall₂_unique hf₁ hf₂ (fun ch hch b₁ b₂ hb₁ hb₂ =>
            ihk _ (hk ▸ width_measure_lt hF hrank hch) ch rfl b₁ b₂ hb₁ hb₂)]
  exact main _ v rfl w₁ w₂ h₁ h₂

theorem mul_length_le_sum :
    ∀ (l : List ℚ) (a : ℚ), (∀ x ∈ l, a ≤ x) → a * l.length ≤ l.sum
  | [], _, _ => by simp
  | x :: l, a, h => by
    rw [List.sum_cons, List.length_cons]
    push_cast
    have h1 := h x (by simp)
    have h2 := mul_length_le_sum l a (fun y hy => h y (by simp [hy]))
    nlinarith [h1, h2]

/-- Every canonical width is at least the node width. -/
theorem WVal.ge_nw {ns : List FlowNode} {es : List FlowEdge}
    (hF : ForestEdges ns es) {nw sep : ℚ} (hnw : 0 ≤ nw) (hsep : 0 ≤ sep)
    {v : String} {w : ℚ} (h : WVal (childrenOf es) nw sep v w) : nw ≤ w := by
  obtain ⟨rank, hrank⟩ := hF.2.2.2
  have main : ∀ k v,
      ((ns.map FlowNode.id).toFinset.filter (fun u => rank v < rank u)).card = k →
      ∀ w, WVal (childrenOf es) nw sep v w → nw ≤ w := by
    intro k
    induction k using Nat.strong_induction_on with
    | _ k ihk =>
      intro v hk w h
      cases h with
      | leaf _ => exact le_rfl
      | node hne hf =>
        rename_i ws
        have hws : ∀ x ∈ ws, nw ≤ x := by
          intro x hx
          obtain ⟨ch, hch, hr⟩ := forall₂_exists_left hf x hx
          exact ihk _ (hk ▸ width_measure_lt hF hrank hch) ch rfl x hr
        have hsum := mul_length_le_sum ws nw hws
        have hlen : ws.length = (childrenOf es v).length :=
          (List.Forall₂.length_eq hf).symm
        have hlen1 : 1 ≤ (childrenOf es v).length :=
          List.length_pos.mpr hne
        have hcast : (1 : ℚ) ≤ ((childrenOf es v).length : ℚ) := by
          exact_mod_cast hlen1
        rw [hlen] at hsum
        nlinarith [hsum, hcast]
  exact main _ v rfl w h

theorem wset_self (m : WidthMap) (k : String) (v : ℚ) : wset m k v k = some v := by
  simp [wset]

theorem wset_other (m : WidthMap) (k : String) (v : ℚ) {u : String} (h : u ≠ k) :
    wset m k v u = m u := by
  simp [wset, h]

/-- Fold helper for `calcSubtreeWidthF_spec`: processing a suffix of the
children accumulates the children's canonical widths with one gap between
adjacent children (none after the last). -/
theorem wfold_spec {c : String → List String} {nw sep : ℚ} {len : Nat}
    {g : String → WidthMap → Option (WidthMap × ℚ)}
    (hg : ∀ {ch : String} {m m' : WidthMap} {w : ℚ}, g ch m = some (m', w) →
      WVal c nw sep ch w ∧
      (∀ u, m' u = m u ∨
        (ReachC c ch u ∧ ∃ wu, m' u = some wu ∧ WVal c nw sep u wu)) ∧
      (∀ u, ReachC c ch u → ∃ wu, m' u = some wu))
    {f : String → WidthMap × ℚ × Nat → Option (WidthMap × ℚ × Nat)}
    (hfg : ∀ ch acc, f ch acc = (g ch acc.1).map (fun r =>
      (r.1, acc.2.1 + r.2 + (if acc.2.2 + 1 < len then sep else 0), acc.2.2 + 1))) :
    ∀ (cs : List String) (m₀ : WidthMap) (t₀ : ℚ) (k₀ : Nat)
      (st' : WidthMap × ℚ × Nat),
      k₀ + cs.length = len →
      optFold f cs (m₀, t₀, k₀) = some st' →
      ∃ ws, List.Forall₂ (WVal c nw sep) cs ws ∧
        (cs = [] → st'.2.1 = t₀) ∧
        (cs ≠ [] → st'.2.1 = t₀ + ws.sum + sep * ((cs.length : ℚ) - 1)) ∧
        (∀ u, st'.1 u = m₀ u ∨
          ((∃ ch ∈ cs, ReachC c ch u) ∧
            ∃ wu, st'.1 u = some wu ∧ WVal c nw sep u wu)) ∧
        (∀ u, (∃ ch ∈ cs, ReachC c ch u) → ∃ wu, st'.1 u = some wu)
  | [], m₀, t₀, k₀, st', _, h => by
    cases h
    refine ⟨[], .nil, fun _ => rfl, fun hne => absurd rfl hne, fun u => .inl rfl, ?_⟩
    rintro u ⟨ch, hch, _⟩
    cases hch
  | ch :: cs, m₀, t₀, k₀, st', hlen, h => by
    obtain ⟨s₁, hfx, hrest⟩ := optFold_cons_inv h
    rw [hfg] at hfx
    cases hgch : g ch m₀ with
    | none => rw [hgch] at hfx; cases hfx
    | some r =>
      obtain ⟨mch, wch⟩ := r
      rw [hgch] at hfx
      cases hfx
      obtain ⟨hWch, hmapch, hcovch⟩ := hg hgch
      obtain ⟨ws, hf, hte, htne, hmap, hcov⟩ := wfold_spec hg hfg cs mch
        (t₀ + wch + (if k₀ + 1 < len then sep else 0)) (k₀ + 1) st'
        (by simp at hlen; omega) hrest
      refine ⟨wch :: ws, .cons hWch hf, fun hc => absurd hc (List.cons_ne_nil ch cs), ?_, ?_, ?_⟩
      · intro _
        rcases List.eq_nil_or_concat cs with rfl | hne2
        · cases hf
          have hkeq : k₀ + 1 = len := by simpa using hlen
          have hgap : ¬ (k₀ + 1 < len) := by omega
          have := hte rfl
          rw [if_neg hgap] at this
          rw [this, List.sum_cons, List.sum_nil, List.length_cons, List.length_nil]
          push_cast
          ring
        · have hcsne : cs ≠ [] := by
            rintro rfl
            obtain ⟨l, x, hx⟩ := hne2
            exact List.concat_ne_nil x l hx.symm
          have hgap : k₀ + 1 < len := by
            have h1 : 1 ≤ cs.length := List.length_pos.mpr hcsne
            simp at hlen
            omega
          have := htne hcsne
          rw [if_pos hgap] at this
          rw [this, List.sum_cons, List.length_cons]
          have h1 : (1:ℚ) ≤ (cs.length : ℚ) := by
            exact_mod_cast List.length_pos.mpr hcsne
          push_cast
          ring
      · intro u
        rcases hmap u with h1 | ⟨⟨ch', hch', hr⟩, wu, hwu, hW⟩
        · rcases hmapch u with h2 | ⟨hr, wu, hwu, hW⟩
          · exact .inl (h1.trans h2)
          · exact .inr ⟨⟨ch, by simp, hr⟩, wu, h1.trans hwu, hW⟩
        · exact .inr ⟨⟨ch', by simp [hch'], hr⟩, wu, hwu, hW⟩
      · rintro u ⟨ch', hch', hr⟩
        rcases List.mem_cons.mp hch' with rfl | hch'
        · obtain ⟨wu, hwu⟩ := hcovch u hr
          rcases hmap u with h1 | ⟨_, wu', hwu', _⟩
          · exact ⟨wu, h1.trans hwu⟩
          · exact ⟨wu', hwu'⟩
        · exact hcov u ⟨ch', hch', hr⟩

/-- `calcSubtreeWidth(v)` returns the canonical width of `v`, records only
canonical widths (of nodes in `v`'s subtree), and records one for every node
of the subtree. -/
theorem calcSubtreeWidthF_spec {c : String → List String} {nw sep : ℚ} :
    ∀ {fuel : Nat} {v : String} {m m' : WidthMap} {w : ℚ},
      calcSubtreeWidthF c nw sep fuel v m = some (m', w) →
      WVal c nw sep v w ∧
      (∀ u, m' u = m u ∨
        (ReachC c v u ∧ ∃ wu, m' u = some wu ∧ WVal c nw sep u wu)) ∧
      (∀ u, ReachC c v u → ∃ wu, m' u = some wu)
  | 0, v, m, m', w, h => by cases h
  | fuel + 1, v, m, m', w, h => by
    simp only [calcSubtreeWidthF] at h
    by_cases hemp : (c v).isEmpty
    · rw [if_pos hemp] at h
      cases h
      have he : c v = [] := List.isEmpty_iff.mp hemp
      refine ⟨.leaf he, ?_, ?_⟩
      · intro u
        by_cases huv : u = v
        · subst huv
          exact .inr ⟨.refl _, nw, wset_self m _ nw, .leaf he⟩
        · exact .inl (wset_other m v nw huv)
      · intro u hr
        cases hr with
        | refl => exact ⟨nw, wset_self m _ nw⟩
        | step hch _ =>
          rw [he] at hch
          cases hch
    · rw [if_neg hemp] at h
      have hcne : c v ≠ [] := fun he => hemp (List.isEmpty_iff.mpr he)
      cases hfold : optFold (fun ch (acc : WidthMap × ℚ × Nat) =>
          match calcSubtreeWidthF c nw sep fuel ch acc.1 with
          | none => none
          | some (m1, w) =>
            some (m1, acc.2.1 + w + (if acc.2.2 + 1 < (c v).length then sep else 0),
                  acc.2.2 + 1))
          (c v) (m, 0, 0) with
      | none => rw [hfold] at h; cases h
      | some st =>
        obtain ⟨m2, total, kf⟩ := st
        rw [hfold] at h
        have hmw : wset m2 v total = m' ∧ total = w := by
          have h3 : (some (wset m2 v total, total) : Option (WidthMap × ℚ)) =
              some (m', w) := h
          cases h3
          exact ⟨rfl, rfl⟩
        obtain ⟨rfl, rfl⟩ := hmw
        obtain ⟨ws, hf, _, htne, hmap, hcov⟩ := wfold_spec
          (fun hq => calcSubtreeWidthF_spec hq)
          (fun ch acc => by
            cases hr : calcSubtreeWidthF c nw sep fuel ch acc.1 with
            | none => rfl
            | some r => obtain ⟨m1, w1⟩ := r; rfl)
          (c v) m 0 0 (m2, total, kf) (by omega) hfold
        have heq : total = ws.sum + sep * (((c v).length : ℚ) - 1) := by
          have := htne hcne
          simpa using this
        have hWv : WVal c nw sep v total := heq ▸ WVal.node hcne hf
        refine ⟨hWv, ?_, ?_⟩
        · intro u
          by_cases huv : u = v
          · subst huv
            exact .inr ⟨.refl _, total, wset_self m2 _ total, hWv⟩
          · rw [wset_other m2 v total huv]
            rcases hmap u with h1 | ⟨⟨ch, hch, hr⟩, wu, hwu, hW⟩
            · exact .inl h1
            · exact .inr ⟨.step hch hr, wu, hwu, hW⟩
        · intro u hr
          cases hr with
          | refl => exact ⟨total, wset_self m2 _ total⟩
          | step hch hrest =>
            obtain ⟨wu, hwu⟩ := hcov u ⟨_, hch, hrest⟩
            by_cases huv : u = v
            · subst huv
              exact ⟨total, wset_self m2 _ total⟩
            · exact ⟨wu, (wset_other m2 v total huv).trans hwu⟩

/-- The whole width pass records only canonical widths and covers every node
reachable from a root. -/
theorem layoutWidthMap_spec {fuel : Nat} {ns : List FlowNode} {es : List FlowEdge}
    {nw sep : ℚ} {W : WidthMap} (h : layoutWidthMap fuel ns es nw sep = some W) :
    (∀ u wu, W u = some wu → WVal (childrenOf es) nw sep u wu) ∧
    (∀ r ∈ layoutRoots ns es, ∀ u, ReachC (childrenOf es) r.id u →
      ∃ wu, W u = some wu) := by
  rw [layoutWidthMap] at h
  have main : ∀ (rs : List FlowNode) (m₀ m₁ : WidthMap),
      optFold (fun r m =>
        match calcSubtreeWidthF (childrenOf es) nw sep fuel r.id m with
        | none => none
        | some (m', _) => some m') rs m₀ = some m₁ →
      (∀ u wu, m₀ u = some wu → WVal (childrenOf es) nw sep u wu) →
      ((∀ u wu, m₁ u = some wu → WVal (childrenOf es) nw sep u wu) ∧
       (∀ r ∈ rs, ∀ u, ReachC (childrenOf es) r.id u → ∃ wu, m₁ u = some wu) ∧
       (∀ u, m₀ u ≠ none → m₁ u ≠ none)) := by
    intro rs
    induction rs with
    | nil =>
      intro m₀ m₁ hfold hcan
      cases hfold
      refine ⟨hcan, ?_, fun u h => h⟩
      rintro r hr u hru
      cases hr
    | cons r rs ih =>
      intro m₀ m₁ hfold hcan
      obtain ⟨mmid, hstep, hrest⟩ := optFold_cons_inv hfold
      cases hcs : calcSubtreeWidthF (childrenOf es) nw sep fuel r.id m₀ with
      | none => rw [hcs] at hstep; cases hstep
      | some st =>
        obtain ⟨mr, wr⟩ := st
        rw [hcs] at hstep
        have hmid : mr = mmid := by
          have h3 : (some mr : Option WidthMap) = some mmid := hstep
          cases h3
          rfl
        subst hmid
        obtain ⟨hWr, hmapr, hcovr⟩ := calcSubtreeWidthF_spec hcs
        have hcan1 : ∀ u wu, mr u = some wu → WVal (childrenOf es) nw sep u wu := by
          intro u wu hwu
          rcases hmapr u with h1 | ⟨_, wu', hwu', hW⟩
          · exact hcan u wu (h1 ▸ hwu)
          · rw [hwu] at hwu'
            cases hwu'
            exact hW
        obtain ⟨hcan2, hcov2, hpres2⟩ := ih mr m₁ hrest hcan1
        refine ⟨hcan2, ?_, ?_⟩
        · intro r' hr' u hru
          rcases List.mem_cons.mp hr' with rfl | hr'
          · obtain ⟨wu, hwu⟩ := hcovr u hru
            have := hpres2 u (by rw [hwu]; exact Option.noConfusion)
            cases hk2 : m₁ u with
            | none => exact absurd hk2 this
            | some wu' => exact ⟨wu', rfl⟩
          · exact hcov2 r' hr' u hru
        · intro u hu
          have hmid : mr u ≠ none := by
            rcases hmapr u with h1 | ⟨_, wu, hwu, _⟩
            · rw [h1]; exact hu
            · rw [hwu]; exact Option.noConfusion
          exact hpres2 u hmid
  obtain ⟨h1, h2, _⟩ := main (layoutRoots ns es) (fun _ => none) W h
    (fun u wu hwu => Option.noConfusion hwu)
  exact ⟨h1, h2⟩

/-- In a forest, the width pass maps every node id to its canonical width. -/
theorem width_entry {fuel : Nat} {ns : List FlowNode} {es : List FlowEdge}
    {nw sep : ℚ} {W : WidthMap} (hF : ForestEdges ns es)
    (h : layoutWidthMap fuel ns es nw sep = some W) {u : String}
    (hu : u ∈ ns.map FlowNode.id) {w : ℚ}
    (hw : WVal (childrenOf es) nw sep u w) : W u = some w := by
  obtain ⟨hcan, hcov⟩ := layoutWidthMap_spec h
  obtain ⟨r, hr, hreach⟩ := all_reachable hF hu
  obtain ⟨wu, hwu⟩ := hcov r hr u hreach
  rw [hwu, WVal.unique_width hF (hcan u wu hwu) hw]

theorem jsOr_of_ne_zero {o : Option ℚ} {w d : ℚ} (h : o = some w) (hw : w ≠ 0) :
    jsOr o d = w := by
  rw [h]
  simp [jsOr, hw]

/-! ## Geometry of the position pass -/

/-- Depth strictly increases along a non-trivial reach. -/
theorem DVal.lt_of_reach {es : List FlowEdge}
    (hT : (es.map FlowEdge.target).Nodup) {v u : String} {du : Nat}
    (h : ReachC (childrenOf es) v u) (hne : u ≠ v)
    (hu : DVal es u du) : ∀ {dv : Nat}, DVal es v dv → dv < du := by
  induction h with
  | refl => exact absurd rfl hne
  | step hch hrest ih =>
    rename_i v ch u
    intro dv hv
    obtain ⟨e, he, hs, ht⟩ := childrenOf_mem.mp hch
    have hdch : DVal es ch (dv + 1) := by
      have : DVal es e.target (dv + 1) := .child he (hs ▸ hv)
      rwa [ht] at this
    by_cases huc : u = ch
    · subst huc
      have := DVal.unique_depth hT hu hdch
      omega
    · have := ih huc hu hdch
      omega

theorem forall₂_map_eq {α β : Type} {f : α → β} :
    ∀ {l : List α} {ws : List β},
      List.Forall₂ (fun a b => f a = b) l ws → l.map f = ws
  | [], _, h => by cases h; rfl
  | a :: l, _, h => by
    cases h with
    | cons h1 h2 => rw [List.map_cons, h1, forall₂_map_eq h2]

theorem sum_map_add_const {α : Type} (g : α → ℚ) (k : ℚ) :
    ∀ (l : List α), (l.map (fun x => g x + k)).sum = (l.map g).sum + k * l.length
  | [] => by simp
  | x :: l => by
    rw [List.map_cons, List.sum_cons, List.map_cons, List.sum_cons,
      sum_map_add_const g k l, List.length_cons]
    push_cast
    ring

/-- The `||`-defaulted width the position pass reads is the canonical width. -/
theorem jsOr_width {ns : List FlowNode} {es : List FlowEdge}
    (hF : ForestEdges ns es) {W : WidthMap} {nw sep : ℚ}
    (hnw : 0 < nw) (hsep : 0 ≤ sep) {u : String} {w : ℚ}
    (hW : W u = some w) (hV : WVal (childrenOf es) nw sep u w) :
    jsOr (W u) nw = w ∧ nw ≤ w := by
  have hge := WVal.ge_nw hF (le_of_lt hnw) hsep hV
  exact ⟨jsOr_of_ne_zero hW (by linarith), hge⟩

/-- Geometric facts established by one `positionSubtree(v, cX)` call whose
subtree has canonical width `wv`: containment of all card centers in the
subtree span, exact placement of `v`, left- and rightmost touching cards,
horizontal separation of same-depth cards, and, for every internal node of
the subtree, the exact first/last child placement bracketing all children. -/
def PosGeom (es : List FlowEdge) (W : WidthMap) (dm : DepthMap) (ly : LevelMap)
    (nw sep : ℚ) (v : String) (cX : ℚ) (p' : PosMap) (wv : ℚ) : Prop :=
  (∀ u, ReachC (childrenOf es) v u → ∃ xy, p' u = some xy ∧
      cX - wv / 2 + nw / 2 ≤ xy.1 ∧ xy.1 ≤ cX + wv / 2 - nw / 2) ∧
  p' v = some (cX, (ly ((mget dm v).getD 0)).getD 0) ∧
  (∃ uL xyL, ReachC (childrenOf es) v uL ∧ p' uL = some xyL ∧
      xyL.1 = cX - wv / 2 + nw / 2) ∧
  (∃ uR xyR, ReachC (childrenOf es) v uR ∧ p' uR = some xyR ∧
      xyR.1 = cX + wv / 2 - nw / 2) ∧
  (∀ u₁ u₂ xy₁ xy₂ (d : Nat), u₁ ≠ u₂ →
      ReachC (childrenOf es) v u₁ → ReachC (childrenOf es) v u₂ →
      p' u₁ = some xy₁ → p' u₂ = some xy₂ →
      DVal es u₁ d → DVal es u₂ d →
      nw + sep ≤ |xy₁.1 - xy₂.1|) ∧
  (∀ u xyu wu, ReachC (childrenOf es) v u → p' u = some xyu → W u = some wu →
      childrenOf es u ≠ [] →
      ∃ chF chL xyF xyL wF wL,
        chF ∈ childrenOf es u ∧ chL ∈ childrenOf es u ∧
        p' chF = some xyF ∧ p' chL = some xyL ∧
        W chF = some wF ∧ W chL = some wL ∧
        xyF.1 = xyu.1 - wu / 2 + wF / 2 ∧ xyL.1 = xyu.1 + wu / 2 - wL / 2 ∧
        (∀ ch ∈ childrenOf es u, ∃ xy, p' ch = some xy ∧
          xyF.1 ≤ xy.1 ∧ xy.1 ≤ xyL.1))

/-- Fold lemma for the children loop of `positionSubtree`: starting the
running `childX` at `X0`, the processed subtrees tile `[X0, X1 - sep]`
side by side, every placed card center stays inside with margin `nw/2`,
the extreme cards touch both ends, same-depth cards stay `nw + sep` apart,
and the first/last children of every internal node bracket its children. -/
theorem posGeomFold {ns : List FlowNode} {es : List FlowEdge} (hF : ForestEdges ns es)
    {W : WidthMap} {dm : DepthMap} {ly : LevelMap} {nw sep : ℚ}
    (hnw : 0 < nw) (hsep : 0 ≤ sep) {fuel : Nat} {v : String}
    (IH : ∀ {ch : String} {cX : ℚ} {q q' : PosMap},
      positionSubtreeF (childrenOf es) W dm ly nw sep fuel ch cX q = some q' →
      (∀ u, ReachC (childrenOf es) ch u →
        ∃ w, W u = some w ∧ WVal (childrenOf es) nw sep u w) →
      ∀ {wch : ℚ}, W ch = some wch →
      PosGeom es W dm ly nw sep ch cX q' wch)
    (hWv : ∀ u, ReachC (childrenOf es) v u →
      ∃ w, W u = some w ∧ WVal (childrenOf es) nw sep u w) :
    ∀ (cs : List String), (∀ x ∈ cs, x ∈ childrenOf es v) → cs.Nodup →
      ∀ (q0 : PosMap) (X0 : ℚ) (q1 : PosMap) (X1 : ℚ),
      optFold (fun ch (acc : PosMap × ℚ) =>
        match positionSubtreeF (childrenOf es) W dm ly nw sep fuel ch
            (acc.2 + jsOr (W ch) nw / 2) acc.1 with
        | none => none
        | some p2 => some (p2, acc.2 + jsOr (W ch) nw + sep)) cs (q0, X0) =
          some (q1, X1) →
      (X1 = X0 + (cs.map (fun x => jsOr (W x) nw + sep)).sum) ∧
      (∀ u, (∃ x ∈ cs, ReachC (childrenOf es) x u) → ∃ xy, q1 u = some xy ∧
          X0 + nw / 2 ≤ xy.1 ∧ xy.1 ≤ X1 - sep - nw / 2) ∧
      (cs ≠ [] → ∃ uL xyL, (∃ x ∈ cs, ReachC (childrenOf es) x uL) ∧
          q1 uL = some xyL ∧ xyL.1 = X0 + nw / 2) ∧
      (cs ≠ [] → ∃ uR xyR, (∃ x ∈ cs, ReachC (childrenOf es) x uR) ∧
          q1 uR = some xyR ∧ xyR.1 = X1 - sep - nw / 2) ∧
      (∀ u₁ u₂ xy₁ xy₂ (d : Nat), u₁ ≠ u₂ →
          (∃ x ∈ cs, ReachC (childrenOf es) x u₁) →
          (∃ x ∈ cs, ReachC (childrenOf es) x u₂) →
          q1 u₁ = some xy₁ → q1 u₂ = some xy₂ →
          DVal es u₁ d → DVal es u₂ d → nw + sep ≤ |xy₁.1 - xy₂.1|) ∧
      (∀ u xyu wu, (∃ x ∈ cs, ReachC (childrenOf es) x u) →
          q1 u = some xyu → W u = some wu → childrenOf es u ≠ [] →
          ∃ chF chL xyF xyL wF wL,
            chF ∈ childrenOf es u ∧ chL ∈ childrenOf es u ∧
            q1 chF = some xyF ∧ q1 chL = some xyL ∧
            W chF = some wF ∧ W chL = some wL ∧
            xyF.1 = xyu.1 - wu / 2 + wF / 2 ∧ xyL.1 = xyu.1 + wu / 2 - wL / 2 ∧
            (∀ x ∈ childrenOf es u, ∃ xy, q1 x = some xy ∧
              xyF.1 ≤ xy.1 ∧ xy.1 ≤ xyL.1)) ∧
      (∀ ch0 cs2, cs = ch0 :: cs2 →
          ∃ xyF, q1 ch0 = some xyF ∧ xyF.1 = X0 + jsOr (W ch0) nw / 2 ∧
          ∃ chL, chL ∈ cs ∧ ∃ xyL, q1 chL = some xyL ∧
            xyL.1 = X1 - sep - jsOr (W chL) nw / 2 ∧
            ∀ x ∈ cs, ∃ xy, q1 x = some xy ∧ xyF.1 ≤ xy.1 ∧ xy.1 ≤ xyL.1)
  | [], _, _, q0, X0, q1, X1, h => by
    cases h
    refine ⟨by simp, ?_, fun hne => absurd rfl hne, fun hne => absurd rfl hne,
      ?_, ?_, ?_⟩
    · rintro u ⟨x, hx, _⟩
      cases hx
    · intro u₁ u₂ xy₁ xy₂ d _ h1
      obtain ⟨x, hx, _⟩ := h1
      cases hx
    · intro u xyu wu h1
      obtain ⟨x, hx, _⟩ := h1
      cases hx
    · intro ch0 cs2 heq
      cases heq
  | ch :: cs', hsubv, hnodup, q0, X0, q1, X1, h => by
    obtain ⟨rank, hrank⟩ := hF.2.2.2
    obtain ⟨s₁, hfx, hrest⟩ := optFold_cons_inv h
    have hchv : ch ∈ childrenOf es v := hsubv ch (by simp)
    have hWsubch : ∀ u, ReachC (childrenOf es) ch u →
        ∃ w, W u = some w ∧ WVal (childrenOf es) nw sep u w :=
      fun u hr => hWv u (.step hchv hr)
    obtain ⟨wch, hWch, hVch⟩ := hWsubch ch (.refl ch)
    obtain ⟨hjs, hwge⟩ := jsOr_width hF hnw hsep hWch hVch
    cases hps : positionSubtreeF (childrenOf es) W dm ly nw sep fuel ch
        (X0 + jsOr (W ch) nw / 2) q0 with
    | none => rw [hps] at hfx; cases hfx
    | some p2 =>
      rw [hps] at hfx
      cases hfx
      obtain ⟨hB, hC, hD, hE, hG, hH⟩ := IH hps hWsubch hWch
      obtain ⟨F1, F3, F6, F5, F7, FH, Fxi⟩ := posGeomFold hF hnw hsep IH hWv cs'
        (fun x hx => hsubv x (by simp [hx])) (List.nodup_cons.mp hnodup).2
        p2 (X0 + jsOr (W ch) nw + sep) q1 X1 hrest
      have hfr : ∀ u, ReachC (childrenOf es) ch u → q1 u = p2 u := by
        intro u hu
        rcases posFold_domain (fun _ _ _ _ hq => positionSubtreeF_domain hq)
            hrest u with h1 | ⟨ch2, hch2, hr2⟩
        · exact h1
        · exact (sibling_disjoint hF hrank (hsubv ch2 (by simp [hch2])) hchv
            (fun he => (List.nodup_cons.mp hnodup).1 (he ▸ hch2)) hr2 hu).elim
      have hs0 : 0 ≤ (cs'.map (fun x => jsOr (W x) nw + sep)).sum := by
        refine List.sum_nonneg ?_
        intro t ht
        obtain ⟨x, hx, rfl⟩ := List.mem_map.mp ht
        obtain ⟨wx, hWx, hVx⟩ := hWv x (.step (hsubv x (by simp [hx])) (.refl x))
        obtain ⟨hjx, hgx⟩ := jsOr_width hF hnw hsep hWx hVx
        rw [hjx]
        linarith
      have hX1 : X1 = X0 + jsOr (W ch) nw + sep +
          (cs'.map (fun x => jsOr (W x) nw + sep)).sum := F1
      refine ⟨?_, ?_, ?_, ?_, ?_, ?_, ?_⟩
      · rw [List.map_cons, List.sum_cons, hX1]
        ring
      · intro u hex
        obtain ⟨ch1, hch1, hr1⟩ := hex
        rcases List.mem_cons.mp hch1 with rfl | hch1
        · obtain ⟨xy, hxy, hlo, hhi⟩ := hB u hr1
          rw [hjs] at hlo hhi
          refine ⟨xy, (hfr u hr1).trans hxy, by linarith, ?_⟩
          rw [hjs] at hX1
          linarith
        · obtain ⟨xy, hxy, hlo, hhi⟩ := F3 u ⟨ch1, hch1, hr1⟩
          refine ⟨xy, hxy, ?_, hhi⟩
          rw [hjs] at hlo
          linarith
      · intro _
        obtain ⟨uL, xyL, hrL, hpL, hxL⟩ := hD
        refine ⟨uL, xyL, ⟨ch, by simp, hrL⟩, (hfr uL hrL).trans hpL, ?_⟩
        rw [hxL, hjs]
        ring
      · intro _
        rcases eq_or_ne cs' [] with rfl | hne2
        · cases hrest
          obtain ⟨uR, xyR, hrR, hpR, hxR⟩ := hE
          refine ⟨uR, xyR, ⟨ch, by simp, hrR⟩, hpR, ?_⟩
          rw [hxR, hjs]
          ring
        · obtain ⟨uR, xyR, ⟨ch2, hch2, hrR⟩, hpR, hxR⟩ := F5 hne2
          exact ⟨uR, xyR, ⟨ch2, by simp [hch2], hrR⟩, hpR, hxR⟩
      · intro u₁ u₂ xy₁ xy₂ d hne h1 h2 hp₁ hp₂ hd₁ hd₂
        obtain ⟨ch1, hch1, hr1⟩ := h1
        obtain ⟨ch2, hch2, hr2⟩ := h2
        rcases List.mem_cons.mp hch1 with heq1 | hm1
        · rw [heq1] at hr1
          rcases List.mem_cons.mp hch2 with heq2 | hm2
          · rw [heq2] at hr2
            exact hG u₁ u₂ xy₁ xy₂ d hne hr1 hr2
              ((hfr u₁ hr1).symm.trans hp₁) ((hfr u₂ hr2).symm.trans hp₂) hd₁ hd₂
          · obtain ⟨xy₁', hxy₁', hlo1, hhi1⟩ := hB u₁ hr1
            have he1 : q1 u₁ = some xy₁' := (hfr u₁ hr1).trans hxy₁'
            rw [hp₁] at he1
            cases he1
            obtain ⟨xy₂', hxy₂', hlo2, hhi2⟩ := F3 u₂ ⟨ch2, hm2, hr2⟩
            rw [hp₂] at hxy₂'
            cases hxy₂'
            rw [hjs] at hhi1 hlo2
            have habs : nw + sep ≤ xy₂.1 - xy₁.1 := by linarith
            calc nw + sep ≤ xy₂.1 - xy₁.1 := habs
              _ ≤ |xy₂.1 - xy₁.1| := le_abs_self _
              _ = |xy₁.1 - xy₂.1| := abs_sub_comm _ _
        · rcases List.mem_cons.mp hch2 with heq2 | hm2
          · rw [heq2] at hr2
            obtain ⟨xy₂', hxy₂', hlo2, hhi2⟩ := hB u₂ hr2
            have he2 : q1 u₂ = some xy₂' := (hfr u₂ hr2).trans hxy₂'
            rw [hp₂] at he2
            cases he2
            obtain ⟨xy₁', hxy₁', hlo1, hhi1⟩ := F3 u₁ ⟨ch1, hm1, hr1⟩
            rw [hp₁] at hxy₁'
            cases hxy₁'
            rw [hjs] at hhi2 hlo1
            have habs : nw + sep ≤ xy₁.1 - xy₂.1 := by linarith
            calc nw + sep ≤ xy₁.1 - xy₂.1 := habs
              _ ≤ |xy₁.1 - xy₂.1| := le_abs_self _
          · exact F7 u₁ u₂ xy₁ xy₂ d hne ⟨ch1, hm1, hr1⟩ ⟨ch2, hm2, hr2⟩
              hp₁ hp₂ hd₁ hd₂
      · intro u xyu wu hex hpu hWu hchu
        obtain ⟨ch1, hch1, hr1⟩ := hex
        rcases List.mem_cons.mp hch1 with heq1 | hm1
        · rw [heq1] at hr1
          have hpu2 : p2 u = some xyu := (hfr u hr1).symm.trans hpu
          obtain ⟨chF, chL, xyF, xyL, wF, wL, hmF, hmL, hpF, hpL, hWF, hWL,
            hxF, hxL, hbd⟩ := hH u xyu wu hr1 hpu2 hWu hchu
          have hrF : ReachC (childrenOf es) ch chF := hr1.trans (.step hmF (.refl chF))
          have hrL2 : ReachC (childrenOf es) ch chL := hr1.trans (.step hmL (.refl chL))
          refine ⟨chF, chL, xyF, xyL, wF, wL, hmF, hmL,
            (hfr chF hrF).trans hpF, (hfr chL hrL2).trans hpL, hWF, hWL, hxF, hxL, ?_⟩
          intro x hx
          obtain ⟨xy, hxy, hge, hle⟩ := hbd x hx
          exact ⟨xy, (hfr x (hr1.trans (.step hx (.refl x)))).trans hxy, hge, hle⟩
        · exact FH u xyu wu ⟨ch1, hm1, hr1⟩ hpu hWu hchu
      · intro ch0 cs2 heq
        obtain ⟨rfl, rfl⟩ : ch = ch0 ∧ cs' = cs2 := by
          cases heq
          exact ⟨rfl, rfl⟩
        have hpch : q1 ch = p2 ch := hfr ch (.refl ch)
        refine ⟨(X0 + jsOr (W ch) nw / 2, (ly ((mget dm ch).getD 0)).getD 0),
          hpch.trans hC, rfl, ?_⟩
        rcases eq_or_ne cs' [] with rfl | hne2
        · cases hrest
          refine ⟨ch, by simp,
            (X0 + jsOr (W ch) nw / 2, (ly ((mget dm ch).getD 0)).getD 0), hC, ?_, ?_⟩
          · show X0 + jsOr (W ch) nw / 2 =
              X0 + jsOr (W ch) nw + sep - sep - jsOr (W ch) nw / 2
            ring
          · intro x hx
            rcases List.mem_cons.mp hx with heqx | hx2
            · rw [heqx]
              exact ⟨_, hC, le_refl _, le_refl _⟩
            · cases hx2
        · obtain ⟨ch0', cs2', rfl⟩ := List.exists_cons_of_ne_nil hne2
          obtain ⟨xyF2, hpF2, hxF2, chL, hchL, xyL, hpL, hxL2, hbd⟩ :=
            Fxi ch0' cs2' rfl
          obtain ⟨w0, hW0, hV0⟩ := hWv ch0'
            (.step (hsubv ch0' (by simp)) (.refl ch0'))
          obtain ⟨hj0, hg0⟩ := jsOr_width hF hnw hsep hW0 hV0
          obtain ⟨xyh, hxyh, hgeh, hleh⟩ := hbd ch0' (by simp)
          rw [hpF2] at hxyh
          cases hxyh
          refine ⟨chL, by simp [hchL], xyL, hpL, hxL2, ?_⟩
          intro x hx
          rcases List.mem_cons.mp hx with heqx | hx2
          · rw [heqx]
            refine ⟨_, hpch.trans hC, le_refl _, ?_⟩
            show X0 + jsOr (W ch) nw / 2 ≤ xyL.1
            rw [hjs] at hxF2 ⊢
            rw [hj0] at hxF2
            linarith
          · obtain ⟨xy, hxy, hge2, hle2⟩ := hbd x hx2
            refine ⟨xy, hxy, ?_, hle2⟩
            show X0 + jsOr (W ch) nw / 2 ≤ xy.1
            rw [hjs] at hxF2 ⊢
            rw [hj0] at hxF2
            linarith

theorem forall₂_imp_mem {α β : Type} {R S : α → β → Prop} :
    ∀ {l : List α} {ws : List β}, List.Forall₂ R l ws →
      (∀ a ∈ l, ∀ b, R a b → S a b) → List.Forall₂ S l ws
  | [], _, h, _ => by cases h; exact .nil
  | a :: l, _, h, himp => by
    cases h with
    | cons h1 h2 =>
      exact .cons (himp a (by simp) _ h1)
        (forall₂_imp_mem h2 (fun x hx => himp x (by simp [hx])))

/-- The geometry of one `positionSubtree` call, by induction on fuel. -/
theorem positionSubtreeF_geom {ns : List FlowNode} {es : List FlowEdge}
    (hF : ForestEdges ns es) {W : WidthMap} {dm : DepthMap} {ly : LevelMap}
    {nw sep : ℚ} (hnw : 0 < nw) (hsep : 0 ≤ sep) :
    ∀ {fuel : Nat} {v : String} {cX : ℚ} {p p' : PosMap},
      positionSubtreeF (childrenOf es) W dm ly nw sep fuel v cX p = some p' →
      (∀ u, ReachC (childrenOf es) v u →
        ∃ w, W u = some w ∧ WVal (childrenOf es) nw sep u w) →
      ∀ {wv : ℚ}, W v = some wv → PosGeom es W dm ly nw sep v cX p' wv
  | 0, v, cX, p, p', h => by cases h
  | fuel + 1, v, cX, p, p', h => by
    intro hWv wv hWveq
    obtain ⟨wv', hWv', hVv⟩ := hWv v (.refl v)
    rw [hWveq] at hWv'
    cases hWv'
    obtain ⟨hjsv, hvge⟩ := jsOr_width hF hnw hsep hWveq hVv
    simp only [positionSubtreeF] at h
    by_cases hemp : (childrenOf es v).isEmpty
    · rw [if_pos hemp] at h
      cases h
      have he : childrenOf es v = [] := List.isEmpty_iff.mp hemp
      have hwnw : wv = nw := WVal.leaf_inv he hVv
      have hself : pset p v (cX, (ly ((mget dm v).getD 0)).getD 0) v =
          some (cX, (ly ((mget dm v).getD 0)).getD 0) := by
        simp [pset]
      refine ⟨?_, hself, ?_, ?_, ?_, ?_⟩
      · intro u hr
        cases hr with
        | refl =>
          refine ⟨(cX, (ly ((mget dm v).getD 0)).getD 0), hself, ?_, ?_⟩
          · show cX - wv / 2 + nw / 2 ≤ cX
            linarith [hwnw]
          · show cX ≤ cX + wv / 2 - nw / 2
            linarith [hwnw]
        | step hch _ =>
          rw [he] at hch
          cases hch
      · refine ⟨v, (cX, (ly ((mget dm v).getD 0)).getD 0), .refl v, hself, ?_⟩
        show cX = cX - wv / 2 + nw / 2
        rw [hwnw]
        ring
      · refine ⟨v, (cX, (ly ((mget dm v).getD 0)).getD 0), .refl v, hself, ?_⟩
        show cX = cX + wv / 2 - nw / 2
        rw [hwnw]
        ring
      · intro u₁ u₂ xy₁ xy₂ d hne hr₁ hr₂ hp₁ hp₂ hd₁ hd₂
        cases hr₁ with
        | refl =>
          cases hr₂ with
          | refl => exact absurd rfl hne
          | step hch _ =>
            rw [he] at hch
            cases hch
        | step hch _ =>
          rw [he] at hch
          cases hch
      · intro u xyu wu hr hpu hWu hchu
        cases hr with
        | refl => exact absurd he hchu
        | step hch _ =>
          rw [he] at hch
          cases hch
    · rw [if_neg hemp] at h
      have hcne : childrenOf es v ≠ [] := fun he2 => hemp (List.isEmpty_iff.mpr he2)
      cases hfold : optFold (fun ch (acc : PosMap × ℚ) =>
          match positionSubtreeF (childrenOf es) W dm ly nw sep fuel ch
              (acc.2 + jsOr (W ch) nw / 2) acc.1 with
          | none => none
          | some p2 => some (p2, acc.2 + jsOr (W ch) nw + sep)) (childrenOf es v)
          (pset p v (cX, (ly ((mget dm v).getD 0)).getD 0),
            cX - jsOr (W v) nw / 2) with
      | none => rw [hfold] at h; cases h
      | some st =>
        obtain ⟨q1, X1⟩ := st
        rw [hfold] at h
        have hp2 : q1 = p' := by
          have h3 : (some q1 : Option PosMap) = some p' := h
          cases h3
          rfl
        subst hp2
        obtain ⟨F1, F3, F6, F5, F7, FH, Fxi⟩ := posGeomFold hF hnw hsep
          (fun hq hWs => positionSubtreeF_geom hF hnw hsep hq hWs)
          hWv (childrenOf es v) (fun x hx => hx) (childrenOf_nodup hF v)
          (pset p v (cX, (ly ((mget dm v).getD 0)).getD 0))
          (cX - jsOr (W v) nw / 2) q1 X1 hfold
        obtain ⟨rank, hrank⟩ := hF.2.2.2
        have hfrv : q1 v = some (cX, (ly ((mget dm v).getD 0)).getD 0) := by
          rcases posFold_domain (fun _ _ _ _ hq => positionSubtreeF_domain hq)
              hfold v with h1 | ⟨ch2, hch2, hr2⟩
          · exact h1.trans (by simp [pset])
          · exact (no_reach_back hrank hch2 hr2).elim
        obtain ⟨ws, hfws, hwv⟩ := WVal.node_inv hcne hVv
        have hjsall : List.Forall₂ (fun x w => jsOr (W x) nw = w)
            (childrenOf es v) ws := by
          refine forall₂_imp_mem hfws ?_
          intro x hx w hR
          obtain ⟨w', hW', hV'⟩ := hWv x (.step hx (.refl x))
          have hww : w' = w := WVal.unique_width hF hV' hR
          obtain ⟨hj, _⟩ := jsOr_width hF hnw hsep hW' hV'
          rw [hj, hww]
        have hmapeq : (childrenOf es v).map (fun x => jsOr (W x) nw) = ws :=
          forall₂_map_eq hjsall
        have hsumeq : ((childrenOf es v).map (fun x => jsOr (W x) nw + sep)).sum
            = ws.sum + sep * (childrenOf es v).length := by
          rw [sum_map_add_const, hmapeq]
        have hX1v : X1 = cX + wv / 2 + sep := by
          rw [F1, hsumeq, hjsv, hwv]
          ring
        refine ⟨?_, hfrv, ?_, ?_, ?_, ?_⟩
        · intro u hr
          cases hr with
          | refl =>
            refine ⟨(cX, (ly ((mget dm v).getD 0)).getD 0), hfrv, ?_, ?_⟩
            · show cX - wv / 2 + nw / 2 ≤ cX
              linarith
            · show cX ≤ cX + wv / 2 - nw / 2
              linarith
          | step hch hrest2 =>
            obtain ⟨xy, hxy, hlo, hhi⟩ := F3 u ⟨_, hch, hrest2⟩
            rw [hjsv] at hlo
            refine ⟨xy, hxy, by linarith, ?_⟩
            rw [hX1v] at hhi
            linarith
        · obtain ⟨uL, xyL, ⟨ch2, hch2, hrL⟩, hpL, hxL⟩ := F6 hcne
          refine ⟨uL, xyL, .step hch2 hrL, hpL, ?_⟩
          rw [hxL, hjsv]
        · obtain ⟨uR, xyR, ⟨ch2, hch2, hrR⟩, hpR, hxR⟩ := F5 hcne
          refine ⟨uR, xyR, .step hch2 hrR, hpR, ?_⟩
          rw [hxR, hX1v]
          ring
        · intro u₁ u₂ xy₁ xy₂ d hne hr₁ hr₂ hp₁ hp₂ hd₁ hd₂
          cases hr₁ with
          | refl =>
            cases hr₂ with
            | refl => exact absurd rfl hne
            | step hch₂ hr₂' =>
              have := DVal.lt_of_reach hF.2.1 (.step hch₂ hr₂') (Ne.symm hne) hd₂ hd₁
              omega
          | step hch₁ hr₁' =>
            cases hr₂ with
            | refl =>
              have := DVal.lt_of_reach hF.2.1 (.step hch₁ hr₁') hne hd₁ hd₂
              omega
            | step hch₂ hr₂' =>
              exact F7 u₁ u₂ xy₁ xy₂ d hne ⟨_, hch₁, hr₁'⟩ ⟨_, hch₂, hr₂'⟩
                hp₁ hp₂ hd₁ hd₂
        · intro u xyu wu hr hpu hWu hchu
          cases hr with
          | refl =>
            rw [hfrv] at hpu
            cases hpu
            rw [hWveq] at hWu
            cases hWu
            obtain ⟨ch0, cs2, hceq⟩ := List.exists_cons_of_ne_nil hchu
            obtain ⟨xyF, hpF, hxF, chL, hchL, xyL, hpL, hxL, hbd⟩ := Fxi ch0 cs2 hceq
            have hch0 : ch0 ∈ childrenOf es v := by
              rw [hceq]
              simp
            obtain ⟨wF, hWF, hVF⟩ := hWv ch0 (.step hch0 (.refl ch0))
            obtain ⟨hjF, _⟩ := jsOr_width hF hnw hsep hWF hVF
            obtain ⟨wL, hWL, hVL⟩ := hWv chL (.step hchL (.refl chL))
            obtain ⟨hjL, _⟩ := jsOr_width hF hnw hsep hWL hVL
            refine ⟨ch0, chL, xyF, xyL, wF, wL, hch0, hchL, hpF, hpL, hWF, hWL,
              ?_, ?_, hbd⟩
            · show xyF.1 = cX - wv / 2 + wF / 2
              rw [hxF, hjF, hjsv]
            · show xyL.1 = cX + wv / 2 - wL / 2
              rw [hxL, hjL, hX1v]
              ring
          | step hch hr' =>
            exact FH u xyu wu ⟨_, hch, hr'⟩ hpu hWu hchu

/-- Entries not reachable from any processed root are untouched by the root
placement loop. -/
theorem rootsFold_domain {es : List FlowEdge} {W : WidthMap}
    {dm : DepthMap} {ly : LevelMap} {nw sep : ℚ} {fuel : Nat} :
    ∀ {rs : List FlowNode} {st st' : PosMap × ℚ × Nat},
      optFold (fun r (acc : PosMap × ℚ × Nat) =>
        match positionSubtreeF (childrenOf es) W dm ly nw sep fuel r.id
            ((if acc.2.2 > 0 then acc.2.1 + sep * 2 else acc.2.1)
              + jsOr (W r.id) nw / 2) acc.1 with
        | none => none
        | some p' => some (p',
            (if acc.2.2 > 0 then acc.2.1 + sep * 2 else acc.2.1)
              + jsOr (W r.id) nw, acc.2.2 + 1)) rs st = some st' →
      ∀ u, st'.1 u = st.1 u ∨ ∃ r ∈ rs, ReachC (childrenOf es) r.id u
  | [], st, st', h, u => by cases h; exact .inl rfl
  | r0 :: rs, st, st', h, u => by
    obtain ⟨s₁, hfx, hrest⟩ := optFold_cons_inv h
    cases hps : positionSubtreeF (childrenOf es) W dm ly nw sep fuel r0.id
        ((if st.2.2 > 0 then st.2.1 + sep * 2 else st.2.1)
          + jsOr (W r0.id) nw / 2) st.1 with
    | none => rw [hps] at hfx; cases hfx
    | some p2 =>
      rw [hps] at hfx
      cases hfx
      rcases rootsFold_domain hrest u with h1 | ⟨r', hr', hru⟩
      · rcases positionSubtreeF_domain hps u with h2 | hru
        · exact .inl (h1.trans h2)
        · exact .inr ⟨r0, by simp, hru⟩
      · exact .inr ⟨r', by simp [hr'], hru⟩

/-- Fold lemma for placing root trees with the `nodeSep * 2` gap (all steps
after the first root, where the running index is positive). -/
theorem rootsGeomFold {ns : List FlowNode} {es : List FlowEdge}
    (hF : ForestEdges ns es) {W : WidthMap} {dm : DepthMap} {ly : LevelMap}
    {nw sep : ℚ} (hnw : 0 < nw) (hsep : 0 ≤ sep) {fuel : Nat} :
    ∀ (rs : List FlowNode), (∀ r ∈ rs, r ∈ layoutRoots ns es) →
      (rs.map FlowNode.id).Nodup →
      (∀ r ∈ rs, ∀ u, ReachC (childrenOf es) r.id u →
        ∃ w, W u = some w ∧ WVal (childrenOf es) nw sep u w) →
      ∀ (q0 : PosMap) (X0 : ℚ) (k : Nat) (q1 : PosMap) (X1 : ℚ) (k1 : Nat),
      1 ≤ k →
      optFold (fun r (acc : PosMap × ℚ × Nat) =>
        match positionSubtreeF (childrenOf es) W dm ly nw sep fuel r.id
            ((if acc.2.2 > 0 then acc.2.1 + sep * 2 else acc.2.1)
              + jsOr (W r.id) nw / 2) acc.1 with
        | none => none
        | some p' => some (p',
            (if acc.2.2 > 0 then acc.2.1 + sep * 2 else acc.2.1)
              + jsOr (W r.id) nw, acc.2.2 + 1)) rs (q0, X0, k) = some (q1, X1, k1) →
      (X1 = X0 + (rs.map (fun r => jsOr (W r.id) nw + sep * 2)).sum) ∧
      (∀ u, (∃ r ∈ rs, ReachC (childrenOf es) r.id u) → ∃ xy, q1 u = some xy ∧
          X0 + sep * 2 + nw / 2 ≤ xy.1 ∧ xy.1 ≤ X1 - nw / 2) ∧
      (rs ≠ [] → ∃ uR xyR, (∃ r ∈ rs, ReachC (childrenOf es) r.id uR) ∧
          q1 uR = some xyR ∧ xyR.1 = X1 - nw / 2) ∧
      (∀ u₁ u₂ xy₁ xy₂ (d : Nat), u₁ ≠ u₂ →
          (∃ r ∈ rs, ReachC (childrenOf es) r.id u₁) →
          (∃ r ∈ rs, ReachC (childrenOf es) r.id u₂) →
          q1 u₁ = some xy₁ → q1 u₂ = some xy₂ →
          DVal es u₁ d → DVal es u₂ d → nw + sep ≤ |xy₁.1 - xy₂.1|) ∧
      (∀ u xyu wu, (∃ r ∈ rs, ReachC (childrenOf es) r.id u) →
          q1 u = some xyu → W u = some wu → childrenOf es u ≠ [] →
          ∃ chF chL xyF xyL wF wL, chF ∈ childrenOf es u ∧ chL ∈ childrenOf es u ∧
            q1 chF = some xyF ∧ q1 chL = some xyL ∧
            W chF = some wF ∧ W chL = some wL ∧
            xyF.1 = xyu.1 - wu / 2 + wF / 2 ∧ xyL.1 = xyu.1 + wu / 2 - wL / 2 ∧
            (∀ x ∈ childrenOf es u, ∃ xy, q1 x = some xy ∧
              xyF.1 ≤ xy.1 ∧ xy.1 ≤ xyL.1)) ∧
      (∀ rs₁ r rs₂, rs = rs₁ ++ r :: rs₂ →
          (∀ u, ReachC (childrenOf es) r.id u → ∃ xy, q1 u = some xy ∧
            X0 + (rs₁.map (fun x => jsOr (W x.id) nw + sep * 2)).sum + sep * 2
              + nw / 2 ≤ xy.1 ∧
            xy.1 ≤ X0 + (rs₁.map (fun x => jsOr (W x.id) nw + sep * 2)).sum + sep * 2
              + jsOr (W r.id) nw - nw / 2) ∧
          (∃ uL xyL, ReachC (childrenOf es) r.id uL ∧ q1 uL = some xyL ∧
            xyL.1 = X0 + (rs₁.map (fun x => jsOr (W x.id) nw + sep * 2)).sum
              + sep * 2 + nw / 2) ∧
          (∃ uR xyR, ReachC (childrenOf es) r.id uR ∧ q1 uR = some xyR ∧
            xyR.1 = X0 + (rs₁.map (fun x => jsOr (W x.id) nw + sep * 2)).sum
              + sep * 2 + jsOr (W r.id) nw - nw / 2))
  | [], _, _, _, q0, X0, k, q1, X1, k1, _, h => by
    cases h
    refine ⟨by simp, ?_, fun hne => absurd rfl hne, ?_, ?_, ?_⟩
    · rintro u ⟨r, hr, _⟩
      cases hr
    · intro u₁ u₂ xy₁ xy₂ d _ h1
      obtain ⟨r, hr, _⟩ := h1
      cases hr
    · intro u xyu wu h1
      obtain ⟨r, hr, _⟩ := h1
      cases hr
    · intro rs₁ r rs₂ heq
      obtain ⟨_, h2⟩ := List.append_eq_nil.mp heq.symm
      cases h2
  | r0 :: rs', hsub, hnodup, hWall, q0, X0, k, q1, X1, k1, hk, h => by
    obtain ⟨rank, hrank⟩ := hF.2.2.2
    obtain ⟨s₁, hfx, hrest⟩ := optFold_cons_inv h
    have hkif : (if k > 0 then X0 + sep * 2 else X0) = X0 + sep * 2 :=
      if_pos (by omega)
    have hr0root : hasParent es r0.id = false := by
      have := hsub r0 (by simp)
      rw [layoutRoots, List.mem_filter] at this
      simpa using this.2
    have hWsub0 : ∀ u, ReachC (childrenOf es) r0.id u →
        ∃ w, W u = some w ∧ WVal (childrenOf es) nw sep u w :=
      hWall r0 (by simp)
    obtain ⟨w0, hW0, hV0⟩ := hWsub0 r0.id (.refl r0.id)
    obtain ⟨hj0, hg0⟩ := jsOr_width hF hnw hsep hW0 hV0
    cases hps : positionSubtreeF (childrenOf es) W dm ly nw sep fuel r0.id
        ((if k > 0 then X0 + sep * 2 else X0) + jsOr (W r0.id) nw / 2) q0 with
    | none => rw [hps] at hfx; cases hfx
    | some p2 =>
      rw [hps] at hfx
      cases hfx
      obtain ⟨hB, hC, hD, hE, hG, hH⟩ := positionSubtreeF_geom hF hnw hsep hps hWsub0 hW0
      obtain ⟨R1, R3, R5, R7, RH, RS⟩ := rootsGeomFold hF hnw hsep rs'
        (fun x hx => hsub x (by simp [hx])) (by simpa using hnodup.of_cons)
        (fun x hx => hWall x (by simp [hx]))
        p2 ((if k > 0 then X0 + sep * 2 else X0) + jsOr (W r0.id) nw) (k + 1)
        q1 X1 k1 (by omega) hrest
      have hfr : ∀ u, ReachC (childrenOf es) r0.id u → q1 u = p2 u := by
        intro u hu
        rcases rootsFold_domain hrest u with h1 | ⟨r', hr', hru⟩
        · exact h1
        · have hne : r'.id ≠ r0.id := by
            intro he
            have h0 : r0.id ∉ rs'.map FlowNode.id := (List.nodup_cons.mp hnodup).1
            exact h0 (he ▸ List.mem_map_of_mem _ hr')
          have hr'root : hasParent es r'.id = false := by
            have := hsub r' (by simp [hr'])
            rw [layoutRoots, List.mem_filter] at this
            simpa using this.2
          exact (root_disjoint hF hne hr'root hr0root hru hu).elim
      have hs0 : 0 ≤ (rs'.map (fun r => jsOr (W r.id) nw + sep * 2)).sum := by
        refine List.sum_nonneg ?_
        intro t ht
        obtain ⟨x, hx, rfl⟩ := List.mem_map.mp ht
        obtain ⟨wx, hWx, hVx⟩ := hWall x (by simp [hx]) x.id (.refl x.id)
        obtain ⟨hjx, hgx⟩ := jsOr_width hF hnw hsep hWx hVx
        rw [hjx]
        linarith
      rw [hkif] at R1 R3 RS hB hC hD hE
      refine ⟨?_, ?_, ?_, ?_, ?_, ?_⟩
      · rw [List.map_cons, List.sum_cons, R1]
        ring
      · intro u hex
        obtain ⟨r', hr', hru⟩ := hex
        rcases List.mem_cons.mp hr' with heq | hm
        · rw [heq] at hru
          obtain ⟨xy, hxy, hlo, hhi⟩ := hB u hru
          rw [hj0] at hlo hhi
          refine ⟨xy, (hfr u hru).trans hxy, by linarith, ?_⟩
          rw [R1, hj0]
          linarith
        · obtain ⟨xy, hxy, hlo, hhi⟩ := R3 u ⟨r', hm, hru⟩
          refine ⟨xy, hxy, ?_, hhi⟩
          rw [hj0] at hlo
          linarith
      · intro _
        rcases eq_or_ne rs' [] with rfl | hne2
        · cases hrest
          obtain ⟨uR, xyR, hrR, hpR, hxR⟩ := hE
          refine ⟨uR, xyR, ⟨r0, by simp, hrR⟩, hpR, ?_⟩
          rw [hxR, hkif, hj0]
          ring
        · obtain ⟨uR, xyR, ⟨r', hr', hrR⟩, hpR, hxR⟩ := R5 hne2
          exact ⟨uR, xyR, ⟨r', by simp [hr'], hrR⟩, hpR, hxR⟩
      · intro u₁ u₂ xy₁ xy₂ d hne h1 h2 hp₁ hp₂ hd₁ hd₂
        obtain ⟨r₁, hrm1, hru1⟩ := h1
        obtain ⟨r₂, hrm2, hru2⟩ := h2
        rcases List.mem_cons.mp hrm1 with heq1 | hm1
        · rw [heq1] at hru1
          rcases List.mem_cons.mp hrm2 with heq2 | hm2
          · rw [heq2] at hru2
            exact hG u₁ u₂ xy₁ xy₂ d hne hru1 hru2
              ((hfr u₁ hru1).symm.trans hp₁) ((hfr u₂ hru2).symm.trans hp₂) hd₁ hd₂
          · obtain ⟨xy₁', hxy₁', hlo1, hhi1⟩ := hB u₁ hru1
            have he1 : q1 u₁ = some xy₁' := (hfr u₁ hru1).trans hxy₁'
            rw [hp₁] at he1
            cases he1
            obtain ⟨xy₂', hxy₂', hlo2, hhi2⟩ := R3 u₂ ⟨r₂, hm2, hru2⟩
            rw [hp₂] at hxy₂'
            cases hxy₂'
            rw [hj0] at hhi1 hlo2
            have habs : nw + sep ≤ xy₂.1 - xy₁.1 := by linarith
            calc nw + sep ≤ xy₂.1 - xy₁.1 := habs
              _ ≤ |xy₂.1 - xy₁.1| := le_abs_self _
              _ = |xy₁.1 - xy₂.1| := abs_sub_comm _ _
        · rcases List.mem_cons.mp hrm2 with heq2 | hm2
          · rw [heq2] at hru2
            obtain ⟨xy₂', hxy₂', hlo2, hhi2⟩ := hB u₂ hru2
            have he2 : q1 u₂ = some xy₂' := (hfr u₂ hru2).trans hxy₂'
            rw [hp₂] at he2
            cases he2
            obtain ⟨xy₁', hxy₁', hlo1, hhi1⟩ := R3 u₁ ⟨r₁, hm1, hru1⟩
            rw [hp₁] at hxy₁'
            cases hxy₁'
            rw [hj0] at hhi2 hlo1
            have habs : nw + sep ≤ xy₁.1 - xy₂.1 := by linarith
            calc nw + sep ≤ xy₁.1 - xy₂.1 := habs
              _ ≤ |xy₁.1 - xy₂.1| := le_abs_self _
          · exact R7 u₁ u₂ xy₁ xy₂ d hne ⟨r₁, hm1, hru1⟩ ⟨r₂, hm2, hru2⟩
              hp₁ hp₂ hd₁ hd₂
      · intro u xyu wu hex hpu hWu hchu
        obtain ⟨r', hr', hru⟩ := hex
        rcases List.mem_cons.mp hr' with heq | hm
        · rw [heq] at hru
          have hpu2 : p2 u = some xyu := (hfr u hru).symm.trans hpu
          obtain ⟨chF, chL, xyF, xyL, wF, wL, hmF, hmL, hpF, hpL, hWF, hWL,
            hxF, hxL, hbd⟩ := hH u xyu wu hru hpu2 hWu hchu
          refine ⟨chF, chL, xyF, xyL, wF, wL, hmF, hmL,
            (hfr chF (hru.trans (.step hmF (.refl chF)))).trans hpF,
            (hfr chL (hru.trans (.step hmL (.refl chL)))).trans hpL,
            hWF, hWL, hxF, hxL, ?_⟩
          intro x hx
          obtain ⟨xy, hxy, hge, hle⟩ := hbd x hx
          exact ⟨xy, (hfr x (hru.trans (.step hx (.refl x)))).trans hxy, hge, hle⟩
        · exact RH u xyu wu ⟨r', hm, hru⟩ hpu hWu hchu
      · intro rs₁ r rs₂ heq
        cases rs₁ with
        | nil =>
          simp only [List.nil_append] at heq
          have hmw : r0 = r ∧ rs' = rs₂ := by
            cases heq
            exact ⟨rfl, rfl⟩
          obtain ⟨rfl, rfl⟩ := hmw
          refine ⟨?_, ?_, ?_⟩
          · intro u hru
            obtain ⟨xy, hxy, hlo, hhi⟩ := hB u hru
            refine ⟨xy, (hfr u hru).trans hxy, ?_, ?_⟩
            · simp only [List.map_nil, List.sum_nil]
              linarith
            · simp only [List.map_nil, List.sum_nil]
              linarith
          · obtain ⟨uL, xyL, hrL, hpL, hxL⟩ := hD
            refine ⟨uL, xyL, hrL, (hfr uL hrL).trans hpL, ?_⟩
            simp only [List.map_nil, List.sum_nil]
            rw [hxL, hj0]
            ring
          · obtain ⟨uR, xyR, hrR, hpR, hxR⟩ := hE
            refine ⟨uR, xyR, hrR, (hfr uR hrR).trans hpR, ?_⟩
            simp only [List.map_nil, List.sum_nil]
            rw [hxR, hj0]
            ring
        | cons rh rs₁t =>
          rw [List.cons_append] at heq
          have hmw : rh = r0 ∧ rs' = rs₁t ++ r :: rs₂ := by
            cases heq
            exact ⟨rfl, rfl⟩
          obtain ⟨rfl, heq2⟩ := hmw
          obtain ⟨S1, S2, S3⟩ := RS rs₁t r rs₂ heq2
          refine ⟨?_, ?_, ?_⟩
          · intro u hru
            obtain ⟨xy, hxy, hlo, hhi⟩ := S1 u hru
            refine ⟨xy, hxy, ?_, ?_⟩
            · rw [List.map_cons, List.sum_cons]
              linarith
            · rw [List.map_cons, List.sum_cons]
              linarith
          · obtain ⟨uL, xyL, hrL, hpL, hxL⟩ := S2
            refine ⟨uL, xyL, hrL, hpL, ?_⟩
            rw [List.map_cons, List.sum_cons, hxL]
            ring
          · obtain ⟨uR, xyR, hrR, hpR, hxR⟩ := S3
            refine ⟨uR, xyR, hrR, hpR, ?_⟩
            rw [List.map_cons, List.sum_cons, hxR]
            ring

theorem totalRootWidth_aux {W : WidthMap} {nw sep : ℚ} :
    ∀ (rs : List FlowNode) (t0 : ℚ) (k : Nat), 1 ≤ k →
      (rs.foldl (fun (acc : ℚ × Nat) r =>
        (acc.1 + jsOr (W r.id) nw + (if acc.2 > 0 then sep * 2 else 0), acc.2 + 1))
        (t0, k)).1 = t0 + (rs.map (fun r => jsOr (W r.id) nw + sep * 2)).sum
  | [], t0, k, _ => by simp
  | r :: rs, t0, k, hk => by
    simp only [List.foldl_cons]
    have hif : (if k > 0 then sep * 2 else 0) = sep * 2 := if_pos (by omega)
    rw [hif, totalRootWidth_aux rs (t0 + jsOr (W r.id) nw + sep * 2) (k + 1) (by omega),
      List.map_cons, List.sum_cons]
    ring

theorem totalRootWidth_cons {W : WidthMap} {nw sep : ℚ}
    (r0 : FlowNode) (rest : List FlowNode) :
    totalRootWidth (r0 :: rest) W nw sep =
      jsOr (W r0.id) nw + (rest.map (fun r => jsOr (W r.id) nw + sep * 2)).sum := by
  rw [totalRootWidth]
  simp only [List.foldl_cons]
  have hif : (if (0 : Nat) > 0 then sep * 2 else 0) = 0 := if_neg (by omega)
  rw [hif, totalRootWidth_aux rest (0 + jsOr (W r0.id) nw + 0) 1 (le_refl 1)]
  ring

/-- The global geometry of the final position map: all cards lie within the
`[-T/2, T/2]` band (T the total root width), touch both ends, same-depth
cards are separated, every internal node's children are bracketed by its
first and last child, and each root's tree occupies exactly its own slice. -/
theorem layoutPositions_geom {fuel : Nat} {ns : List FlowNode} {es : List FlowEdge}
    {nw sep : ℚ} {p : PosMap} (hF : ForestEdges ns es)
    (hnw : 0 < nw) (hsep : 0 ≤ sep)
    (h : layoutPositions fuel ns es nw sep = some p) :
    ∃ dm W, layoutDepthMap fuel ns es = some dm ∧
      layoutWidthMap fuel ns es nw sep = some W ∧
      ((∀ u, (∃ r ∈ layoutRoots ns es, ReachC (childrenOf es) r.id u) →
        ∃ xy, p u = some xy ∧
          -(totalRootWidth (layoutRoots ns es) W nw sep / 2) + nw / 2 ≤ xy.1 ∧
          xy.1 ≤ totalRootWidth (layoutRoots ns es) W nw sep / 2 - nw / 2) ∧
      (∀ u₁ u₂ xy₁ xy₂ (d : Nat), u₁ ≠ u₂ →
          (∃ r ∈ layoutRoots ns es, ReachC (childrenOf es) r.id u₁) →
          (∃ r ∈ layoutRoots ns es, ReachC (childrenOf es) r.id u₂) →
          p u₁ = some xy₁ → p u₂ = some xy₂ →
          DVal es u₁ d → DVal es u₂ d → nw + sep ≤ |xy₁.1 - xy₂.1|) ∧
      (∀ u xyu wu, (∃ r ∈ layoutRoots ns es, ReachC (childrenOf es) r.id u) →
          p u = some xyu → W u = some wu → childrenOf es u ≠ [] →
          ∃ chF chL xyF xyL wF wL, chF ∈ childrenOf es u ∧ chL ∈ childrenOf es u ∧
            p chF = some xyF ∧ p chL = some xyL ∧
            W chF = some wF ∧ W chL = some wL ∧
            xyF.1 = xyu.1 - wu / 2 + wF / 2 ∧ xyL.1 = xyu.1 + wu / 2 - wL / 2 ∧
            (∀ x ∈ childrenOf es u, ∃ xy, p x = some xy ∧
              xyF.1 ≤ xy.1 ∧ xy.1 ≤ xyL.1)) ∧
      (layoutRoots ns es ≠ [] →
        (∃ uL xyL, (∃ r ∈ layoutRoots ns es, ReachC (childrenOf es) r.id uL) ∧
          p uL = some xyL ∧
          xyL.1 = -(totalRootWidth (layoutRoots ns es) W nw sep / 2) + nw / 2) ∧
        (∃ uR xyR, (∃ r ∈ layoutRoots ns es, ReachC (childrenOf es) r.id uR) ∧
          p uR = some xyR ∧
          xyR.1 = totalRootWidth (layoutRoots ns es) W nw sep / 2 - nw / 2)) ∧
      (∀ rs₁ r rs₂, layoutRoots ns es = rs₁ ++ r :: rs₂ →
          (∀ u, ReachC (childrenOf es) r.id u → ∃ xy, p u = some xy ∧
            -(totalRootWidth (layoutRoots ns es) W nw sep / 2)
              + (rs₁.map (fun x => jsOr (W x.id) nw + sep * 2)).sum + nw / 2 ≤ xy.1 ∧
            xy.1 ≤ -(totalRootWidth (layoutRoots ns es) W nw sep / 2)
              + (rs₁.map (fun x => jsOr (W x.id) nw + sep * 2)).sum
              + jsOr (W r.id) nw - nw / 2) ∧
          (∃ uL xyL, ReachC (childrenOf es) r.id uL ∧ p uL = some xyL ∧
            xyL.1 = -(totalRootWidth (layoutRoots ns es) W nw sep / 2)
              + (rs₁.map (fun x => jsOr (W x.id) nw + sep * 2)).sum + nw / 2) ∧
          (∃ uR xyR, ReachC (childrenOf es) r.id uR ∧ p uR = some xyR ∧
            xyR.1 = -(totalRootWidth (layoutRoots ns es) W nw sep / 2)
              + (rs₁.map (fun x => jsOr (W x.id) nw + sep * 2)).sum
              + jsOr (W r.id) nw - nw / 2))) := by
  cases hdm : layoutDepthMap fuel ns es with
  | none =>
    simp only [layoutPositions, hdm] at h
    exact Option.noConfusion h
  | some dm =>
    cases hW : layoutWidthMap fuel ns es nw sep with
    | none =>
      simp only [layoutPositions, hdm, hW] at h
      exact Option.noConfusion h
    | some W =>
      simp only [layoutPositions, hdm, hW] at h
      refine ⟨dm, W, rfl, rfl, ?_⟩
      obtain ⟨hWcan, hWcov⟩ := layoutWidthMap_spec hW
      have hWall : ∀ r ∈ layoutRoots ns es, ∀ u, ReachC (childrenOf es) r.id u →
          ∃ w, W u = some w ∧ WVal (childrenOf es) nw sep u w := by
        intro r hr u hru
        obtain ⟨wu, hwu⟩ := hWcov r hr u hru
        exact ⟨wu, hwu, hWcan u wu hwu⟩
      have hrootsnodup : ((layoutRoots ns es).map FlowNode.id).Nodup := by
        have hsub : (layoutRoots ns es).Sublist ns := by
          rw [layoutRoots]
          exact List.filter_sublist ns
        exact (hsub.map FlowNode.id).nodup hF.1
      obtain ⟨rank, hrank⟩ := hF.2.2.2
      cases hfold : optFold (fun r (acc : PosMap × ℚ × Nat) =>
          match positionSubtreeF (childrenOf es) W dm
              (calculateLevelYPositions (calculateLevelHeights ns dm)
                (layoutMaxDepth dm) MIN_GAP_BETWEEN_TIERS) nw sep fuel r.id
              ((if acc.2.2 > 0 then acc.2.1 + sep * 2 else acc.2.1)
                + jsOr (W r.id) nw / 2) acc.1 with
          | none => none
          | some p' => some (p',
              (if acc.2.2 > 0 then acc.2.1 + sep * 2 else acc.2.1)
                + jsOr (W r.id) nw, acc.2.2 + 1))
        (layoutRoots ns es)
        ((fun _ => none), -(totalRootWidth (layoutRoots ns es) W nw sep / 2), 0) with
      | none =>
        rw [hfold] at h
        exact Option.noConfusion h
      | some st =>
        obtain ⟨p₀, x₀, k₀⟩ := st
        rw [hfold] at h
        have hpp : p₀ = p := by
          have h3 : (some p₀ : Option PosMap) = some p := h
          cases h3
          rfl
        subst hpp
        by_cases hempty : layoutRoots ns es = []
        · rw [hempty] at hfold
          cases hfold
          refine ⟨?_, ?_, ?_, fun hne => absurd hempty hne, ?_⟩
          · rintro u ⟨r, hr, _⟩
            rw [hempty] at hr
            cases hr
          · intro u₁ u₂ xy₁ xy₂ d _ h1
            obtain ⟨r, hr, _⟩ := h1
            rw [hempty] at hr
            cases hr
          · intro u xyu wu h1
            obtain ⟨r, hr, _⟩ := h1
            rw [hempty] at hr
            cases hr
          · intro rs₁ r rs₂ heq
            rw [hempty] at heq
            obtain ⟨_, h2⟩ := List.append_eq_nil.mp heq.symm
            cases h2
        · obtain ⟨r0, rest, hrs⟩ := List.exists_cons_of_ne_nil hempty
          rw [hrs] at hfold hWall hrootsnodup ⊢
          obtain ⟨s₁, hfx, hrest⟩ := optFold_cons_inv hfold
          have hkif0 : (if (0 : Nat) > 0 then
              -(totalRootWidth (r0 :: rest) W nw sep / 2) + sep * 2
              else -(totalRootWidth (r0 :: rest) W nw sep / 2)) =
              -(totalRootWidth (r0 :: rest) W nw sep / 2) := if_neg (by omega)
          have hr0root : hasParent es r0.id = false := by
            have hr0mem : r0 ∈ layoutRoots ns es := by
              rw [hrs]
              simp
            rw [layoutRoots, List.mem_filter] at hr0mem
            simpa using hr0mem.2
          have hWsub0 : ∀ u, ReachC (childrenOf es) r0.id u →
              ∃ w, W u = some w ∧ WVal (childrenOf es) nw sep u w :=
            hWall r0 (by simp)
          obtain ⟨w0, hW0, hV0⟩ := hWsub0 r0.id (.refl r0.id)
          obtain ⟨hj0, hg0⟩ := jsOr_width hF hnw hsep hW0 hV0
          cases hps : positionSubtreeF (childrenOf es) W dm
              (calculateLevelYPositions (calculateLevelHeights ns dm)
                (layoutMaxDepth dm) MIN_GAP_BETWEEN_TIERS) nw sep fuel r0.id
              ((if (0 : Nat) > 0 then
                  -(totalRootWidth (r0 :: rest) W nw sep / 2) + sep * 2
                  else -(totalRootWidth (r0 :: rest) W nw sep / 2))
                + jsOr (W r0.id) nw / 2) (fun _ => none) with
          | none => rw [hps] at hfx; cases hfx
          | some p2 =>
            rw [hps] at hfx
            cases hfx
            obtain ⟨hB, hC, hD, hE, hG, hH⟩ :=
              positionSubtreeF_geom hF hnw hsep hps hWsub0 hW0
            obtain ⟨R1, R3, R5, R7, RH, RS⟩ := rootsGeomFold hF hnw hsep rest
              (fun x hx => by rw [hrs]; simp [hx]) (by simpa using hrootsnodup.of_cons)
              (fun x hx => hWall x (by simp [hx]))
              p2 ((if (0 : Nat) > 0 then
                  -(totalRootWidth (r0 :: rest) W nw sep / 2) + sep * 2
                  else -(totalRootWidth (r0 :: rest) W nw sep / 2))
                + jsOr (W r0.id) nw) 1 p₀ x₀ k₀ (le_refl 1) hrest
            have hfr : ∀ u, ReachC (childrenOf es) r0.id u → p₀ u = p2 u := by
              intro u hu
              rcases rootsFold_domain hrest u with h1 | ⟨r', hr', hru⟩
              · exact h1
              · have hne : r'.id ≠ r0.id := by
                  intro he
                  have h0 : r0.id ∉ rest.map FlowNode.id :=
                    (List.nodup_cons.mp hrootsnodup).1
                  exact h0 (he ▸ List.mem_map_of_mem _ hr')
                have hr'root : hasParent es r'.id = false := by
                  have hmem : r' ∈ layoutRoots ns es := by
                    rw [hrs]
                    simp [hr']
                  rw [layoutRoots, List.mem_filter] at hmem
                  simpa using hmem.2
                exact (root_disjoint hF hne hr'root hr0root hru hu).elim
            have hs0 : 0 ≤ (rest.map (fun r => jsOr (W r.id) nw + sep * 2)).sum := by
              refine List.sum_nonneg ?_
              intro t ht
              obtain ⟨x, hx, rfl⟩ := List.mem_map.mp ht
              obtain ⟨wx, hWx, hVx⟩ := hWall x (by simp [hx]) x.id (.refl x.id)
              obtain ⟨hjx, hgx⟩ := jsOr_width hF hnw hsep hWx hVx
              rw [hjx]
              linarith
            rw [hkif0] at R1 R3 RS hB hC hD hE
            have hT : totalRootWidth (r0 :: rest) W nw sep =
                jsOr (W r0.id) nw +
                  (rest.map (fun r => jsOr (W r.id) nw + sep * 2)).sum :=
              totalRootWidth_cons r0 rest
            have hX1 : x₀ = totalRootWidth (r0 :: rest) W nw sep / 2 := by
              rw [R1, hT]
              ring
            refine ⟨?_, ?_, ?_, ?_, ?_⟩
            · intro u hex
              obtain ⟨r', hr', hru⟩ := hex
              rcases List.mem_cons.mp hr' with heq | hm
              · rw [heq] at hru
                obtain ⟨xy, hxy, hlo, hhi⟩ := hB u hru
                rw [hj0] at hlo hhi
                refine ⟨xy, (hfr u hru).trans hxy, by linarith, ?_⟩
                rw [hT, hj0]
                linarith
              · obtain ⟨xy, hxy, hlo, hhi⟩ := R3 u ⟨r', hm, hru⟩
                rw [hX1] at hhi
                refine ⟨xy, hxy, ?_, hhi⟩
                rw [hj0] at hlo
                linarith
            · intro u₁ u₂ xy₁ xy₂ d hne h1 h2 hp₁ hp₂ hd₁ hd₂
              obtain ⟨r₁, hrm1, hru1⟩ := h1
              obtain ⟨r₂, hrm2, hru2⟩ := h2
              rcases List.mem_cons.mp hrm1 with heq1 | hm1
              · rw [heq1] at hru1
                rcases List.mem_cons.mp hrm2 with heq2 | hm2
                · rw [heq2] at hru2
                  exact hG u₁ u₂ xy₁ xy₂ d hne hru1 hru2
                    ((hfr u₁ hru1).symm.trans hp₁) ((hfr u₂ hru2).symm.trans hp₂)
                    hd₁ hd₂
                · obtain ⟨xy₁', hxy₁', hlo1, hhi1⟩ := hB u₁ hru1
                  have he1 : p₀ u₁ = some xy₁' := (hfr u₁ hru1).trans hxy₁'
                  rw [hp₁] at he1
                  cases he1
                  obtain ⟨xy₂', hxy₂', hlo2, hhi2⟩ := R3 u₂ ⟨r₂, hm2, hru2⟩
                  rw [hp₂] at hxy₂'
                  cases hxy₂'
                  rw [hj0] at hhi1 hlo2
                  have habs : nw + sep ≤ xy₂.1 - xy₁.1 := by linarith
                  calc nw + sep ≤ xy₂.1 - xy₁.1 := habs
                    _ ≤ |xy₂.1 - xy₁.1| := le_abs_self _
                    _ = |xy₁.1 - xy₂.1| := abs_sub_comm _ _
              · rcases List.mem_cons.mp hrm2 with heq2 | hm2
                · rw [heq2] at hru2
                  obtain ⟨xy₂', hxy₂', hlo2, hhi2⟩ := hB u₂ hru2
                  have he2 : p₀ u₂ = some xy₂' := (hfr u₂ hru2).trans hxy₂'
                  rw [hp₂] at he2
                  cases he2
                  obtain ⟨xy₁', hxy₁', hlo1, hhi1⟩ := R3 u₁ ⟨r₁, hm1, hru1⟩
                  rw [hp₁] at hxy₁'
                  cases hxy₁'
                  rw [hj0] at hhi2 hlo1
                  have habs : nw + sep ≤ xy₁.1 - xy₂.1 := by linarith
                  calc nw + sep ≤ xy₁.1 - xy₂.1 := habs
                    _ ≤ |xy₁.1 - xy₂.1| := le_abs_self _
                · exact R7 u₁ u₂ xy₁ xy₂ d hne ⟨r₁, hm1, hru1⟩ ⟨r₂, hm2, hru2⟩
                    hp₁ hp₂ hd₁ hd₂
            · intro u xyu wu hex hpu hWu hchu
              obtain ⟨r', hr', hru⟩ := hex
              rcases List.mem_cons.mp hr' with heq | hm
              · rw [heq] at hru
                have hpu2 : p2 u = some xyu := (hfr u hru).symm.trans hpu
                obtain ⟨chF, chL, xyF, xyL, wF, wL, hmF, hmL, hpF, hpL, hWF, hWL,
                  hxF, hxL, hbd⟩ := hH u xyu wu hru hpu2 hWu hchu
                refine ⟨chF, chL, xyF, xyL, wF, wL, hmF, hmL,
                  (hfr chF (hru.trans (.step hmF (.refl chF)))).trans hpF,
                  (hfr chL (hru.trans (.step hmL (.refl chL)))).trans hpL,
                  hWF, hWL, hxF, hxL, ?_⟩
                intro x hx
                obtain ⟨xy, hxy, hge, hle⟩ := hbd x hx
                exact ⟨xy, (hfr x (hru.trans (.step hx (.refl x)))).trans hxy, hge, hle⟩
              · exact RH u xyu wu ⟨r', hm, hru⟩ hpu hWu hchu
            · intro _
              constructor
              · obtain ⟨uL, xyL, hrL, hpL, hxL⟩ := hD
                refine ⟨uL, xyL, ⟨r0, by simp, hrL⟩, (hfr uL hrL).trans hpL, ?_⟩
                rw [hxL, hj0]
                ring
              · rcases eq_or_ne rest [] with rfl | hne2
                · cases hrest
                  obtain ⟨uR, xyR, hrR, hpR, hxR⟩ := hE
                  refine ⟨uR, xyR, ⟨r0, by simp, hrR⟩, hpR, ?_⟩
                  rw [hxR, hT, hj0]
                  simp only [List.map_nil, List.sum_nil]
                  ring
                · obtain ⟨uR, xyR, ⟨r', hr', hrR⟩, hpR, hxR⟩ := R5 hne2
                  refine ⟨uR, xyR, ⟨r', by simp [hr'], hrR⟩, hpR, ?_⟩
                  rw [hxR, hX1]
            · intro rs₁ r rs₂ heq
              cases rs₁ with
              | nil =>
                simp only [List.nil_append] at heq
                have hmw : r0 = r ∧ rest = rs₂ := by
                  cases heq
                  exact ⟨rfl, rfl⟩
                obtain ⟨rfl, rfl⟩ := hmw
                refine ⟨?_, ?_, ?_⟩
                · intro u hru
                  obtain ⟨xy, hxy, hlo, hhi⟩ := hB u hru
                  refine ⟨xy, (hfr u hru).trans hxy, ?_, ?_⟩
                  · simp only [List.map_nil, List.sum_nil]
                    linarith
                  · simp only [List.map_nil, List.sum_nil]
                    linarith
                · obtain ⟨uL, xyL, hrL, hpL, hxL⟩ := hD
                  refine ⟨uL, xyL, hrL, (hfr uL hrL).trans hpL, ?_⟩
                  simp only [List.map_nil, List.sum_nil]
                  rw [hxL, hj0]
                  ring
                · obtain ⟨uR, xyR, hrR, hpR, hxR⟩ := hE
                  refine ⟨uR, xyR, hrR, (hfr uR hrR).trans hpR, ?_⟩
                  simp only [List.map_nil, List.sum_nil]
                  rw [hxR, hj0]
                  ring
              | cons rh rs₁t =>
                rw [List.cons_append] at heq
                have hmw : rh = r0 ∧ rest = rs₁t ++ r :: rs₂ := by
                  cases heq
                  exact ⟨rfl, rfl⟩
                obtain ⟨rfl, heq2⟩ := hmw
                obtain ⟨S1, S2, S3⟩ := RS rs₁t r rs₂ heq2
                refine ⟨?_, ?_, ?_⟩
                · intro u hru
                  obtain ⟨xy, hxy, hlo, hhi⟩ := S1 u hru
                  refine ⟨xy, hxy, ?_, ?_⟩
                  · rw [List.map_cons, List.sum_cons]
                    linarith
                  · rw [List.map_cons, List.sum_cons]
                    linarith
                · obtain ⟨uL, xyL, hrL, hpL, hxL⟩ := S2
                  refine ⟨uL, xyL, hrL, hpL, ?_⟩
                  rw [List.map_cons, List.sum_cons, hxL]
                  ring
                · obtain ⟨uR, xyR, hrR, hpR, hxR⟩ := S3
                  refine ⟨uR, xyR, hrR, hpR, ?_⟩
                  rw [List.map_cons, List.sum_cons, hxR]
                  ring

/-! ## Claim C1: no horizontal overlap within a tier -/

/-- C1: for a forest input, whenever the layout returns, the horizontal card
intervals `[x - nodeWidth/2, x + nodeWidth/2]` of two distinct nodes at the
same computed depth do not overlap (tangency allowed). -/
theorem C1_no_overlap {fuel : Nat} {ns : List FlowNode} {es : List FlowEdge}
    {opts : LayoutOptions} {out : List PositionedNode}
    (hF : ForestEdges ns es) (hnw : 0 < opts.nodeWidth) (hsep : 0 ≤ opts.nodeSep)
    (h : calculateTreeLayoutF fuel ns es opts = some out)
    {q₁ q₂ : PositionedNode} (h₁ : q₁ ∈ out) (h₂ : q₂ ∈ out)
    (hne : q₁.id ≠ q₂.id) {d : Nat}
    (hd₁ : DVal es q₁.id d) (hd₂ : DVal es q₂.id d) :
    q₁.position.1 + opts.nodeWidth / 2 ≤ q₂.position.1 - opts.nodeWidth / 2 ∨
    q₂.position.1 + opts.nodeWidth / 2 ≤ q₁.position.1 - opts.nodeWidth / 2 := by
  by_cases hemp : ns.isEmpty
  · rw [calculateTreeLayoutF, if_pos hemp] at h
    cases h
    cases h₁
  · rw [calculateTreeLayoutF, if_neg hemp] at h
    cases hp : layoutPositions fuel ns es opts.nodeWidth opts.nodeSep with
    | none => rw [hp] at h; cases h
    | some p =>
      rw [hp] at h
      cases h
      obtain ⟨dm, W, hdm, hWm, GB, GS, GH, GW, GSp⟩ :=
        layoutPositions_geom hF hnw hsep hp
      obtain ⟨m₁, hm₁, rfl⟩ := List.mem_map.mp h₁
      obtain ⟨m₂, hm₂, rfl⟩ := List.mem_map.mp h₂
      simp only at hne hd₁ hd₂ ⊢
      have hre₁ := all_reachable hF (List.mem_map_of_mem FlowNode.id hm₁)
      have hre₂ := all_reachable hF (List.mem_map_of_mem FlowNode.id hm₂)
      obtain ⟨xy₁, hxy₁, _, _⟩ := GB m₁.id hre₁
      obtain ⟨xy₂, hxy₂, _, _⟩ := GB m₂.id hre₂
      have hs := GS m₁.id m₂.id xy₁ xy₂ d hne hre₁ hre₂ hxy₁ hxy₂ hd₁ hd₂
      rw [hxy₁, hxy₂]
      simp only [Option.getD_some]
      rcases le_total xy₁.1 xy₂.1 with hle | hle
      · left
        have habs : |xy₁.1 - xy₂.1| = xy₂.1 - xy₁.1 := by
          rw [abs_sub_comm]
          exact abs_of_nonneg (by linarith)
        rw [habs] at hs
        linarith
      · right
        have habs : |xy₁.1 - xy₂.1| = xy₁.1 - xy₂.1 :=
          abs_of_nonneg (by linarith)
        rw [habs] at hs
        linarith

set_option maxHeartbeats 2000000 in
/-- C1 witness: in the concrete forest the two depth-1 siblings get
non-overlapping card intervals. -/
theorem C1_witness :
    ∃ out, calculateTreeLayoutF 4 wfNs wfEs {} = some out ∧
      ∀ q₁ ∈ out, ∀ q₂ ∈ out, q₁.id = wfA.id → q₂.id = wfB.id →
        q₁.position.1 + (220 : ℚ) / 2 ≤ q₂.position.1 - 220 / 2 ∨
        q₂.position.1 + (220 : ℚ) / 2 ≤ q₁.position.1 - 220 / 2 := by
  refine ⟨_, by with_unfolding_all rfl, ?_⟩
  intro q₁ h₁ q₂ h₂ hid₁ hid₂
  exact @C1_no_overlap 4 wfNs wfEs {} _ wfForest (show (0 : ℚ) < 220 by norm_num)
    (show (0 : ℚ) ≤ 80 by norm_num) (by with_unfolding_all rfl) q₁ q₂ h₁ h₂
    (by rw [hid₁, hid₂]; decide) 1
    (by rw [hid₁]; exact wfD_aa) (by rw [hid₂]; exact wfD_ab)

/-! ## Claim C2: parents centered over their children -/

/-- C2: for a forest input, every node with at least one child sits at the
midpoint of (leftmost child x - its subtree width/2) and (rightmost child x +
its subtree width/2), the extremes taken over its direct children. -/
theorem C2_parent_centered {fuel : Nat} {ns : List FlowNode} {es : List FlowEdge}
    {opts : LayoutOptions} {out : List PositionedNode}
    (hF : ForestEdges ns es) (hnw : 0 < opts.nodeWidth) (hsep : 0 ≤ opts.nodeSep)
    (h : calculateTreeLayoutF fuel ns es opts = some out)
    {v : FlowNode} (hv : v ∈ ns) (hch : childrenOf es v.id ≠ []) :
    ∀ q ∈ out, q.id = v.id →
      ∃ chF chL, chF ∈ childrenOf es v.id ∧ chL ∈ childrenOf es v.id ∧
      ∃ qF ∈ out, ∃ qL ∈ out, qF.id = chF ∧ qL.id = chL ∧
      ∃ wF wL, WVal (childrenOf es) opts.nodeWidth opts.nodeSep chF wF ∧
        WVal (childrenOf es) opts.nodeWidth opts.nodeSep chL wL ∧
      (∀ ch ∈ childrenOf es v.id, ∀ qc ∈ out, qc.id = ch →
        qF.position.1 ≤ qc.position.1 ∧ qc.position.1 ≤ qL.position.1) ∧
      q.position.1 = ((qF.position.1 - wF / 2) + (qL.position.1 + wL / 2)) / 2 := by
  have hemp : ¬ ns.isEmpty := by
    intro he
    rw [List.isEmpty_iff.mp he] at hv
    cases hv
  rw [calculateTreeLayoutF, if_neg hemp] at h
  cases hp : layoutPositions fuel ns es opts.nodeWidth opts.nodeSep with
  | none => rw [hp] at h; cases h
  | some p =>
    rw [hp] at h
    cases h
    obtain ⟨dm, W, hdm, hWm, GB, GS, GH, GW, GSp⟩ :=
      layoutPositions_geom hF hnw hsep hp
    obtain ⟨hWcan, hWcov⟩ := layoutWidthMap_spec hWm
    intro q hq hqid
    obtain ⟨m, hm, rfl⟩ := List.mem_map.mp hq
    simp only at hqid ⊢
    have hre := all_reachable hF (List.mem_map_of_mem FlowNode.id hm)
    obtain ⟨xyu, hxyu, _, _⟩ := GB m.id hre
    obtain ⟨r, hr, hru⟩ := hre
    obtain ⟨wu, hwu⟩ := hWcov r hr m.id hru
    have hchm : childrenOf es m.id ≠ [] := by
      rw [hqid]
      exact hch
    obtain ⟨chF, chL, xyF, xyL, wF, wL, hmF, hmL, hpF, hpL, hWF, hWL,
      hxF, hxL, hbd⟩ := GH m.id xyu wu ⟨r, hr, hru⟩ hxyu hwu hchm
    rw [hqid] at hmF hmL hbd
    obtain ⟨mF, hmF2, hidF⟩ := List.mem_map.mp (child_mem_ids hF
      (show chF ∈ childrenOf es v.id from hmF))
    obtain ⟨mL, hmL2, hidL⟩ := List.mem_map.mp (child_mem_ids hF
      (show chL ∈ childrenOf es v.id from hmL))
    refine ⟨chF, chL, hmF, hmL, _, List.mem_map_of_mem _ hmF2,
      _, List.mem_map_of_mem _ hmL2, hidF, hidL, wF, wL,
      hWcan chF wF hWF, hWcan chL wL hWL, ?_, ?_⟩
    · intro ch hchm2 qc hqc hqcid
      obtain ⟨mc, hmc, rfl⟩ := List.mem_map.mp hqc
      simp only at hqcid ⊢
      obtain ⟨xy, hxy, hge, hle⟩ := hbd ch hchm2
      rw [hqcid, hidF, hidL, hpF, hpL, hxy]
      simp only [Option.getD_some]
      constructor
      · linarith
      · linarith
    · rw [hidF, hidL, hpF, hpL, hxyu]
      simp only [Option.getD_some]
      linarith [hxF, hxL]

set_option maxHeartbeats 2000000 in
/-- C2 witness: in the concrete forest the root sits at the midpoint of its
two children's card extremes. -/
theorem C2_witness :
    ∃ out, calculateTreeLayoutF 4 wfNs wfEs {} = some out ∧
      ∀ q ∈ out, q.id = wfR.id →
        ∃ chF chL, chF ∈ childrenOf wfEs wfR.id ∧ chL ∈ childrenOf wfEs wfR.id ∧
        ∃ qF ∈ out, ∃ qL ∈ out, qF.id = chF ∧ qL.id = chL ∧
        ∃ wF wL, WVal (childrenOf wfEs) 220 80 chF wF ∧
          WVal (childrenOf wfEs) 220 80 chL wL ∧
        (∀ ch ∈ childrenOf wfEs wfR.id, ∀ qc ∈ out, qc.id = ch →
          qF.position.1 ≤ qc.position.1 ∧ qc.position.1 ≤ qL.position.1) ∧
        q.position.1 = ((qF.position.1 - wF / 2) + (qL.position.1 + wL / 2)) / 2 := by
  refine ⟨_, by with_unfolding_all rfl, ?_⟩
  intro q hq hqid
  exact @C2_parent_centered 4 wfNs wfEs {} _ wfForest
    (show (0 : ℚ) < 220 by norm_num) (show (0 : ℚ) ≤ 80 by norm_num)
    (by with_unfolding_all rfl) wfR (by decide) (by decide) q hq hqid

/-! ## Claim C5: independent root trees side by side, centered at 0 -/

theorem reach_mem_ids {ns : List FlowNode} {es : List FlowEdge}
    (hF : ForestEdges ns es) {r : FlowNode} (hr : r ∈ layoutRoots ns es)
    {u : String} (h : ReachC (childrenOf es) r.id u) :
    u ∈ ns.map FlowNode.id := by
  rcases h.last_step with rfl | ⟨w, _, hin⟩
  · have : r ∈ ns := by
      rw [layoutRoots] at hr
      exact (List.mem_filter.mp hr).1
    exact List.mem_map_of_mem _ this
  · exact child_mem_ids hF hin

/-- C5: for a forest input with at least two root trees, the trees are placed
side by side without overlap; consecutive trees' bounding boxes are separated
by exactly the fixed `nodeSep * 2` gap; and the bounding box of all placed
cards `[x, x + nodeWidth]` is centered horizontally at `x = 0`. -/
theorem C5_forest_layout {fuel : Nat} {ns : List FlowNode} {es : List FlowEdge}
    {opts : LayoutOptions} {out : List PositionedNode}
    (hF : ForestEdges ns es) (hnw : 0 < opts.nodeWidth) (hsep : 0 ≤ opts.nodeSep)
    (hmulti : 2 ≤ (layoutRoots ns es).length)
    (h : calculateTreeLayoutF fuel ns es opts = some out) :
    (∀ r₁ ∈ layoutRoots ns es, ∀ r₂ ∈ layoutRoots ns es, r₁.id ≠ r₂.id →
      ∀ q₁ ∈ out, ∀ q₂ ∈ out,
        ReachC (childrenOf es) r₁.id q₁.id → ReachC (childrenOf es) r₂.id q₂.id →
        q₁.position.1 + opts.nodeWidth ≤ q₂.position.1 ∨
        q₂.position.1 + opts.nodeWidth ≤ q₁.position.1) ∧
    (∀ rs₁ r r2 rs₂, layoutRoots ns es = rs₁ ++ r :: r2 :: rs₂ →
      ∃ e : ℚ,
        (∀ q ∈ out, ReachC (childrenOf es) r.id q.id →
          q.position.1 + opts.nodeWidth ≤ e) ∧
        (∃ q ∈ out, ReachC (childrenOf es) r.id q.id ∧
          q.position.1 + opts.nodeWidth = e) ∧
        (∀ q ∈ out, ReachC (childrenOf es) r2.id q.id →
          e + opts.nodeSep * 2 ≤ q.position.1) ∧
        (∃ q ∈ out, ReachC (childrenOf es) r2.id q.id ∧
          q.position.1 = e + opts.nodeSep * 2)) ∧
    (∃ qL ∈ out, ∃ qR ∈ out,
      (∀ q ∈ out, qL.position.1 ≤ q.position.1 ∧ q.position.1 ≤ qR.position.1) ∧
      qL.position.1 + (qR.position.1 + opts.nodeWidth) = 0) := by
  have hrne : layoutRoots ns es ≠ [] := by
    intro he
    rw [he] at hmulti
    simp at hmulti
  have hemp : ¬ ns.isEmpty := by
    intro he
    refine hrne ?_
    rw [layoutRoots, List.isEmpty_iff.mp he]
    rfl
  rw [calculateTreeLayoutF, if_neg hemp] at h
  cases hp : layoutPositions fuel ns es opts.nodeWidth opts.nodeSep with
  | none => rw [hp] at h; cases h
  | some p =>
    rw [hp] at h
    cases h
    obtain ⟨dm, W, hdm, hWm, GB, GS, GH, GW, GSp⟩ :=
      layoutPositions_geom hF hnw hsep hp
    obtain ⟨hWcan, hWcov⟩ := layoutWidthMap_spec hWm
    have hsnn : ∀ (l : List FlowNode), (∀ x ∈ l, x ∈ layoutRoots ns es) →
        0 ≤ (l.map (fun x => jsOr (W x.id) opts.nodeWidth + opts.nodeSep * 2)).sum := by
      intro l hl
      refine List.sum_nonneg ?_
      intro t ht
      obtain ⟨x, hx, rfl⟩ := List.mem_map.mp ht
      obtain ⟨wx, hWx⟩ := hWcov x (hl x hx) x.id (.refl x.id)
      obtain ⟨hjx, hgx⟩ := jsOr_width hF hnw hsep hWx (hWcan x.id wx hWx)
      rw [hjx]
      linarith
    have key : ∀ (sA : List FlowNode) (rA : FlowNode) (sB : List FlowNode)
        (rB : FlowNode) (tB : List FlowNode),
        layoutRoots ns es = sA ++ rA :: (sB ++ rB :: tB) →
        ∀ uA uB xyA xyB, ReachC (childrenOf es) rA.id uA →
          ReachC (childrenOf es) rB.id uB →
          p uA = some xyA → p uB = some xyB →
          xyA.1 + opts.nodeWidth ≤ xyB.1 := by
      intro sA rA sB rB tB hsp uA uB xyA xyB hruA hruB hpA hpB
      have hspB : layoutRoots ns es = (sA ++ rA :: sB) ++ rB :: tB := by
        rw [hsp]
        simp
      obtain ⟨xyA', hxyA', hloA, hhiA⟩ := (GSp sA rA (sB ++ rB :: tB) hsp).1 uA hruA
      rw [hpA] at hxyA'
      cases hxyA'
      obtain ⟨xyB', hxyB', hloB, hhiB⟩ := (GSp (sA ++ rA :: sB) rB tB hspB).1 uB hruB
      rw [hpB] at hxyB'
      cases hxyB'
      have hsum : (((sA ++ rA :: sB)).map
          (fun x => jsOr (W x.id) opts.nodeWidth + opts.nodeSep * 2)).sum
          = (sA.map (fun x => jsOr (W x.id) opts.nodeWidth + opts.nodeSep * 2)).sum
            + (jsOr (W rA.id) opts.nodeWidth + opts.nodeSep * 2)
            + (sB.map (fun x => jsOr (W x.id) opts.nodeWidth + opts.nodeSep * 2)).sum := by
        rw [List.map_append, List.sum_append, List.map_cons, List.sum_cons]
        ring
      have hsB : 0 ≤ (sB.map
          (fun x => jsOr (W x.id) opts.nodeWidth + opts.nodeSep * 2)).sum :=
        hsnn sB (fun x hx => by rw [hsp]; simp [hx])
      rw [hsum] at hloB
      linarith
    refine ⟨?_, ?_, ?_⟩
    · intro r₁ hr₁ r₂ hr₂ hneid q₁ hq₁ q₂ hq₂ hru₁ hru₂
      obtain ⟨m₁, hm₁, rfl⟩ := List.mem_map.mp hq₁
      obtain ⟨m₂, hm₂, rfl⟩ := List.mem_map.mp hq₂
      simp only at hru₁ hru₂ ⊢
      obtain ⟨xy₁, hxy₁, _, _⟩ := GB m₁.id ⟨r₁, hr₁, hru₁⟩
      obtain ⟨xy₂, hxy₂, _, _⟩ := GB m₂.id ⟨r₂, hr₂, hru₂⟩
      rw [hxy₁, hxy₂]
      simp only [Option.getD_some]
      obtain ⟨s₁, t₁, hsplit₁⟩ := List.append_of_mem hr₁
      have hr₂' := hr₂
      rw [hsplit₁] at hr₂'
      rcases List.mem_append.mp hr₂' with hin | hin
      · -- r₂ comes before r₁
        obtain ⟨s₂, t₂, hsplit₂⟩ := List.append_of_mem hin
        have hsp : layoutRoots ns es = s₂ ++ r₂ :: (t₂ ++ r₁ :: t₁) := by
          rw [hsplit₁, hsplit₂]
          simp
        right
        have := key s₂ r₂ t₂ r₁ t₁ hsp m₂.id m₁.id xy₂ xy₁ hru₂ hru₁ hxy₂ hxy₁
        linarith
      · rcases List.mem_cons.mp hin with heq | hin2
        · exact absurd (congrArg FlowNode.id heq.symm) hneid
        · obtain ⟨s₂, t₂, hsplit₂⟩ := List.append_of_mem hin2
          have hsp : layoutRoots ns es = s₁ ++ r₁ :: (s₂ ++ r₂ :: t₂) := by
            rw [hsplit₁, hsplit₂]
          left
          have := key s₁ r₁ s₂ r₂ t₂ hsp m₁.id m₂.id xy₁ xy₂ hru₁ hru₂ hxy₁ hxy₂
          linarith
    · intro rs₁ r r2 rs₂ heq
      have heqB : layoutRoots ns es = (rs₁ ++ [r]) ++ r2 :: rs₂ := by
        rw [heq]
        simp
      have hrmem : r ∈ layoutRoots ns es := by
        rw [heq]
        simp
      have hr2mem : r2 ∈ layoutRoots ns es := by
        rw [heq]
        simp
      obtain ⟨SA1, SA2, SA3⟩ := GSp rs₁ r (r2 :: rs₂) heq
      obtain ⟨SB1, SB2, SB3⟩ := GSp (rs₁ ++ [r]) r2 rs₂ heqB
      have hsum2 : ((rs₁ ++ [r]).map
          (fun x => jsOr (W x.id) opts.nodeWidth + opts.nodeSep * 2)).sum
          = (rs₁.map (fun x => jsOr (W x.id) opts.nodeWidth + opts.nodeSep * 2)).sum
            + (jsOr (W r.id) opts.nodeWidth + opts.nodeSep * 2) := by
        rw [List.map_append, List.sum_append]
        simp
      refine ⟨-(totalRootWidth (layoutRoots ns es) W opts.nodeWidth opts.nodeSep / 2)
        + (rs₁.map (fun x => jsOr (W x.id) opts.nodeWidth + opts.nodeSep * 2)).sum
        + jsOr (W r.id) opts.nodeWidth, ?_, ?_, ?_, ?_⟩
      · intro q hq hru
        obtain ⟨m, hm, rfl⟩ := List.mem_map.mp hq
        simp only at hru ⊢
        obtain ⟨xy, hxy, hlo, hhi⟩ := SA1 m.id hru
        rw [hxy]
        simp only [Option.getD_some]
        linarith
      · obtain ⟨uR, xyR, hrR, hpR, hxR⟩ := SA3
        obtain ⟨mR, hmR, hidR⟩ := List.mem_map.mp (reach_mem_ids hF hrmem hrR)
        refine ⟨_, List.mem_map_of_mem _ hmR, ?_, ?_⟩
        · show ReachC (childrenOf es) r.id mR.id
          rw [hidR]
          exact hrR
        · simp only
          rw [hidR, hpR]
          simp only [Option.getD_some]
          rw [hxR]
          ring
      · intro q hq hru
        obtain ⟨m, hm, rfl⟩ := List.mem_map.mp hq
        simp only at hru ⊢
        obtain ⟨xy, hxy, hlo, hhi⟩ := SB1 m.id hru
        rw [hxy]
        simp only [Option.getD_some]
        rw [hsum2] at hlo
        linarith
      · obtain ⟨uL, xyL, hrL, hpL, hxL⟩ := SB2
        obtain ⟨mL, hmL, hidL⟩ := List.mem_map.mp (reach_mem_ids hF hr2mem hrL)
        refine ⟨_, List.mem_map_of_mem _ hmL, ?_, ?_⟩
        · show ReachC (childrenOf es) r2.id mL.id
          rw [hidL]
          exact hrL
        · simp only
          rw [hidL, hpL]
          simp only [Option.getD_some]
          rw [hxL, hsum2]
          ring
    · obtain ⟨⟨uL, xyL, hexL, hpL, hxL⟩, ⟨uR, xyR, hexR, hpR, hxR⟩⟩ := GW hrne
      obtain ⟨rL, hrLm, hrLr⟩ := hexL
      obtain ⟨rR, hrRm, hrRr⟩ := hexR
      obtain ⟨mL, hmL, hidL⟩ := List.mem_map.mp (reach_mem_ids hF hrLm hrLr)
      obtain ⟨mR, hmR, hidR⟩ := List.mem_map.mp (reach_mem_ids hF hrRm hrRr)
      refine ⟨_, List.mem_map_of_mem _ hmL, _, List.mem_map_of_mem _ hmR, ?_, ?_⟩
      · intro q hq
        obtain ⟨m, hm, rfl⟩ := List.mem_map.mp hq
        simp only
        have hre := all_reachable hF (List.mem_map_of_mem FlowNode.id hm)
        obtain ⟨xy, hxy, hlo, hhi⟩ := GB m.id hre
        rw [hidL, hidR, hpL, hpR, hxy]
        simp only [Option.getD_some]
        constructor
        · linarith
        · linarith
      · simp only
        rw [hidL, hidR, hpL, hpR]
        simp only [Option.getD_some]
        linarith

set_option maxHeartbeats 2000000 in
/-- C5 witness: the two-tree concrete forest is laid out side by side with
the fixed gap and its bounding box centered at 0. -/
theorem C5_witness :
    ∃ out, calculateTreeLayoutF 4 wfNs wfEs {} = some out ∧
      ((∀ r₁ ∈ layoutRoots wfNs wfEs, ∀ r₂ ∈ layoutRoots wfNs wfEs, r₁.id ≠ r₂.id →
        ∀ q₁ ∈ out, ∀ q₂ ∈ out,
          ReachC (childrenOf wfEs) r₁.id q₁.id → ReachC (childrenOf wfEs) r₂.id q₂.id →
          q₁.position.1 + (220 : ℚ) ≤ q₂.position.1 ∨
          q₂.position.1 + (220 : ℚ) ≤ q₁.position.1) ∧
      (∀ rs₁ r r2 rs₂, layoutRoots wfNs wfEs = rs₁ ++ r :: r2 :: rs₂ →
        ∃ e : ℚ,
          (∀ q ∈ out, ReachC (childrenOf wfEs) r.id q.id →
            q.position.1 + (220 : ℚ) ≤ e) ∧
          (∃ q ∈ out, ReachC (childrenOf wfEs) r.id q.id ∧
            q.position.1 + (220 : ℚ) = e) ∧
          (∀ q ∈ out, ReachC (childrenOf wfEs) r2.id q.id →
            e + (80 : ℚ) * 2 ≤ q.position.1) ∧
          (∃ q ∈ out, ReachC (childrenOf wfEs) r2.id q.id ∧
            q.position.1 = e + (80 : ℚ) * 2)) ∧
      (∃ qL ∈ out, ∃ qR ∈ out,
        (∀ q ∈ out, qL.position.1 ≤ q.position.1 ∧ q.position.1 ≤ qR.position.1) ∧
        qL.position.1 + (qR.position.1 + (220 : ℚ)) = 0)) := by
  refine ⟨_, by with_unfolding_all rfl, ?_⟩
  exact @C5_forest_layout 4 wfNs wfEs {} _ wfForest
    (show (0 : ℚ) < 220 by norm_num) (show (0 : ℚ) ≤ 80 by norm_num)
    (by decide) (by with_unfolding_all rfl)

end TaxSpec
